import Mathlib

/-!
The demodulation and framing pipeline of `src/sdr_receiver/sdr_fusex.c`

The body of the `while (!do_exit)` loop of `main` (lines 346-548) is embedded as a
function on an explicit record of the local variables of `main` that survive from one
gap to the next.  C `int`s are `Int` (no value of the pipeline comes near 2^31 within
the executions considered: sums of samples are at most 7 * 4080, counters grow by one
per gap), array indices are `Nat`, C arrays are the lists of their cells.  The
single-precision arithmetic of line 427 is embedded as such (`roundQuotient32`).
-/

namespace SdrFusex

/-! ## Constants (lines 41-63, 119-127) -/

def DEFAULT_BITRATE : Int := 27
def DEBOUNCING_FILTER : Nat := 10
def BITRATE_DETECT : Int := 0
def PARITY_CHECK : Int := 1
def BITRATE_DETECT_START : Nat := 5
def BITRATE_DETECT_STOP : Nat := 20
def DEBOUNCING_FILTER_BUFFER_LENGTH : Nat := DEBOUNCING_FILTER + 2
def BIT_BUFFER_LENGTH : Nat := 12
def MAX_MESSAGE_LENGTH : Nat := 100
def STATE_BITRATE : Nat := 0
def STATE_FRAME : Nat := 1
def STATE_INTERFRAME : Nat := 2
def out_block_size : Nat := 512
def n_values_per_average : Nat := 16
def n_averages_per_gap : Nat := 8
def n_gaps_per_bit : Nat := 4
def bit_gap_trigger : Int := 1900

/-! ## C arrays -/

/-- Cell `i` of a C array of `int`s held as the list of its cells. -/
def cell (xs : List Int) (i : Nat) : Int := xs.getD i 0

/-- The store `xs[i] = v`.  C checks no bound: a store past the last declared cell lands
behind the array, which is undefined behaviour.  The list then grows up to that cell, only
so that such a store stays visible (the list gets longer than the declared capacity)
instead of being lost: a list longer than the declared array marks an execution that has
written outside the array, and what is proved of the characters held in the message
buffer is proved of stores within its declared cells. -/
def store (xs : List Int) (i : Nat) (v : Int) : List Int :=
  if i < xs.length then xs.set i v else xs ++ List.replicate (i - xs.length) 0 ++ [v]

/-- What `printf("%s", xs)` prints: the cells before the first `'\0'`. -/
def cString (xs : List Int) : List Int := xs.takeWhile (fun c => c != 0)

/-! ## The variables of `main` that live across gaps (lines 128-148) -/

structure Decoder where
  n_same : Int
  sub_bit_old : Int
  bit_buffer : List Int
  bit_buffer_n : Nat
  parity_check_even : Int
  state : Nat
  detect_bitrate : Int
  bitrate : Int
  bitrate_tolerence : Int
  bitrate_n : Nat
  bitrate_vals : List Int
  parity_check : Int
  sub_bit_buffer : List Int
  first_interframe_detected : Int
  msg_n : Int
  msg_buffer : List Int
  msg_buffer_n : Nat
  /-- The lines `F<msg_n>: "<msg_buffer>"` printed so far (line 502), oldest first. -/
  printed : List (Int × List Int)
deriving DecidableEq, Repr

/-- The variables as initialised at lines 128-148 and 311-319; `detect_bitrate` is
`BITRATE_DETECT`, or `1 - BITRATE_DETECT` when the option `-b` was given (line 195).
`bitrate_vals` is not initialised by the source; every cell is written before it is
read, and it is taken as zero here. -/
def init (detect_bitrate : Int) : Decoder where
  n_same := 0
  sub_bit_old := 0
  bit_buffer := List.replicate BIT_BUFFER_LENGTH 0
  bit_buffer_n := 0
  parity_check_even := 1
  state := STATE_BITRATE
  detect_bitrate := detect_bitrate
  bitrate := DEFAULT_BITRATE
  bitrate_tolerence := 0
  bitrate_n := 0
  bitrate_vals := List.replicate BITRATE_DETECT_STOP 0
  parity_check := PARITY_CHECK
  sub_bit_buffer := List.replicate DEBOUNCING_FILTER_BUFFER_LENGTH 0
  first_interframe_detected := 0
  msg_n := 1
  msg_buffer := List.replicate MAX_MESSAGE_LENGTH 0
  msg_buffer_n := 0
  printed := []

/-! ## Averages and gap (lines 346-378) -/

/-- Lines 349-352: `sum` of `buffer[value]` for `value` from `lo` up to `hi - 1`. -/
def sumSamples (buffer : List Nat) (lo hi : Nat) : Int :=
  (List.range (hi - lo)).foldl (fun sum k => sum + (buffer.getD (lo + k) 0 : Nat)) 0

/-- Lines 348-367: the array `averages` of gap number `gap` of the block `buffer`. -/
def computeAverages (buffer : List Nat) (gap : Nat) : List Int :=
  (List.range n_averages_per_gap).map fun average =>
    sumSamples buffer ((gap * n_averages_per_gap + average) * n_values_per_average)
      ((gap * n_averages_per_gap + (average + 1)) * n_values_per_average)

/-- Lines 370-373: `sum` of `abs(averages[average + 1] - averages[average])`. -/
def gapSum (averages : List Int) : Int :=
  (List.range (n_averages_per_gap - 1)).foldl
    (fun sum average => sum + Int.natAbs (cell averages (average + 1) - cell averages average)) 0

/-- Lines 374-378: the raw `sub_bit` of a gap. -/
def computeGap (averages : List Int) : Int :=
  if gapSum averages < bit_gap_trigger then 1 else 0

/-! ## Debouncing (lines 381-402) -/

/-- Lines 382-385: shift the register by one slot and put `sub_bit` in slot 0. -/
def shiftIn (sub_bit_buffer : List Int) (sub_bit : Int) : List Int :=
  let shifted := (List.range (DEBOUNCING_FILTER_BUFFER_LENGTH - 1)).foldl
    (fun buf k =>
      let i := DEBOUNCING_FILTER_BUFFER_LENGTH - 1 - k
      store buf i (cell buf (i - 1))) sub_bit_buffer
  store shifted 0 sub_bit

/-- Lines 388-393: `tmp`, the number of slots holding `1 - sub_bit_buffer[0]`. -/
def countInverted (sub_bit_buffer : List Int) : Nat :=
  (List.range DEBOUNCING_FILTER_BUFFER_LENGTH).foldl
    (fun tmp i => if cell sub_bit_buffer i = 1 - cell sub_bit_buffer 0 then tmp + 1 else tmp) 0

/-- Lines 397-399: overwrite every slot with `sub_bit_buffer[0]`. -/
def eraseBounce (sub_bit_buffer : List Int) : List Int :=
  (List.range DEBOUNCING_FILTER_BUFFER_LENGTH).foldl
    (fun buf i => store buf i (cell buf 0)) sub_bit_buffer

/-- Lines 382-401: the register after one cycle fed with the raw `sub_bit`. -/
def debounce (sub_bit_buffer : List Int) (sub_bit : Int) : List Int :=
  let buf := shiftIn sub_bit_buffer sub_bit
  if cell buf 0 = cell buf (DEBOUNCING_FILTER_BUFFER_LENGTH - 1) then
    if countInverted buf > 0 then eraseBounce buf else buf
  else buf

/-- Line 402: the effective `sub_bit`, the oldest slot of the register. -/
def effective (sub_bit_buffer : List Int) : Int :=
  cell sub_bit_buffer (DEBOUNCING_FILTER_BUFFER_LENGTH - 1)

/-! ## Bitrate detection (lines 405-438) -/

/-- The C conversion of a `float`/`double` product `x * 0.5` to `int` (lines 412, 428):
the half of `x`, truncated toward zero (`x` is 27 or the value of line 427, an integer
that `float` holds exactly, and the product by 0.5 is exact). -/
def halfTrunc (x : Int) : Int := Int.tdiv x 2

/-- The exact quotient `sum / n` rounded to the nearest integer, halves away from zero
(`n` positive): the rounding that the specification speaks of.  It is not what line 427
computes, which is `roundQuotient32`; the two are compared in the theorems. -/
def roundDiv (sum : Int) (n : Nat) : Int :=
  if 0 ≤ sum then (2 * sum + n) / (2 * n) else -((2 * (-sum) + n) / (2 * n))

/-- The position of the leading bit of `n` (0 for `n` = 0 or 1), found by at most `fuel`
halvings, enough for `n` below 2^(`fuel` + 1). -/
def log2Fuel : Nat → Nat → Nat
  | 0, _ => 0
  | fuel + 1, n => if n < 2 then 0 else log2Fuel fuel (n / 2) + 1

/-- The integer nearest to `p / q`, ties to the even one: the IEEE 754 default rounding. -/
def roundNearestEven (p q : Nat) : Nat :=
  if 2 * (p % q) < q then p / q
  else if q < 2 * (p % q) then p / q + 1
  else if (p / q) % 2 = 0 then p / q else p / q + 1

/-- The single-precision (`float`, 24 significant bits) value nearest to `p / q`, ties to
even, as a multiple of 2^-32: with `e` the position of the leading bit of `p / q`, the
values near `p / q` are the multiples of the unit 2^(e - 23), and `p / q` is rounded to the
nearest one.  This is the single-precision value for `p / q` = 0 and from 2^-9 up to
2^96, which covers the conversion of a non-negative `int` and its quotient by 15. -/
def float32Scaled (p q : Nat) : Nat :=
  roundNearestEven (p * 2 ^ 32) (q * 2 ^ (log2Fuel 128 (p * 2 ^ 32 / q) - 23)) *
    2 ^ (log2Fuel 128 (p * 2 ^ 32 / q) - 23)

/-- Line 427 for `sum >= 0`: `(float)sum` is the single-precision value nearest to `sum`;
the divisor is converted to `float` (exactly) and the quotient is the single-precision
value nearest to the exact quotient; `round` then gives the nearest integer, halves away
from zero, and the conversion to `int` keeps it. -/
def roundFloat32 (sum n : Nat) : Nat :=
  (2 * float32Scaled (float32Scaled sum 1) (n * 2 ^ 32) + 2 ^ 32) / 2 ^ 33

/-- Line 427: `round(((float)sum) / n)` in single precision (`n` positive; conversion,
division and `round` are symmetric in the sign). -/
def roundQuotient32 (sum : Int) (n : Nat) : Int :=
  if 0 ≤ sum then (roundFloat32 sum.toNat n : Nat) else -((roundFloat32 (-sum).toNat n : Nat) : Int)

/-- Lines 423-426: `sum` of `bitrate_vals[i]` for `i` from the start to the stop index. -/
def sumVals (bitrate_vals : List Int) : Int :=
  (List.range (BITRATE_DETECT_STOP - BITRATE_DETECT_START)).foldl
    (fun sum k => sum + cell bitrate_vals (BITRATE_DETECT_START + k)) 0

/-- Lines 405-438: the branch `state == STATE_BITRATE`, given the effective `sub_bit`. -/
def bitrateDetection (s : Decoder) (sub_bit : Int) : Decoder :=
  if s.detect_bitrate = 0 then
    { s with
      bitrate := DEFAULT_BITRATE
      n_same := 0
      bitrate_tolerence := halfTrunc DEFAULT_BITRATE
      state := STATE_FRAME }
  else if sub_bit ≠ s.sub_bit_old then
    if s.bitrate_n < BITRATE_DETECT_STOP then
      { s with
        bitrate_vals := store s.bitrate_vals s.bitrate_n s.n_same
        bitrate_n := s.bitrate_n + 1
        sub_bit_old := sub_bit
        n_same := 0 }
    else
      { s with
        bitrate :=
          roundQuotient32 (sumVals s.bitrate_vals) (BITRATE_DETECT_STOP - BITRATE_DETECT_START)
        bitrate_tolerence := halfTrunc
          (roundQuotient32 (sumVals s.bitrate_vals) (BITRATE_DETECT_STOP - BITRATE_DETECT_START))
        state := STATE_FRAME
        sub_bit_old := sub_bit
        n_same := 0 }
  else s

/-! ## Bit detection and byte decoding (lines 440-545) -/

/-- Lines 441-450: the variables after the bit detection, and `bit` (`-1`: none). -/
def bitDetection (s : Decoder) (sub_bit : Int) : Decoder × Int :=
  if sub_bit ≠ s.sub_bit_old then
    ({ s with sub_bit_old := sub_bit, n_same := 0 }, sub_bit)
  else if s.n_same > s.bitrate + s.bitrate_tolerence then
    ({ s with sub_bit_old := sub_bit, n_same := s.bitrate_tolerence }, sub_bit)
  else (s, -1)

/-- Lines 478-485, `byte`: the sum of `bit_buffer[i] << i` for `i` from 0 to 7. -/
def decodeByte (bit_buffer : List Int) : Int :=
  (List.range 8).foldl (fun byte i => byte + cell bit_buffer i * 2 ^ i) 0

/-- Lines 479-485, `bit_buffer_parity`: flipped once for every slot 0..7 holding 1. -/
def decodeParity (bit_buffer : List Int) : Int :=
  (List.range 8).foldl
    (fun bit_buffer_parity i =>
      if cell bit_buffer i = 1 then 1 - bit_buffer_parity else bit_buffer_parity) 0

/-- Lines 526-537: the character stored for a payload `byte`: the parity check, then the
char check. -/
def checkedChar (s : Decoder) (byte bit_buffer_parity : Int) : Int :=
  let byte1 :=
    if s.parity_check ≠ 0 ∧
        ((s.parity_check_even ≠ 0 ∧ bit_buffer_parity ≠ cell s.bit_buffer 8) ∨
         (¬ s.parity_check_even ≠ 0 ∧ bit_buffer_parity ≠ 1 - cell s.bit_buffer 8)) then 63
    else byte
  if byte1 < 32 ∨ byte1 > 126 then 63 else byte1

/-- Lines 488-542: what is done with a decoded `byte`. -/
def onByte (s : Decoder) (byte bit_buffer_parity : Int) : Decoder :=
  if byte = 255 then
    if s.first_interframe_detected = 0 then
      { s with state := STATE_INTERFRAME, first_interframe_detected := 1 }
    else
      let msg_buffer := store s.msg_buffer s.msg_buffer_n 0
      { s with
        state := STATE_INTERFRAME
        msg_buffer := msg_buffer
        printed := s.printed ++ [(s.msg_n, cString msg_buffer)]
        msg_n := s.msg_n + 1
        msg_buffer_n := 0 }
  else if s.first_interframe_detected ≠ 0 then
    { s with
      msg_buffer := store s.msg_buffer s.msg_buffer_n (checkedChar s byte bit_buffer_parity)
      msg_buffer_n := s.msg_buffer_n + 1 }
  else s

/-- Lines 472-543: in state Frame, `bit_buffer[bit_buffer_n] = bit; bit_buffer_n++`, and
when `bit_buffer_n == BIT_BUFFER_LENGTH` the byte is decoded, `bit_buffer_n = 0`, and the
byte is handled. -/
def addBit (s : Decoder) (bit : Int) : Decoder :=
  if s.bit_buffer_n + 1 = BIT_BUFFER_LENGTH then
    onByte { s with bit_buffer := store s.bit_buffer s.bit_buffer_n bit, bit_buffer_n := 0 }
      (decodeByte (store s.bit_buffer s.bit_buffer_n bit))
      (decodeParity (store s.bit_buffer s.bit_buffer_n bit))
  else
    { s with
      bit_buffer := store s.bit_buffer s.bit_buffer_n bit
      bit_buffer_n := s.bit_buffer_n + 1 }

/-- Lines 453-545: what is done with a detected `bit` (`bit >= 0`). -/
def onBit (s : Decoder) (bit : Int) : Decoder :=
  if s.state = STATE_INTERFRAME then
    if bit = 0 then { s with state := STATE_FRAME } else s
  else if s.state = STATE_FRAME then addBit s bit
  else s

/-! ## One gap, one block, a session -/

/-- Line 547: `n_same += 1`. -/
def tick (s : Decoder) : Decoder := { s with n_same := s.n_same + 1 }

/-- Lines 440-545: the branch `state != STATE_BITRATE`: bit detection, then the handling
of the detected bit, if any. -/
def frameStep (s : Decoder) (sub_bit : Int) : Decoder :=
  if (bitDetection s sub_bit).2 ≥ 0 then
    onBit (bitDetection s sub_bit).1 (bitDetection s sub_bit).2
  else (bitDetection s sub_bit).1

/-- Lines 404-547: one gap from the effective `sub_bit` on: bitrate detection or bit
detection, then `n_same += 1`. -/
def detectStep (s : Decoder) (sub_bit : Int) : Decoder :=
  tick (if s.state = STATE_BITRATE then bitrateDetection s sub_bit else frameStep s sub_bit)

/-- Lines 381-547: one gap, from the raw `sub_bit` on. -/
def subBitStep (s : Decoder) (sub_bit : Int) : Decoder :=
  let sub_bit_buffer := debounce s.sub_bit_buffer sub_bit
  detectStep { s with sub_bit_buffer := sub_bit_buffer } (effective sub_bit_buffer)

/-- Lines 346-548: the body of the loop over `gap`, for gap number `gap` of `buffer`. -/
def gapStep (s : Decoder) (buffer : List Nat) (gap : Nat) : Decoder :=
  subBitStep s (computeGap (computeAverages buffer gap))

/-- The first `k` gaps of the block `buffer` (the loop of line 346 runs `k = 4` of them). -/
def processGaps (s : Decoder) (buffer : List Nat) (k : Nat) : Decoder :=
  (List.range k).foldl (fun s gap => gapStep s buffer gap) s

/-- Lines 346-548: one block. -/
def processBlock (s : Decoder) (buffer : List Nat) : Decoder :=
  processGaps s buffer n_gaps_per_bit

/-- The blocks read so far, processed in order from the initial variables. -/
def session (detect_bitrate : Int) (blocks : List (List Nat)) : Decoder :=
  blocks.foldl processBlock (init detect_bitrate)

/-- A session fed with raw sub-bits, one per gap, instead of sample blocks. -/
def runSubBits (s : Decoder) (sub_bits : List Int) : Decoder :=
  sub_bits.foldl subBitStep s

/-! ## Views of the decoder used in the statements and proofs -/

/-- The state of a session after the blocks `blocks` and the first `k` gaps of the next
block `buffer`. -/
def reached (detect_bitrate : Int) (blocks : List (List Nat)) (buffer : List Nat) (k : Nat) :
    Decoder :=
  processGaps (session detect_bitrate blocks) buffer k

/-- The bit detected in a gap fed with the raw sub-bit `raw` (lines 441-453): the value of
`bit` when the state is not BitrateDetect and `bit >= 0`. -/
def detectedBit (s : Decoder) (raw : Int) : Option Int :=
  if s.state = STATE_BITRATE then none
  else if (bitDetection s (effective (debounce s.sub_bit_buffer raw))).2 ≥ 0 then
    some (bitDetection s (effective (debounce s.sub_bit_buffer raw))).2
  else none

/-- The bit buffer once the bit detected in the gap is stored (line 473). -/
def filledBitBuffer (s : Decoder) (raw : Int) : List Int :=
  match detectedBit s raw with
  | some bit => store s.bit_buffer s.bit_buffer_n bit
  | none => s.bit_buffer

/-- The byte decoded in a gap fed with `raw` (lines 477-486), if any: a bit is detected
in state Frame and it is the twelfth of the bit buffer. -/
def decodedByte (s : Decoder) (raw : Int) : Option Int :=
  match detectedBit s raw with
  | some bit =>
    if s.state = STATE_FRAME ∧ s.bit_buffer_n + 1 = BIT_BUFFER_LENGTH then
      some (decodeByte (store s.bit_buffer s.bit_buffer_n bit))
    else none
  | none => none

/-- The characters held in the message buffer: its first `msg_buffer_n` cells. -/
def pending (s : Decoder) : List Int := s.msg_buffer.take s.msg_buffer_n

/-- The decoder after the handling of the bit detected in a gap, if any. -/
def handled (s : Decoder) : Option Int → Decoder
  | some bit => onBit s bit
  | none => s

/-- What holds of the message variables in every state of a session. -/
structure MsgInv (s : Decoder) : Prop where
  /-- The messages printed so far are numbered 1, 2, 3, ... -/
  numbered : s.printed.map Prod.fst = (List.range s.printed.length).map (fun (i : Nat) => (i : Int) + 1)
  /-- `msg_n` is the number of the next message. -/
  next : s.msg_n = s.printed.length + 1
  /-- The count of characters is within the cells written so far. -/
  fits : s.msg_buffer_n ≤ s.msg_buffer.length
  /-- The characters held are printable, so none is the terminator. -/
  printable : ∀ c ∈ pending s, 32 ≤ c ∧ c ≤ 126
  /-- Nothing is stored or printed before the first delimiter. -/
  unopened : s.first_interframe_detected = 0 →
    s.printed = [] ∧ s.msg_buffer_n = 0 ∧ s.msg_n = 1 ∧
      s.msg_buffer = List.replicate MAX_MESSAGE_LENGTH 0

/-- What holds of the registers of bits and of the parity options in every state of a
session. -/
structure BitsInv (s : Decoder) : Prop where
  /-- The debounce register has its 12 slots. -/
  reg_length : s.sub_bit_buffer.length = DEBOUNCING_FILTER_BUFFER_LENGTH
  /-- Its slots hold sub-bits. -/
  reg_bits : ∀ x ∈ s.sub_bit_buffer, x = 0 ∨ x = 1
  /-- The slots of the bit buffer hold bits. -/
  buffer_bits : ∀ x ∈ s.bit_buffer, x = 0 ∨ x = 1
  /-- The parity check is enabled (line 143). -/
  parity_on : s.parity_check = 1
  /-- The parity convention is even (line 135). -/
  parity_even : s.parity_check_even = 1

/-- The XOR of a list of bits. -/
def xorBits (bits : List Int) : Int := bits.foldl Int.xor 0

/-- The decoder with its debounce register replaced. -/
def setReg (s : Decoder) (r : List Int) : Decoder := { s with sub_bit_buffer := r }

/-- The decoder with `n_same` and `sub_bit_old` replaced. -/
def withTiming (s : Decoder) (n_same sub_bit_old : Int) : Decoder :=
  { s with n_same := n_same, sub_bit_old := sub_bit_old }

/-- The effective sub-bits of the cycles fed with the raw sub-bits `raws`, from the
register `reg` (lines 382-402 iterated). -/
def effectives (reg : List Int) : List Int → List Int
  | [] => []
  | x :: xs => effective (debounce reg x) :: effectives (debounce reg x) xs

/-- The bits detected by lines 441-450 on the effective sub-bits `es`, from
`sub_bit_old = o` and `n_same = n` (line 547 included), with the final `sub_bit_old` and
`n_same`; `B` is the bitrate and `T` the tolerance. -/
def detectBits (B T : Int) : Int → Int → List Int → List Int × Int × Int
  | o, n, [] => ([], o, n)
  | o, n, e :: es =>
    if e ≠ o then
      ((e :: (detectBits B T e 1 es).1), (detectBits B T e 1 es).2)
    else if n > B + T then
      ((e :: (detectBits B T e (T + 1) es).1), (detectBits B T e (T + 1) es).2)
    else detectBits B T o (n + 1) es

/-- A signal given by its runs `(value, length)`, as the list of its values. -/
def expand : List (Int × Nat) → List Int
  | [] => []
  | (v, d) :: rest => List.replicate d v ++ expand rest

/-- The signal `expand runs` delayed by `DEBOUNCING_FILTER + 1` cycles, the first cycles
holding `o`, cut to the length of `expand runs`. -/
def delay (o : Int) : List (Int × Nat) → List Int
  | [] => []
  | (v, d) :: rest =>
    List.replicate (DEBOUNCING_FILTER + 1) o ++ List.replicate (d - (DEBOUNCING_FILTER + 1)) v
      ++ delay v rest

/-- The value of the last run, `o` when there is none. -/
def lastValue (o : Int) : List (Int × Nat) → Int
  | [] => o
  | (v, _) :: rest => lastValue v rest

/-! ## Synthetic sample blocks -/

/-- The 128 samples of a gap that reads as the raw sub-bit `b`: a flat gap (sum of
differences 0) for 1, a gap whose first averaging window is at full amplitude (sum of
differences 16 * 255 = 4080) for any other value. -/
def gapSamples (b : Int) : List Nat :=
  if b = 1 then List.replicate 128 0 else List.replicate 16 255 ++ List.replicate 112 0

/-- The sample blocks, four gaps each, that read as the raw sub-bits `raws` (sub-bits
left over after the last full block are dropped). -/
def blocksOf : List Int → List (List Nat)
  | a :: b :: c :: d :: rest =>
    (gapSamples a ++ gapSamples b ++ gapSamples c ++ gapSamples d) :: blocksOf rest
  | _ => []

/-- The data bits of `byte`, bit 0 first. -/
def dataBits (byte : Nat) : List Int :=
  (List.range 8).map fun i => ((byte / 2 ^ i % 2 : Nat) : Int)

/-- The twelve bits sent for `byte`: the eight data bits, bit 0 first, the even parity
bit, and three bits at 1. -/
def frameBits (byte : Nat) : List Int :=
  dataBits byte ++ [(dataBits byte).sum % 2] ++ [1, 1, 1]

/-- The raw sub-bits of a line that holds each of `bits` for `DEFAULT_BITRATE` = 27 gaps
and then idles at 1 for `idle` gaps, as runs. -/
def signal (bits : List Int) (idle : Nat) : List (Int × Nat) :=
  bits.map (fun b => (b, 27)) ++ [(1, idle)]

/-- The first `n` gaps of a signal given by its runs. -/
def cutRuns : Nat → List (Int × Nat) → List (Int × Nat)
  | _, [] => []
  | n, (v, d) :: rest => if n ≤ d then [(v, n)] else (v, d) :: cutRuns (n - d) rest

/-- A block of four flat gaps: the line idle at 1. -/
def idleBlock : List Nat := gapSamples 1 ++ gapSamples 1 ++ gapSamples 1 ++ gapSamples 1

/-- The bits of the bytes 0xFF, 'H', 'I', 0xFF, with a bit 0 in front of 'H' that takes the
decoder from Interframe back to Frame. -/
def hiBits : List Int :=
  frameBits 255 ++ [0] ++ frameBits 72 ++ frameBits 73 ++ frameBits 255

/-- The sample blocks of the bytes 0xFF, 'H', 'I', 0xFF at 27 gaps per bit. -/
def hiBlocks : List (List Nat) := blocksOf (expand (signal hiBits 13))

/-- The sample blocks of the first `n` gaps of the line that stays at 0 for `lead` gaps,
sends 0xFF, 'H', 'I', 0xFF at 27 gaps per bit and then idles at 1. -/
def hiPrefix (lead n : Nat) : List (List Nat) :=
  blocksOf (expand (cutRuns n ((0, lead) :: signal hiBits 60)))

/-- The bits of the byte 0xFF, a bit 0, and `n` bytes 'A' with no 0xFF in between. -/
def payloadBits (n : Nat) : List Int :=
  frameBits 255 ++ [0] ++ (List.replicate n (frameBits 65)).flatten

/-- The sample blocks of the byte 0xFF followed by 101 bytes 'A', at 27 gaps per bit. -/
def overflowBlocks : List (List Nat) := blocksOf (expand (signal (payloadBits 101) 13))

/-- Lines 386-395: a bounce is detected in the cycle fed with `sub_bit`: after the shift
the newest and the oldest slot agree and `tmp > 0` slots hold the inverted value, so that
lines 397-399 overwrite the register. -/
def bounceDetected (sub_bit_buffer : List Int) (sub_bit : Int) : Bool :=
  decide (cell (shiftIn sub_bit_buffer sub_bit) 0 =
      cell (shiftIn sub_bit_buffer sub_bit) (DEBOUNCING_FILTER_BUFFER_LENGTH - 1)) &&
    decide (countInverted (shiftIn sub_bit_buffer sub_bit) > 0)

/-- No bounce is detected in any of the cycles fed with `raws`, from the register `reg`. -/
def bounceFree (reg : List Int) : List Int → Bool
  | [] => true
  | x :: xs => !bounceDetected reg x && bounceFree (debounce reg x) xs

/-- The register whose `a` newest slots hold `v` and whose other slots hold `1 - v`. -/
def twoRuns (a : Nat) (v : Int) : List Int :=
  List.replicate a v ++ List.replicate (DEBOUNCING_FILTER_BUFFER_LENGTH - a) (1 - v)

/-- The raw sub-bits of the first `k` gaps of the block `buffer` (lines 346-378). -/
def blockRaws (buffer : List Nat) (k : Nat) : List Int :=
  (List.range k).map fun gap => computeGap (computeAverages buffer gap)

/-- The raw sub-bits of a session, gap after gap: those of the blocks `blocks` and of the
first `k` gaps of the block `buffer`. -/
def sessionRaws (blocks : List (List Nat)) (buffer : List Nat) (k : Nat) : List Int :=
  blocks.flatMap (fun b => blockRaws b n_gaps_per_bit) ++ blockRaws buffer k

/-- The debounced (effective) sub-bits of a session, gap after gap. -/
def sessionEffectives (blocks : List (List Nat)) (buffer : List Nat) (k : Nat) : List Int :=
  effectives (List.replicate DEBOUNCING_FILTER_BUFFER_LENGTH 0) (sessionRaws blocks buffer k)

/-- The gaps at which the sub-bits `es` change: the numbers (counted from `i` for the
first of `es`) of the gaps whose sub-bit differs from the one of the gap before, `o`
standing for the sub-bit before the first gap. -/
def changeTimes (o : Int) (i : Nat) : List Int → List Nat
  | [] => []
  | e :: es => if e ≠ o then i :: changeTimes e (i + 1) es else changeTimes o (i + 1) es

/-- The numbers of gaps between consecutive times of the increasing list `ts`, the first
one counted from `t0`. -/
def gapsBetween (t0 : Nat) : List Nat → List Nat
  | [] => []
  | t :: ts => (t - t0) :: gapsBetween t ts

/-- The intervals of a session: the number of gaps before the first change of the
debounced sub-bit (whose value before the first gap is `sub_bit_old = 0`), then the
numbers of gaps between two consecutive changes. -/
def sessionIntervals (blocks : List (List Nat)) (buffer : List Nat) (k : Nat) : List Nat :=
  gapsBetween 0 (changeTimes 0 0 (sessionEffectives blocks buffer k))

/-- The sum of the intervals at the indices `BITRATE_DETECT_START` .. `BITRATE_DETECT_STOP - 1`
(5..19). -/
def trustedSum (intervals : List Nat) : Int :=
  ∑ k in Finset.range (BITRATE_DETECT_STOP - BITRATE_DETECT_START),
    ((intervals.getD (BITRATE_DETECT_START + k) 0 : Nat) : Int)

/-- A line that alternates between 1 and 0, as runs: `n` runs of `d` gaps each, the first
one at 1. -/
def squareWave (n d : Nat) : List (Int × Nat) :=
  (List.range n).map fun i => (if i % 2 = 0 then 1 else 0, d)

/-- The sample blocks of a line that alternates between 1 and 0 every 27 gaps, `n` runs. -/
def squareBlocks (n : Nat) : List (List Nat) := blocksOf (expand (squareWave n 27))

/-- What holds of the bit buffer in every state of a session. -/
structure BufInv (s : Decoder) : Prop where
  /-- The bit buffer has its 12 slots. -/
  slots : s.bit_buffer.length = BIT_BUFFER_LENGTH
  /-- At most 11 bits are held after a gap. -/
  count : s.bit_buffer_n ≤ BIT_BUFFER_LENGTH - 1
  /-- No bit is held in the state Interframe. -/
  interframe : s.state = STATE_INTERFRAME → s.bit_buffer_n = 0

/-- The last element of a list, `o` when it is empty. -/
def lastOr {α : Type} (o : α) : List α → α
  | [] => o
  | x :: xs => lastOr x xs

/-- What holds of the variables of the bitrate detection, in auto-detect mode, after the
gaps whose debounced sub-bits are `es`. -/
structure DetectInv (es : List Int) (s : Decoder) : Prop where
  /-- The option `-b` was given. -/
  mode : s.detect_bitrate ≠ 0
  /-- The sample array has its 20 cells. -/
  capacity : s.bitrate_vals.length = BITRATE_DETECT_STOP
  /-- The cells written so far hold the intervals between the changes, in order. -/
  recorded : ∀ i, i < (changeTimes 0 0 es).length → i < BITRATE_DETECT_STOP →
    cell s.bitrate_vals i = ((gapsBetween 0 (changeTimes 0 0 es)).getD i 0 : Nat)
  /-- Up to the 20th change the state is BitrateDetect, `bitrate_n` counts the changes,
  `sub_bit_old` is the last sub-bit and `n_same` the number of gaps since the last change. -/
  detecting : (changeTimes 0 0 es).length ≤ BITRATE_DETECT_STOP →
    s.state = STATE_BITRATE ∧ s.bitrate_n = (changeTimes 0 0 es).length ∧
      s.sub_bit_old = lastOr 0 es ∧
      s.n_same = (es.length : Int) - (lastOr 0 (changeTimes 0 0 es) : Nat)
  /-- From the 21st change on the state is not BitrateDetect, and the bitrate and the
  tolerance are those computed from the intervals 5..19. -/
  detected : BITRATE_DETECT_STOP < (changeTimes 0 0 es).length →
    s.state ≠ STATE_BITRATE ∧
      s.bitrate = roundQuotient32 (trustedSum (gapsBetween 0 (changeTimes 0 0 es)))
        (BITRATE_DETECT_STOP - BITRATE_DETECT_START) ∧
      s.bitrate_tolerence = halfTrunc s.bitrate

/-- The values of the runs alternate, the first one differing from `o`. -/
def alternating (o : Int) : List (Int × Nat) → Bool
  | [] => true
  | (v, _) :: rest => decide (v ≠ o) && alternating v rest

/-- The intervals between the changes of a signal of alternating runs once debounced:
`first` gaps before the first change, then the lengths of the runs but the last. -/
def runIntervals (first : Nat) : List (Int × Nat) → List Nat
  | [] => []
  | (_, d) :: rest => first :: runIntervals d rest

/-- A slow line that alternates between 1 and 0, as runs, the first one at 1: four runs
of 12 gaps, fourteen runs of `d` gaps, one run of `e` gaps, one run of 12 gaps and a last
run of `last` gaps. -/
def slowWave (d e last : Nat) : List (Int × Nat) :=
  (List.range 21).map fun i =>
    (if i % 2 = 0 then 1 else 0,
      if i < 4 then 12 else if i < 18 then d else if i = 18 then e else if i = 19 then 12
      else last)

/-- The sample blocks of the slow line. -/
def slowBlocks (d e last : Nat) : List (List Nat) := blocksOf (expand (slowWave d e last))

/-! ## Arrays -/

@[simp] theorem cell_cons_zero (a : Int) (l : List Int) : cell (a :: l) 0 = a := rfl
@[simp] theorem cell_cons_succ (a : Int) (l : List Int) (i : Nat) :
    cell (a :: l) (i + 1) = cell l i := rfl
@[simp] theorem cell_nil (i : Nat) : cell [] i = 0 := rfl
@[simp] theorem store_cons_zero (a v : Int) (l : List Int) : store (a :: l) 0 v = v :: l := by
  simp [store]
@[simp] theorem store_cons_succ (a v : Int) (l : List Int) (i : Nat) :
    store (a :: l) (i + 1) v = a :: store l i v := by
  simp only [store, List.length_cons, Nat.add_lt_add_iff_right]
  split
  · rfl
  · simp
@[simp] theorem store_nil_zero (v : Int) : store [] 0 v = [v] := rfl

theorem range11 : List.range 11 = [0,1,2,3,4,5,6,7,8,9,10] := by decide
theorem range12 : List.range 12 = [0,1,2,3,4,5,6,7,8,9,10,11] := by decide
theorem range8 : List.range 8 = [0,1,2,3,4,5,6,7] := by decide
theorem range7 : List.range 7 = [0,1,2,3,4,5,6] := by decide

theorem length_eq_twelve {l : List Int} (h : l.length = 12) :
    ∃ a0 a1 a2 a3 a4 a5 a6 a7 a8 a9 a10 a11, l = [a0,a1,a2,a3,a4,a5,a6,a7,a8,a9,a10,a11] := by
  match l, h with
  | [a0,a1,a2,a3,a4,a5,a6,a7,a8,a9,a10,a11], _ => exact ⟨_,_,_,_,_,_,_,_,_,_,_,_,rfl⟩

/-! ## Debouncing -/

theorem shiftIn_eq (a0 a1 a2 a3 a4 a5 a6 a7 a8 a9 a10 a11 x : Int) :
    shiftIn [a0,a1,a2,a3,a4,a5,a6,a7,a8,a9,a10,a11] x = [x,a0,a1,a2,a3,a4,a5,a6,a7,a8,a9,a10] := by
  have h : DEBOUNCING_FILTER_BUFFER_LENGTH - 1 = 11 := rfl
  simp only [shiftIn, h, range11, List.foldl_cons, List.foldl_nil]
  simp

theorem eraseBounce_eq (a0 a1 a2 a3 a4 a5 a6 a7 a8 a9 a10 a11 : Int) :
    eraseBounce [a0,a1,a2,a3,a4,a5,a6,a7,a8,a9,a10,a11] = List.replicate 12 a0 := by
  have h : DEBOUNCING_FILTER_BUFFER_LENGTH = 12 := rfl
  simp only [eraseBounce, h, range12, List.foldl_cons, List.foldl_nil]
  simp [List.replicate]

theorem foldl_count (P : Nat → Prop) [DecidablePred P] (is : List Nat) (n : Nat) :
    is.foldl (fun tmp i => if P i then tmp + 1 else tmp) n = n + (is.filter (fun i => P i)).length := by
  induction is generalizing n with
  | nil => simp
  | cons i is ih =>
    simp only [List.foldl_cons, ih, List.filter]
    by_cases h : P i
    · simp [h]; omega
    · simp [h]

theorem countInverted_pos (a0 a1 a2 a3 a4 a5 a6 a7 a8 a9 a10 a11 : Int) :
    countInverted [a0,a1,a2,a3,a4,a5,a6,a7,a8,a9,a10,a11] > 0 ↔
      ∃ a ∈ [a1,a2,a3,a4,a5,a6,a7,a8,a9,a10,a11], a = 1 - a0 := by
  have h : DEBOUNCING_FILTER_BUFFER_LENGTH = 12 := rfl
  have hne : ¬ (a0 = 1 - a0) := by omega
  unfold countInverted
  rw [foldl_count (fun i => cell [a0,a1,a2,a3,a4,a5,a6,a7,a8,a9,a10,a11] i =
    1 - cell [a0,a1,a2,a3,a4,a5,a6,a7,a8,a9,a10,a11] 0), h, range12]
  simp only [Nat.zero_add, gt_iff_lt, List.length_pos, ne_eq, List.filter_eq_nil_iff, not_forall,
    List.mem_cons, decide_eq_true_eq]
  constructor
  · rintro ⟨i, hi, hP⟩
    simp only [List.mem_singleton, List.not_mem_nil, or_false, Classical.not_imp, not_not] at hi hP
    rcases hi with rfl | rfl | rfl | rfl | rfl | rfl | rfl | rfl | rfl | rfl | rfl | rfl <;>
      simp only [cell_cons_zero, cell_cons_succ] at hP
    · exact absurd hP hne
    all_goals (refine ⟨_, ?_, hP⟩; simp)
  · rintro ⟨a, ha, rfl⟩
    simp only [List.mem_singleton, List.not_mem_nil, or_false] at ha
    rcases ha with h | h | h | h | h | h | h | h | h | h | h
    · exact ⟨1, by simp, by simp [h]⟩
    · exact ⟨2, by simp, by simp [h]⟩
    · exact ⟨3, by simp, by simp [h]⟩
    · exact ⟨4, by simp, by simp [h]⟩
    · exact ⟨5, by simp, by simp [h]⟩
    · exact ⟨6, by simp, by simp [h]⟩
    · exact ⟨7, by simp, by simp [h]⟩
    · exact ⟨8, by simp, by simp [h]⟩
    · exact ⟨9, by simp, by simp [h]⟩
    · exact ⟨10, by simp, by simp [h]⟩
    · exact ⟨11, by simp, by simp [h]⟩

/-- The register after one cycle, for a register of 12 slots. -/
theorem debounce_eq (a0 a1 a2 a3 a4 a5 a6 a7 a8 a9 a10 a11 x : Int) :
    debounce [a0,a1,a2,a3,a4,a5,a6,a7,a8,a9,a10,a11] x =
      if x = a10 ∧ ∃ a ∈ [a0,a1,a2,a3,a4,a5,a6,a7,a8,a9,a10], a = 1 - x then List.replicate 12 x
      else [x,a0,a1,a2,a3,a4,a5,a6,a7,a8,a9,a10] := by
  have h : DEBOUNCING_FILTER_BUFFER_LENGTH - 1 = 11 := rfl
  simp only [debounce, shiftIn_eq, h, cell_cons_zero, cell_cons_succ, countInverted_pos,
    eraseBounce_eq]
  by_cases hx : x = a10
  · simp only [hx, true_and, if_true]
  · simp only [hx, false_and, if_false]

theorem effectives_append (reg : List Int) (xs ys : List Int) :
    effectives reg (xs ++ ys) = effectives reg xs ++ effectives (xs.foldl debounce reg) ys := by
  induction xs generalizing reg with
  | nil => rfl
  | cons x xs ih => simp [effectives, ih]

theorem debounce_uniform (v : Int) : debounce (List.replicate 12 v) v = List.replicate 12 v := by
  have hne : ¬ (v = 1 - v) := by omega
  simp [List.replicate, debounce_eq, hne]

theorem effectives_uniform (v : Int) (d : Nat) :
    effectives (List.replicate 12 v) (List.replicate d v) = List.replicate d v ∧
      (List.replicate d v).foldl debounce (List.replicate 12 v) = List.replicate 12 v := by
  have hu := debounce_uniform v
  have he : effective (List.replicate 12 v) = v := rfl
  generalize List.replicate 12 v = R at hu he ⊢
  induction d with
  | zero => exact ⟨rfl, rfl⟩
  | succ d ih =>
    rw [List.replicate_succ]
    simp only [effectives, List.foldl_cons]
    rw [hu, ih.1, he]
    exact ⟨rfl, ih.2⟩

/-- Twelve cycles fed with `v` take a register uniformly `o` to one uniformly `v`; the
effective sub-bit is `o` on the first eleven of them and `v` on the twelfth. -/
theorem effectives_twelve (o v : Int) :
    effectives (List.replicate 12 o) (List.replicate 12 v) = List.replicate 11 o ++ [v] ∧
      (List.replicate 12 v).foldl debounce (List.replicate 12 o) = List.replicate 12 v := by
  by_cases h : v = o
  · subst h
    have := effectives_uniform v 12
    simpa [List.replicate] using this
  · have hne : ¬ (v = 1 - v) := by omega
    simp [List.replicate, effectives, debounce_eq, effective, h, hne, cell,
      DEBOUNCING_FILTER_BUFFER_LENGTH, DEBOUNCING_FILTER]

/-- A run of at least twelve equal raw sub-bits `v`, fed to a register uniformly `o`,
comes out delayed by eleven cycles and leaves the register uniformly `v`. -/
theorem effectives_run (o v : Int) (d : Nat) (hd : 12 ≤ d) :
    effectives (List.replicate 12 o) (List.replicate d v) =
        List.replicate 11 o ++ List.replicate (d - 11) v ∧
      (List.replicate d v).foldl debounce (List.replicate 12 o) = List.replicate 12 v := by
  obtain ⟨k, rfl⟩ : ∃ k, d = 12 + k := ⟨d - 12, by omega⟩
  have h12 := effectives_twelve o v
  have hu := effectives_uniform v k
  rw [List.replicate_add, effectives_append, List.foldl_append, h12.2, h12.1, hu.1, hu.2]
  refine ⟨?_, rfl⟩
  have : 12 + k - 11 = 1 + k := by omega
  rw [this, List.replicate_add]
  simp

theorem effectives_expand (runs : List (Int × Nat)) (o : Int) (h : ∀ r ∈ runs, 12 ≤ r.2) :
    effectives (List.replicate 12 o) (expand runs) = delay o runs ∧
      (expand runs).foldl debounce (List.replicate 12 o) = List.replicate 12 (lastValue o runs) := by
  induction runs generalizing o with
  | nil => exact ⟨rfl, rfl⟩
  | cons r rest ih =>
    obtain ⟨v, d⟩ := r
    have hd : 12 ≤ d := h (v, d) (List.mem_cons_self _ _)
    have hr := effectives_run o v d hd
    have ih2 := ih v (fun r hr => h r (List.mem_cons_of_mem _ hr))
    refine ⟨?_, ?_⟩
    · show effectives (List.replicate 12 o) (List.replicate d v ++ expand rest) =
        List.replicate 11 o ++ List.replicate (d - 11) v ++ delay v rest
      rw [effectives_append, hr.1, hr.2, ih2.1]
    · show (List.replicate d v ++ expand rest).foldl debounce (List.replicate 12 o) =
        List.replicate 12 (lastValue v rest)
      rw [List.foldl_append, hr.2, ih2.2]

/-! ## The detection does not read the debounce register -/

theorem tick_setReg (s : Decoder) (r : List Int) : tick (setReg s r) = setReg (tick s) r := rfl

theorem bitrateDetection_setReg (s : Decoder) (r : List Int) (e : Int) :
    bitrateDetection (setReg s r) e = setReg (bitrateDetection s e) r := by
  simp only [bitrateDetection, setReg]
  split_ifs <;> rfl

theorem onByte_setReg (s : Decoder) (r : List Int) (b p : Int) :
    onByte (setReg s r) b p = setReg (onByte s b p) r := by
  simp only [onByte, setReg, checkedChar]
  split_ifs <;> rfl

theorem addBit_setReg (s : Decoder) (r : List Int) (b : Int) :
    addBit (setReg s r) b = setReg (addBit s b) r := by
  unfold addBit
  show (if s.bit_buffer_n + 1 = BIT_BUFFER_LENGTH then
      onByte (setReg { s with bit_buffer := store s.bit_buffer s.bit_buffer_n b, bit_buffer_n := 0 } r) _ _
      else _) = _
  rw [onByte_setReg]
  split_ifs <;> rfl

theorem onBit_setReg (s : Decoder) (r : List Int) (b : Int) :
    onBit (setReg s r) b = setReg (onBit s b) r := by
  unfold onBit
  show (if s.state = STATE_INTERFRAME then (if b = 0 then _ else _)
    else if s.state = STATE_FRAME then addBit (setReg s r) b else _) = _
  rw [addBit_setReg]
  split_ifs <;> rfl

theorem frameStep_setReg (s : Decoder) (r : List Int) (e : Int) :
    frameStep (setReg s r) e = setReg (frameStep s e) r := by
  have h1 : (bitDetection (setReg s r) e).1 = setReg (bitDetection s e).1 r := by
    simp only [bitDetection, setReg]; split_ifs <;> rfl
  have h2 : (bitDetection (setReg s r) e).2 = (bitDetection s e).2 := by
    simp only [bitDetection, setReg]; split_ifs <;> rfl
  unfold frameStep
  rw [h1, h2, onBit_setReg]
  split_ifs <;> rfl

theorem detectStep_setReg (s : Decoder) (r : List Int) (e : Int) :
    detectStep (setReg s r) e = setReg (detectStep s e) r := by
  unfold detectStep
  have : (setReg s r).state = s.state := rfl
  rw [this, bitrateDetection_setReg, frameStep_setReg]
  split_ifs <;> rfl

theorem foldl_detectStep_setReg (es : List Int) (s : Decoder) (r : List Int) :
    es.foldl detectStep (setReg s r) = setReg (es.foldl detectStep s) r := by
  induction es generalizing s with
  | nil => rfl
  | cons e es ih => simp only [List.foldl_cons, detectStep_setReg, ih]

theorem setReg_sub_bit_buffer (s : Decoder) (r : List Int) : (setReg s r).sub_bit_buffer = r := rfl

theorem setReg_setReg (s : Decoder) (r r2 : List Int) : setReg (setReg s r) r2 = setReg s r2 := rfl

/-- A run of the decoder on raw sub-bits is the detection run on the effective sub-bits,
with the register run on the raw ones. -/
theorem runSubBits_eq (raws : List Int) (s : Decoder) :
    runSubBits s raws =
      setReg ((effectives s.sub_bit_buffer raws).foldl detectStep s)
        (raws.foldl debounce s.sub_bit_buffer) := by
  induction raws generalizing s with
  | nil => rfl
  | cons x xs ih =>
    have hstep : subBitStep s x =
        setReg (detectStep s (effective (debounce s.sub_bit_buffer x)))
          (debounce s.sub_bit_buffer x) := detectStep_setReg s _ _
    simp only [runSubBits, List.foldl_cons] at ih ⊢
    rw [ih, hstep]
    simp only [effectives, List.foldl_cons, setReg_sub_bit_buffer, foldl_detectStep_setReg,
      setReg_setReg]

/-! ## The handling of a bit does not read `n_same` and `sub_bit_old` -/

theorem onByte_withTiming (s : Decoder) (n o : Int) (b p : Int) :
    onByte (withTiming s n o) b p = withTiming (onByte s b p) n o := by
  simp only [onByte, withTiming, checkedChar]
  split_ifs <;> rfl

theorem addBit_withTiming (s : Decoder) (n o : Int) (b : Int) :
    addBit (withTiming s n o) b = withTiming (addBit s b) n o := by
  unfold addBit
  show (if s.bit_buffer_n + 1 = BIT_BUFFER_LENGTH then
      onByte (withTiming
        { s with bit_buffer := store s.bit_buffer s.bit_buffer_n b, bit_buffer_n := 0 } n o) _ _
      else _) = _
  rw [onByte_withTiming]
  split_ifs <;> rfl

theorem onBit_withTiming (s : Decoder) (n o : Int) (b : Int) :
    onBit (withTiming s n o) b = withTiming (onBit s b) n o := by
  unfold onBit
  show (if s.state = STATE_INTERFRAME then (if b = 0 then _ else _)
    else if s.state = STATE_FRAME then addBit (withTiming s n o) b else _) = _
  rw [addBit_withTiming]
  split_ifs <;> rfl

theorem foldl_onBit_withTiming (bits : List Int) (s : Decoder) (n o : Int) :
    bits.foldl onBit (withTiming s n o) = withTiming (bits.foldl onBit s) n o := by
  induction bits generalizing s with
  | nil => rfl
  | cons b bits ih => simp only [List.foldl_cons, onBit_withTiming, ih]

theorem onByte_fixed (s : Decoder) (b p : Int) :
    ((onByte s b p).state = STATE_INTERFRAME ∨ (onByte s b p).state = s.state) ∧
      (onByte s b p).bitrate = s.bitrate ∧
      (onByte s b p).bitrate_tolerence = s.bitrate_tolerence := by
  simp only [onByte]
  split_ifs <;> simp

/-- The handling of a bit keeps the decoder out of the state BitrateDetect, and keeps the
bitrate and the tolerance. -/
theorem onBit_fixed (s : Decoder) (b : Int) (h : s.state ≠ STATE_BITRATE) :
    (onBit s b).state ≠ STATE_BITRATE ∧ (onBit s b).bitrate = s.bitrate ∧
      (onBit s b).bitrate_tolerence = s.bitrate_tolerence := by
  simp only [onBit, addBit]
  split_ifs with h1 h2 h3 h4
  · exact ⟨show STATE_FRAME ≠ STATE_BITRATE by decide, rfl, rfl⟩
  · exact ⟨h, rfl, rfl⟩
  · have := onByte_fixed { s with bit_buffer := store s.bit_buffer s.bit_buffer_n b, bit_buffer_n := 0 }
      (decodeByte (store s.bit_buffer s.bit_buffer_n b)) (decodeParity (store s.bit_buffer s.bit_buffer_n b))
    refine ⟨?_, this.2.1, this.2.2⟩
    rcases this.1 with h5 | h5
    · rw [h5]; decide
    · rw [h5]; exact h
  · exact ⟨h, rfl, rfl⟩
  · exact ⟨h, rfl, rfl⟩

/-- One gap outside the state BitrateDetect, for a non-negative effective sub-bit. -/
theorem detectStep_frame (s : Decoder) (e : Int) (h : s.state ≠ STATE_BITRATE) (he : 0 ≤ e) :
    detectStep s e =
      if e ≠ s.sub_bit_old then withTiming (onBit s e) 1 e
      else if s.n_same > s.bitrate + s.bitrate_tolerence then
        withTiming (onBit s e) (s.bitrate_tolerence + 1) e
      else withTiming s (s.n_same + 1) s.sub_bit_old := by
  have he2 : e ≥ 0 := he
  by_cases h1 : e ≠ s.sub_bit_old
  · simp only [detectStep, if_neg h, frameStep, bitDetection, if_pos h1, if_pos he2]
    show tick (onBit (withTiming s 0 e) e) = _
    rw [onBit_withTiming]; rfl
  · by_cases h2 : s.n_same > s.bitrate + s.bitrate_tolerence
    · simp only [detectStep, if_neg h, frameStep, bitDetection, if_neg h1, if_pos h2, if_pos he2]
      show tick (onBit (withTiming s s.bitrate_tolerence e) e) = _
      rw [onBit_withTiming]; rfl
    · have h3 : ¬ ((-1 : Int) ≥ 0) := by decide
      simp only [detectStep, if_neg h, frameStep, bitDetection, if_neg h1, if_neg h2, if_neg h3]
      rfl

theorem withTiming_bitrate (s : Decoder) (n o : Int) : (withTiming s n o).bitrate = s.bitrate := rfl
theorem withTiming_tolerence (s : Decoder) (n o : Int) :
    (withTiming s n o).bitrate_tolerence = s.bitrate_tolerence := rfl
theorem withTiming_n_same (s : Decoder) (n o : Int) : (withTiming s n o).n_same = n := rfl
theorem withTiming_sub_bit_old (s : Decoder) (n o : Int) : (withTiming s n o).sub_bit_old = o := rfl
theorem withTiming_withTiming (s : Decoder) (n o n2 o2 : Int) :
    withTiming (withTiming s n o) n2 o2 = withTiming s n2 o2 := rfl
theorem withTiming_self (s : Decoder) : withTiming s s.n_same s.sub_bit_old = s := rfl

/-- Outside the state BitrateDetect, a run of the detection on non-negative effective
sub-bits handles the bits given by `detectBits`, in order. -/
theorem detectBits_run (es : List Int) (s : Decoder) (h : s.state ≠ STATE_BITRATE)
    (hes : ∀ e ∈ es, 0 ≤ e) :
    es.foldl detectStep s =
      withTiming
        ((detectBits s.bitrate s.bitrate_tolerence s.sub_bit_old s.n_same es).1.foldl onBit s)
        (detectBits s.bitrate s.bitrate_tolerence s.sub_bit_old s.n_same es).2.2
        (detectBits s.bitrate s.bitrate_tolerence s.sub_bit_old s.n_same es).2.1 := by
  induction es generalizing s with
  | nil => rfl
  | cons e es ih =>
    have he : 0 ≤ e := hes e (List.mem_cons_self _ _)
    have hes2 : ∀ e ∈ es, 0 ≤ e := fun x hx => hes x (List.mem_cons_of_mem _ hx)
    have hfix := onBit_fixed s e h
    rw [List.foldl_cons, detectStep_frame s e h he]
    by_cases h1 : e ≠ s.sub_bit_old
    · rw [if_pos h1, ih (withTiming (onBit s e) 1 e) hfix.1 hes2]
      simp only [detectBits, if_pos h1, List.foldl_cons, foldl_onBit_withTiming, withTiming_bitrate,
        withTiming_tolerence, withTiming_n_same, withTiming_sub_bit_old, withTiming_withTiming,
        hfix.2.1, hfix.2.2]
    · rw [if_neg h1]
      by_cases h2 : s.n_same > s.bitrate + s.bitrate_tolerence
      · rw [if_pos h2, ih (withTiming (onBit s e) (s.bitrate_tolerence + 1) e) hfix.1 hes2]
        simp only [detectBits, if_neg h1, if_pos h2, List.foldl_cons, foldl_onBit_withTiming,
          withTiming_bitrate, withTiming_tolerence, withTiming_n_same, withTiming_sub_bit_old,
          withTiming_withTiming, hfix.2.1, hfix.2.2]
      · rw [if_neg h2, ih (withTiming s (s.n_same + 1) s.sub_bit_old) h hes2]
        simp only [detectBits, if_neg h1, if_neg h2, foldl_onBit_withTiming,
          withTiming_bitrate, withTiming_tolerence, withTiming_n_same, withTiming_sub_bit_old,
          withTiming_withTiming]

theorem foldl_add_eq_sum (f : Nat → Int) (l : List Nat) (z : Int) :
    l.foldl (fun sum k => sum + f k) z = z + (l.map f).sum := by
  induction l generalizing z with
  | nil => simp
  | cons k l ih => simp only [List.foldl_cons, ih, List.map_cons, List.sum_cons]; ring

theorem sumSamples_eq (buffer : List Nat) (lo hi : Nat) :
    sumSamples buffer lo hi =
      ((List.range (hi - lo)).map (fun k => ((buffer.getD (lo + k) 0 : Nat) : Int))).sum := by
  unfold sumSamples
  rw [foldl_add_eq_sum (fun k => ((buffer.getD (lo + k) 0 : Nat) : Int))]
  simp

/-- The samples of a window that lies in the first part of a block. -/
theorem sumSamples_append_left (xs ys : List Nat) (lo hi : Nat) (h : hi ≤ xs.length) :
    sumSamples (xs ++ ys) lo hi = sumSamples xs lo hi := by
  rw [sumSamples_eq, sumSamples_eq]
  congr 1
  apply List.map_congr_left
  intro k hk
  have hk2 : lo + k < xs.length := by
    have := List.mem_range.mp hk
    omega
  simp [List.getD_eq_getElem?_getD, List.getElem?_append_left hk2]

/-- The samples of a window that lies behind the first part of a block. -/
theorem sumSamples_append_right (xs ys : List Nat) (lo hi : Nat) :
    sumSamples (xs ++ ys) (xs.length + lo) (xs.length + hi) = sumSamples ys lo hi := by
  rw [sumSamples_eq, sumSamples_eq]
  have : xs.length + hi - (xs.length + lo) = hi - lo := by omega
  rw [this]
  congr 1
  apply List.map_congr_left
  intro k _
  have hk2 : xs.length ≤ xs.length + lo + k := by omega
  have e : xs.length + lo + k - xs.length = lo + k := by omega
  simp [List.getD_eq_getElem?_getD, List.getElem?_append_right hk2, e]

theorem computeAverages_append_left (xs ys : List Nat) (h : xs.length = 128) :
    computeAverages (xs ++ ys) 0 = computeAverages xs 0 := by
  unfold computeAverages
  apply List.map_congr_left
  intro a ha
  have ha2 : a < 8 := List.mem_range.mp ha
  apply sumSamples_append_left
  simp only [n_averages_per_gap, n_values_per_average]
  omega

theorem computeAverages_append_right (xs ys : List Nat) (g : Nat) (h : xs.length = 128) :
    computeAverages (xs ++ ys) (g + 1) = computeAverages ys g := by
  unfold computeAverages
  apply List.map_congr_left
  intro a _
  have e1 : ((g + 1) * n_averages_per_gap + a) * n_values_per_average =
      xs.length + (g * n_averages_per_gap + a) * n_values_per_average := by
    simp only [n_averages_per_gap, n_values_per_average, h]; ring
  have e2 : ((g + 1) * n_averages_per_gap + (a + 1)) * n_values_per_average =
      xs.length + (g * n_averages_per_gap + (a + 1)) * n_values_per_average := by
    simp only [n_averages_per_gap, n_values_per_average, h]; ring
  rw [e1, e2, sumSamples_append_right]

theorem gapSamples_length (v : Int) : (gapSamples v).length = 128 := by
  unfold gapSamples
  split <;> simp

theorem computeGap_gapSamples_alone (v : Int) (hv : v = 0 ∨ v = 1) :
    computeGap (computeAverages (gapSamples v) 0) = v := by
  rcases hv with rfl | rfl <;> decide

theorem computeGap_gapSamples (a b c d : Int) (ha : a = 0 ∨ a = 1) (hb : b = 0 ∨ b = 1)
    (hc : c = 0 ∨ c = 1) (hd : d = 0 ∨ d = 1) :
    computeGap (computeAverages (gapSamples a ++ gapSamples b ++ gapSamples c ++ gapSamples d) 0) = a ∧
    computeGap (computeAverages (gapSamples a ++ gapSamples b ++ gapSamples c ++ gapSamples d) 1) = b ∧
    computeGap (computeAverages (gapSamples a ++ gapSamples b ++ gapSamples c ++ gapSamples d) 2) = c ∧
    computeGap (computeAverages (gapSamples a ++ gapSamples b ++ gapSamples c ++ gapSamples d) 3) = d := by
  have la := gapSamples_length a
  have lb := gapSamples_length b
  have lc := gapSamples_length c
  simp only [List.append_assoc]
  refine ⟨?_, ?_, ?_, ?_⟩
  · rw [computeAverages_append_left _ _ la, computeGap_gapSamples_alone a ha]
  · rw [computeAverages_append_right _ _ 0 la, computeAverages_append_left _ _ lb,
      computeGap_gapSamples_alone b hb]
  · rw [computeAverages_append_right _ _ 1 la, computeAverages_append_right _ _ 0 lb,
      computeAverages_append_left _ _ lc, computeGap_gapSamples_alone c hc]
  · rw [computeAverages_append_right _ _ 2 la, computeAverages_append_right _ _ 1 lb,
      computeAverages_append_right _ _ 0 lc]
    have := computeAverages_append_left (gapSamples d) [] (gapSamples_length d)
    rw [List.append_nil] at this
    exact computeGap_gapSamples_alone d hd

theorem processBlock_gapSamples (s : Decoder) (a b c d : Int) (ha : a = 0 ∨ a = 1)
    (hb : b = 0 ∨ b = 1) (hc : c = 0 ∨ c = 1) (hd : d = 0 ∨ d = 1) :
    processBlock s (gapSamples a ++ gapSamples b ++ gapSamples c ++ gapSamples d) =
      runSubBits s [a, b, c, d] := by
  obtain ⟨h0, h1, h2, h3⟩ := computeGap_gapSamples a b c d ha hb hc hd
  have hr : List.range n_gaps_per_bit = [0, 1, 2, 3] := by decide
  simp only [processBlock, processGaps, hr, List.foldl_cons, List.foldl_nil, gapStep, h0, h1, h2, h3,
    runSubBits]

theorem foldl_processBlock_blocksOf (raws : List Int) (s : Decoder)
    (h01 : ∀ x ∈ raws, x = 0 ∨ x = 1) (hlen : raws.length % 4 = 0) :
    (blocksOf raws).foldl processBlock s = runSubBits s raws := by
  induction raws using blocksOf.induct generalizing s with
  | case1 a b c d rest ih =>
    have ha := h01 a (by simp)
    have hb := h01 b (by simp)
    have hc := h01 c (by simp)
    have hd := h01 d (by simp)
    have hrest : ∀ x ∈ rest, x = 0 ∨ x = 1 := fun x hx => h01 x (by simp [hx])
    have hl : rest.length % 4 = 0 := by
      simp only [List.length_cons] at hlen; omega
    simp only [blocksOf, List.foldl_cons, processBlock_gapSamples s a b c d ha hb hc hd]
    rw [ih _ hrest hl]
    rfl
  | case2 raws hne =>
    match raws, hne, hlen with
    | [], _, _ => rfl
    | [_], _, h => simp at h
    | [_, _], _, h => simp at h
    | [_, _, _], _, h => simp at h
    | a :: b :: c :: d :: rest, hne, _ => exact absurd rfl (hne a b c d rest)

theorem blocksOf_wf (raws : List Int) :
    ∀ buffer ∈ blocksOf raws, buffer.length = out_block_size ∧ ∀ x ∈ buffer, x < 256 := by
  induction raws using blocksOf.induct with
  | case1 a b c d rest ih =>
    intro buffer hb
    simp only [blocksOf, List.mem_cons] at hb
    rcases hb with rfl | hb
    · have hg : ∀ v : Int, (gapSamples v).length = 128 ∧ ∀ x ∈ gapSamples v, x < 256 := by
        intro v
        unfold gapSamples
        split
        · simp
        · refine ⟨by simp, ?_⟩
          intro x hx
          simp only [List.mem_append, List.mem_replicate] at hx
          omega
      refine ⟨?_, ?_⟩
      · simp [(hg _).1, out_block_size]
      · intro x hx
        simp only [List.mem_append] at hx
        rcases hx with ((hx | hx) | hx) | hx <;> exact (hg _).2 x hx
    · exact ih buffer hb
  | case2 raws hne =>
    intro buffer hb
    rw [blocksOf] at hb
    · simp at hb
    · exact hne

/-! ## Sessions on clean signals -/

theorem expand_bits (runs : List (Int × Nat)) (h01 : ∀ r ∈ runs, r.1 = 0 ∨ r.1 = 1) :
    ∀ x ∈ expand runs, x = 0 ∨ x = 1 := by
  induction runs with
  | nil => intro x hx; simp [expand] at hx
  | cons r rest ih =>
    obtain ⟨v, d⟩ := r
    intro x hx
    simp only [expand, List.mem_append, List.mem_replicate] at hx
    rcases hx with hx | hx
    · rw [hx.2]; exact h01 (v, d) (List.mem_cons_self _ _)
    · exact ih (fun r hr => h01 r (List.mem_cons_of_mem _ hr)) x hx

theorem delay_bits (runs : List (Int × Nat)) (o : Int) (ho : o = 0 ∨ o = 1)
    (h01 : ∀ r ∈ runs, r.1 = 0 ∨ r.1 = 1) : ∀ x ∈ delay o runs, x = 0 ∨ x = 1 := by
  induction runs generalizing o with
  | nil => intro x hx; simp [delay] at hx
  | cons r rest ih =>
    obtain ⟨v, d⟩ := r
    have hv := h01 (v, d) (List.mem_cons_self _ _)
    intro x hx
    simp only [delay, List.mem_append, List.mem_replicate] at hx
    rcases hx with (hx | hx) | hx
    · rw [hx.2]; exact ho
    · rw [hx.2]; exact hv
    · exact ih v hv (fun r hr => h01 r (List.mem_cons_of_mem _ hr)) x hx

theorem length_expand (runs : List (Int × Nat)) :
    (expand runs).length = (runs.map Prod.snd).sum := by
  induction runs with
  | nil => rfl
  | cons r rest ih =>
    obtain ⟨v, d⟩ := r
    simp only [expand, List.length_append, List.length_replicate, ih, List.map_cons, List.sum_cons]

theorem delay_cons (runs : List (Int × Nat)) (o : Int) (hne : runs ≠ []) :
    delay o runs = o :: (delay o runs).tail := by
  match runs, hne with
  | (v, d) :: rest, _ => rfl

/-- A session in fixed-bitrate mode on the blocks of a signal whose runs all last at least
twelve gaps: the bits handled are those detected on the signal delayed by eleven gaps. -/
theorem session_signal (runs : List (Int × Nat)) (hne : runs ≠ [])
    (h12 : ∀ r ∈ runs, 12 ≤ r.2) (h01 : ∀ r ∈ runs, r.1 = 0 ∨ r.1 = 1)
    (hlen : (runs.map Prod.snd).sum % 4 = 0) :
    session 0 (blocksOf (expand runs)) =
      setReg
        (withTiming
          ((detectBits 27 13 0 1 (delay 0 runs).tail).1.foldl onBit (detectStep (init 0) 0))
          (detectBits 27 13 0 1 (delay 0 runs).tail).2.2
          (detectBits 27 13 0 1 (delay 0 runs).tail).2.1)
        (List.replicate 12 (lastValue 0 runs)) := by
  have hreg : (init 0).sub_bit_buffer = List.replicate 12 0 := rfl
  have ht : (detectStep (init 0) 0).state ≠ STATE_BITRATE := by decide
  have hb : (detectStep (init 0) 0).bitrate = 27 := by decide
  have hT : (detectStep (init 0) 0).bitrate_tolerence = 13 := by decide
  have ho : (detectStep (init 0) 0).sub_bit_old = 0 := by decide
  have hn : (detectStep (init 0) 0).n_same = 1 := by decide
  have hes : ∀ e ∈ (delay 0 runs).tail, 0 ≤ e := by
    intro e he
    rcases delay_bits runs 0 (Or.inl rfl) h01 e (List.mem_of_mem_tail he) with h | h <;> omega
  have hlen2 : (expand runs).length % 4 = 0 := by rw [length_expand]; exact hlen
  unfold session
  rw [foldl_processBlock_blocksOf _ _ (expand_bits runs h01) hlen2, runSubBits_eq, hreg,
    (effectives_expand runs 0 h12).1, (effectives_expand runs 0 h12).2, delay_cons runs 0 hne,
    List.foldl_cons, detectBits_run _ _ ht hes, hb, hT, ho, hn]
  rfl

/-! ## One gap, in terms of the detected bit -/

theorem view_printed (s : Decoder) (n o : Int) (r : List Int) :
    (setReg (withTiming s n o) r).printed = s.printed := rfl
theorem view_state (s : Decoder) (n o : Int) (r : List Int) :
    (setReg (withTiming s n o) r).state = s.state := rfl
theorem view_first (s : Decoder) (n o : Int) (r : List Int) :
    (setReg (withTiming s n o) r).first_interframe_detected = s.first_interframe_detected := rfl
theorem view_msg_buffer_n (s : Decoder) (n o : Int) (r : List Int) :
    (setReg (withTiming s n o) r).msg_buffer_n = s.msg_buffer_n := rfl
theorem view_msg_buffer (s : Decoder) (n o : Int) (r : List Int) :
    (setReg (withTiming s n o) r).msg_buffer = s.msg_buffer := rfl
theorem view_msg_n (s : Decoder) (n o : Int) (r : List Int) :
    (setReg (withTiming s n o) r).msg_n = s.msg_n := rfl
theorem view_bit_buffer (s : Decoder) (n o : Int) (r : List Int) :
    (setReg (withTiming s n o) r).bit_buffer = s.bit_buffer := rfl
theorem view_bit_buffer_n (s : Decoder) (n o : Int) (r : List Int) :
    (setReg (withTiming s n o) r).bit_buffer_n = s.bit_buffer_n := rfl
theorem view_pending (s : Decoder) (n o : Int) (r : List Int) :
    pending (setReg (withTiming s n o) r) = pending s := rfl

theorem bitDetection_fst (s : Decoder) (e : Int) :
    (bitDetection s e).1 =
      withTiming s (bitDetection s e).1.n_same (bitDetection s e).1.sub_bit_old := by
  simp only [bitDetection]
  split_ifs <;> rfl

theorem subBitStep_eq_detectStep (s : Decoder) (raw : Int) :
    subBitStep s raw =
      setReg (detectStep s (effective (debounce s.sub_bit_buffer raw)))
        (debounce s.sub_bit_buffer raw) :=
  detectStep_setReg s _ _

/-- A gap in the state BitrateDetect. -/
theorem subBitStep_bitrate (s : Decoder) (raw : Int) (h : s.state = STATE_BITRATE) :
    subBitStep s raw =
      setReg (tick (bitrateDetection s (effective (debounce s.sub_bit_buffer raw))))
        (debounce s.sub_bit_buffer raw) := by
  rw [subBitStep_eq_detectStep, detectStep, if_pos h]

theorem tick_withTiming (s : Decoder) (n o : Int) :
    tick (withTiming s n o) = withTiming s (n + 1) o := rfl

theorem tick_frameStep (s : Decoder) (e : Int) :
    tick (frameStep s e) =
      withTiming
        (handled s (if (bitDetection s e).2 ≥ 0 then some (bitDetection s e).2 else none))
        ((bitDetection s e).1.n_same + 1) (bitDetection s e).1.sub_bit_old := by
  unfold frameStep
  by_cases hb : (bitDetection s e).2 ≥ 0
  · rw [if_pos hb, if_pos hb, handled]
    conv_lhs => rw [bitDetection_fst, onBit_withTiming, tick_withTiming]
  · rw [if_neg hb, if_neg hb, handled]
    conv_lhs => rw [bitDetection_fst, tick_withTiming]

/-- A gap outside the state BitrateDetect: the detected bit is handled, `n_same` and
`sub_bit_old` are those of the bit detection (with `n_same += 1`), the register is the
debounced one. -/
theorem subBitStep_frame (s : Decoder) (raw : Int) (h : s.state ≠ STATE_BITRATE) :
    subBitStep s raw =
      setReg
        (withTiming (handled s (detectedBit s raw))
          ((bitDetection s (effective (debounce s.sub_bit_buffer raw))).1.n_same + 1)
          (bitDetection s (effective (debounce s.sub_bit_buffer raw))).1.sub_bit_old)
        (debounce s.sub_bit_buffer raw) := by
  rw [subBitStep_eq_detectStep, detectStep, if_neg h, tick_frameStep, detectedBit, if_neg h]

/-- The handling of a bit that completes a byte. -/
theorem onBit_decoding (s : Decoder) (bit : Int) (h1 : s.state = STATE_FRAME)
    (h2 : s.bit_buffer_n + 1 = BIT_BUFFER_LENGTH) :
    onBit s bit =
      onByte { s with bit_buffer := store s.bit_buffer s.bit_buffer_n bit, bit_buffer_n := 0 }
        (decodeByte (store s.bit_buffer s.bit_buffer_n bit))
        (decodeParity (store s.bit_buffer s.bit_buffer_n bit)) := by
  have hne : ¬ s.state = STATE_INTERFRAME := by rw [h1]; decide
  rw [onBit, if_neg hne, if_pos h1, addBit, if_pos h2]

/-- The handling of a bit that completes no byte leaves the message variables alone. -/
theorem onBit_not_decoding (s : Decoder) (bit : Int)
    (h : ¬ (s.state = STATE_FRAME ∧ s.bit_buffer_n + 1 = BIT_BUFFER_LENGTH)) :
    (onBit s bit).printed = s.printed ∧ (onBit s bit).msg_buffer = s.msg_buffer ∧
      (onBit s bit).msg_buffer_n = s.msg_buffer_n ∧ (onBit s bit).msg_n = s.msg_n ∧
      (onBit s bit).first_interframe_detected = s.first_interframe_detected := by
  simp only [onBit, addBit]
  split_ifs with h1 h2 h3 h4
  · exact ⟨rfl, rfl, rfl, rfl, rfl⟩
  · exact ⟨rfl, rfl, rfl, rfl, rfl⟩
  · exact absurd ⟨h3, h4⟩ h
  · exact ⟨rfl, rfl, rfl, rfl, rfl⟩
  · exact ⟨rfl, rfl, rfl, rfl, rfl⟩

/-! ## The message variables -/

theorem store_length (xs : List Int) (i : Nat) (v : Int) :
    (store xs i v).length = max xs.length (i + 1) := by
  unfold store
  split
  · simp only [List.length_set]; omega
  · simp only [List.length_append, List.length_replicate, List.length_singleton]; omega

theorem take_store (xs : List Int) (i : Nat) (v : Int) (h : i ≤ xs.length) :
    (store xs i v).take (i + 1) = xs.take i ++ [v] := by
  induction xs generalizing i with
  | nil =>
    have : i = 0 := by simpa using h
    subst this
    rfl
  | cons a xs ih =>
    cases i with
    | zero => simp
    | succ i =>
      have h2 : i ≤ xs.length := by simpa using h
      simp [ih i h2]

theorem take_store_lt (xs : List Int) (i : Nat) (v : Int) (h : i ≤ xs.length) :
    (store xs i v).take i = xs.take i := by
  have := congrArg (List.take i) (take_store xs i v h)
  rw [List.take_take, Nat.min_eq_left (Nat.le_succ i)] at this
  rw [this, List.take_append_of_le_length (by simp [h])]
  simp

theorem cell_store (xs : List Int) (i : Nat) (v : Int) (h : i ≤ xs.length) :
    cell (store xs i v) i = v := by
  induction xs generalizing i with
  | nil =>
    have : i = 0 := by simpa using h
    subst this
    rfl
  | cons a xs ih =>
    cases i with
    | zero => simp
    | succ i =>
      have h2 : i ≤ xs.length := by simpa using h
      simp [ih i h2]

/-- The string printed once the terminator is stored behind `i` characters, none of
which is the terminator: these `i` characters. -/
theorem cString_store (xs : List Int) (i : Nat) (h : i ≤ xs.length)
    (hnz : ∀ c ∈ xs.take i, c ≠ 0) : cString (store xs i 0) = xs.take i := by
  induction xs generalizing i with
  | nil =>
    have : i = 0 := by simpa using h
    subst this
    simp [cString, List.takeWhile]
  | cons a xs ih =>
    cases i with
    | zero => simp [cString, List.takeWhile]
    | succ i =>
      have h2 : i ≤ xs.length := by simpa using h
      have ha : a ≠ 0 := hnz a (by simp)
      have hrest : ∀ c ∈ xs.take i, c ≠ 0 := fun c hc => hnz c (by simp [hc])
      have := ih i h2 hrest
      simp only [cString] at this
      simp [cString, List.takeWhile, ha, this]

/-- The character stored for a payload byte is printable. -/
theorem checkedChar_printable (s : Decoder) (byte bit_buffer_parity : Int) :
    32 ≤ checkedChar s byte bit_buffer_parity ∧ checkedChar s byte bit_buffer_parity ≤ 126 := by
  dsimp only [checkedChar]
  split_ifs <;> omega

theorem MsgInv.congr {s t : Decoder} (h : MsgInv s) (hp : t.printed = s.printed)
    (hb : t.msg_buffer = s.msg_buffer) (hn : t.msg_buffer_n = s.msg_buffer_n)
    (hm : t.msg_n = s.msg_n)
    (hf : t.first_interframe_detected = 0 → s.first_interframe_detected = 0) : MsgInv t where
  numbered := by rw [hp]; exact h.numbered
  next := by rw [hm, hp]; exact h.next
  fits := by rw [hn, hb]; exact h.fits
  printable := by
    have : pending t = pending s := by unfold pending; rw [hn, hb]
    rw [this]; exact h.printable
  unopened := by
    intro h0
    rw [hp, hn, hm, hb]
    exact h.unopened (hf h0)

theorem init_MsgInv (detect_bitrate : Int) : MsgInv (init detect_bitrate) where
  numbered := rfl
  next := rfl
  fits := Nat.zero_le _
  printable := by intro c hc; simp [pending, init] at hc
  unopened := fun _ => ⟨rfl, rfl, rfl, rfl⟩

/-- The text of a message: the characters held when the delimiter is decoded. -/
theorem cString_pending (s : Decoder) (h : MsgInv s) :
    cString (store s.msg_buffer s.msg_buffer_n 0) = pending s := by
  apply cString_store _ _ h.fits
  intro c hc
  have := h.printable c hc
  omega

theorem onByte_MsgInv (s : Decoder) (byte parity : Int) (h : MsgInv s) :
    MsgInv (onByte s byte parity) := by
  unfold onByte
  split_ifs with h1 h2 h3
  · exact h.congr rfl rfl rfl rfl (fun h0 => by simp at h0)
  · refine ⟨?_, ?_, ?_, ?_, ?_⟩
    · show (s.printed ++ [(s.msg_n, _)]).map Prod.fst = _
      simp only [List.map_append, List.length_append, List.length_singleton, List.range_succ,
        h.numbered, List.map_cons, List.map_nil, h.next]
    · show s.msg_n + 1 = ((s.printed ++ [(s.msg_n, _)]).length : Int) + 1
      simp only [List.length_append, List.length_singleton, h.next]
      push_cast; ring
    · exact Nat.zero_le _
    · intro c hc
      simp [pending] at hc
    · intro h0
      exact absurd h0 h2
  · refine ⟨h.numbered, h.next, ?_, ?_, ?_⟩
    · show s.msg_buffer_n + 1 ≤ (store s.msg_buffer s.msg_buffer_n _).length
      rw [store_length]; omega
    · intro c hc
      have hc2 : c ∈ (store s.msg_buffer s.msg_buffer_n (checkedChar s byte parity)).take
          (s.msg_buffer_n + 1) := hc
      rw [take_store _ _ _ h.fits, List.mem_append, List.mem_singleton] at hc2
      rcases hc2 with hc2 | hc2
      · exact h.printable c hc2
      · rw [hc2]; exact checkedChar_printable s byte parity
    · intro h0
      exact absurd h0 h3
  · exact h

theorem onBit_MsgInv (s : Decoder) (bit : Int) (h : MsgInv s) : MsgInv (onBit s bit) := by
  by_cases hd : s.state = STATE_FRAME ∧ s.bit_buffer_n + 1 = BIT_BUFFER_LENGTH
  · rw [onBit_decoding s bit hd.1 hd.2]
    apply onByte_MsgInv
    exact h.congr rfl rfl rfl rfl (fun h0 => h0)
  · obtain ⟨hp, hb, hn, hm, hf⟩ := onBit_not_decoding s bit hd
    exact h.congr hp hb hn hm (fun h0 => by rw [← hf]; exact h0)

theorem bitrateDetection_msg (s : Decoder) (e : Int) :
    (bitrateDetection s e).printed = s.printed ∧ (bitrateDetection s e).msg_buffer = s.msg_buffer ∧
      (bitrateDetection s e).msg_buffer_n = s.msg_buffer_n ∧
      (bitrateDetection s e).msg_n = s.msg_n ∧
      (bitrateDetection s e).first_interframe_detected = s.first_interframe_detected := by
  unfold bitrateDetection
  split_ifs <;> exact ⟨rfl, rfl, rfl, rfl, rfl⟩

/-- Every gap keeps the invariant of the message variables. -/
theorem subBitStep_MsgInv (s : Decoder) (raw : Int) (h : MsgInv s) :
    MsgInv (subBitStep s raw) := by
  by_cases hs : s.state = STATE_BITRATE
  · rw [subBitStep_bitrate s raw hs]
    obtain ⟨hp, hb, hn, hm, hf⟩ :=
      bitrateDetection_msg s (effective (debounce s.sub_bit_buffer raw))
    exact h.congr hp hb hn hm (fun h0 => by rw [← hf]; exact h0)
  · rw [subBitStep_frame s raw hs]
    have h2 : MsgInv (handled s (detectedBit s raw)) := by
      cases detectedBit s raw with
      | none => exact h
      | some bit => exact onBit_MsgInv s bit h
    exact h2.congr (view_printed _ _ _ _) (view_msg_buffer _ _ _ _) (view_msg_buffer_n _ _ _ _)
      (view_msg_n _ _ _ _) (fun h0 => by rw [view_first] at h0; exact h0)

/-! ## Sessions -/

theorem processGaps_succ (s : Decoder) (buffer : List Nat) (k : Nat) :
    processGaps s buffer (k + 1) = gapStep (processGaps s buffer k) buffer k := by
  simp only [processGaps, List.range_succ, List.foldl_append, List.foldl_cons, List.foldl_nil]

theorem reached_succ (d : Int) (blocks : List (List Nat)) (buffer : List Nat) (k : Nat) :
    reached d blocks buffer (k + 1) =
      subBitStep (reached d blocks buffer k) (computeGap (computeAverages buffer k)) :=
  processGaps_succ _ _ _

theorem reached_zero (d : Int) (blocks : List (List Nat)) (buffer : List Nat) :
    reached d blocks buffer 0 = session d blocks := by
  simp only [reached, processGaps, List.range_zero, List.foldl_nil]

/-- Induction over the states of a session. -/
theorem reached_induction (P : Decoder → Prop) (d : Int) (h0 : P (init d))
    (hstep : ∀ s raw, (raw = 0 ∨ raw = 1) → P s → P (subBitStep s raw))
    (blocks : List (List Nat)) (buffer : List Nat) (k : Nat) : P (reached d blocks buffer k) := by
  have hraw : ∀ averages, computeGap averages = 0 ∨ computeGap averages = 1 := by
    intro averages; unfold computeGap; split <;> simp
  have hgaps : ∀ (s : Decoder) (buffer : List Nat) (k : Nat), P s → P (processGaps s buffer k) := by
    intro s buffer k hs
    induction k with
    | zero => exact hs
    | succ k ih => rw [processGaps_succ]; exact hstep _ _ (hraw _) ih
  have hsession : ∀ (blocks : List (List Nat)) (s : Decoder), P s →
      P (blocks.foldl processBlock s) := by
    intro blocks
    induction blocks with
    | nil => intro s hs; exact hs
    | cons b bs ih => intro s hs; exact ih _ (hgaps s b _ hs)
  exact hgaps _ _ _ (hsession blocks _ h0)

theorem reached_MsgInv (d : Int) (blocks : List (List Nat)) (buffer : List Nat) (k : Nat) :
    MsgInv (reached d blocks buffer k) :=
  reached_induction MsgInv d (init_MsgInv d) (fun s raw _ h => subBitStep_MsgInv s raw h)
    blocks buffer k

/-! ## The registers of bits -/

theorem store_bits (xs : List Int) (i : Nat) (v : Int) (hv : v = 0 ∨ v = 1)
    (h : ∀ x ∈ xs, x = 0 ∨ x = 1) : ∀ x ∈ store xs i v, x = 0 ∨ x = 1 := by
  intro x hx
  unfold store at hx
  split at hx
  · rcases List.mem_or_eq_of_mem_set hx with hx | hx
    · exact h x hx
    · rw [hx]; exact hv
  · simp only [List.mem_append, List.mem_replicate, List.mem_singleton] at hx
    rcases hx with (hx | hx) | hx
    · exact h x hx
    · exact Or.inl hx.2
    · rw [hx]; exact hv

theorem debounce_bits (reg : List Int) (raw : Int) (hlen : reg.length = 12)
    (hraw : raw = 0 ∨ raw = 1) (h : ∀ x ∈ reg, x = 0 ∨ x = 1) :
    (debounce reg raw).length = 12 ∧ ∀ x ∈ debounce reg raw, x = 0 ∨ x = 1 := by
  obtain ⟨a0, a1, a2, a3, a4, a5, a6, a7, a8, a9, a10, a11, rfl⟩ := length_eq_twelve hlen
  rw [debounce_eq]
  split
  · refine ⟨by simp, ?_⟩
    intro x hx
    rw [List.mem_replicate] at hx
    rw [hx.2]; exact hraw
  · refine ⟨rfl, ?_⟩
    intro x hx
    rcases List.mem_cons.mp hx with hx | hx
    · rw [hx]; exact hraw
    · apply h
      simp only [List.mem_cons, List.mem_singleton, List.not_mem_nil, or_false] at hx ⊢
      tauto

theorem effective_bit (reg : List Int) (hlen : reg.length = 12) (h : ∀ x ∈ reg, x = 0 ∨ x = 1) :
    effective reg = 0 ∨ effective reg = 1 := by
  obtain ⟨a0, a1, a2, a3, a4, a5, a6, a7, a8, a9, a10, a11, rfl⟩ := length_eq_twelve hlen
  exact h a11 (by simp)

theorem bitDetection_snd (s : Decoder) (e : Int) (h : (bitDetection s e).2 ≥ 0) :
    (bitDetection s e).2 = e := by
  unfold bitDetection at h ⊢
  split_ifs at h ⊢
  · rfl
  · rfl
  · have h2 : (-1 : Int) ≥ 0 := h
    exact absurd h2 (by decide)

/-- A detected bit is the effective sub-bit of the gap. -/
theorem detectedBit_eq (s : Decoder) (raw bit : Int) (h : detectedBit s raw = some bit) :
    bit = effective (debounce s.sub_bit_buffer raw) ∧ s.state ≠ STATE_BITRATE := by
  unfold detectedBit at h
  generalize effective (debounce s.sub_bit_buffer raw) = e at h ⊢
  by_cases hs : s.state = STATE_BITRATE
  · rw [if_pos hs] at h
    exact absurd h (by simp)
  · rw [if_neg hs] at h
    by_cases hb : (bitDetection s e).2 ≥ 0
    · rw [if_pos hb, bitDetection_snd s e hb] at h
      exact ⟨(Option.some.inj h).symm, hs⟩
    · rw [if_neg hb] at h
      exact absurd h (by simp)

theorem onByte_bits (s : Decoder) (byte parity : Int) :
    (onByte s byte parity).bit_buffer = s.bit_buffer ∧
      (onByte s byte parity).bit_buffer_n = s.bit_buffer_n ∧
      (onByte s byte parity).parity_check = s.parity_check ∧
      (onByte s byte parity).parity_check_even = s.parity_check_even := by
  unfold onByte
  split_ifs <;> exact ⟨rfl, rfl, rfl, rfl⟩

/-- The bit buffer and the parity options after the handling of a bit. -/
theorem onBit_bits (s : Decoder) (bit : Int) :
    ((onBit s bit).bit_buffer = s.bit_buffer ∨
        (onBit s bit).bit_buffer = store s.bit_buffer s.bit_buffer_n bit) ∧
      (onBit s bit).parity_check = s.parity_check ∧
      (onBit s bit).parity_check_even = s.parity_check_even := by
  simp only [onBit, addBit]
  split_ifs
  · exact ⟨Or.inl rfl, rfl, rfl⟩
  · exact ⟨Or.inl rfl, rfl, rfl⟩
  · have := onByte_bits
      { s with bit_buffer := store s.bit_buffer s.bit_buffer_n bit, bit_buffer_n := 0 }
      (decodeByte (store s.bit_buffer s.bit_buffer_n bit))
      (decodeParity (store s.bit_buffer s.bit_buffer_n bit))
    exact ⟨Or.inr this.1, this.2.2.1, this.2.2.2⟩
  · exact ⟨Or.inr rfl, rfl, rfl⟩
  · exact ⟨Or.inl rfl, rfl, rfl⟩

theorem bitrateDetection_bits (s : Decoder) (e : Int) :
    (bitrateDetection s e).bit_buffer = s.bit_buffer ∧
      (bitrateDetection s e).parity_check = s.parity_check ∧
      (bitrateDetection s e).parity_check_even = s.parity_check_even := by
  unfold bitrateDetection
  split_ifs <;> exact ⟨rfl, rfl, rfl⟩

theorem init_BitsInv (detect_bitrate : Int) : BitsInv (init detect_bitrate) := by
  refine ⟨?_, ?_, ?_, ?_, ?_⟩
  · simp [init]
  · intro x hx
    simp only [init, List.mem_replicate] at hx
    exact Or.inl hx.2
  · intro x hx
    simp only [init, List.mem_replicate] at hx
    exact Or.inl hx.2
  · simp [init, PARITY_CHECK]
  · simp [init]

theorem BitsInv.of_view (t : Decoder) (n o : Int) (r : List Int)
    (hl : r.length = DEBOUNCING_FILTER_BUFFER_LENGTH) (hr : ∀ x ∈ r, x = 0 ∨ x = 1)
    (hb : ∀ x ∈ t.bit_buffer, x = 0 ∨ x = 1) (hp : t.parity_check = 1)
    (he : t.parity_check_even = 1) : BitsInv (setReg (withTiming t n o) r) :=
  ⟨hl, hr, hb, hp, he⟩

theorem BitsInv.of_tick (t : Decoder) (r : List Int)
    (hl : r.length = DEBOUNCING_FILTER_BUFFER_LENGTH) (hr : ∀ x ∈ r, x = 0 ∨ x = 1)
    (hb : ∀ x ∈ t.bit_buffer, x = 0 ∨ x = 1) (hp : t.parity_check = 1)
    (he : t.parity_check_even = 1) : BitsInv (setReg (tick t) r) :=
  ⟨hl, hr, hb, hp, he⟩

theorem handled_bits (s : Decoder) (ob : Option Int) (h : BitsInv s)
    (hbit : ∀ bit, ob = some bit → bit = 0 ∨ bit = 1) :
    (∀ x ∈ (handled s ob).bit_buffer, x = 0 ∨ x = 1) ∧ (handled s ob).parity_check = 1 ∧
      (handled s ob).parity_check_even = 1 := by
  cases ob with
  | none => exact ⟨h.buffer_bits, h.parity_on, h.parity_even⟩
  | some bit =>
    have hb01 := hbit bit rfl
    have hb := onBit_bits s bit
    refine ⟨?_, hb.2.1.trans h.parity_on, hb.2.2.trans h.parity_even⟩
    intro x hx
    have hx2 : x ∈ (onBit s bit).bit_buffer := hx
    rcases hb.1 with hb | hb
    · rw [hb] at hx2; exact h.buffer_bits x hx2
    · rw [hb] at hx2
      exact store_bits s.bit_buffer s.bit_buffer_n bit hb01 h.buffer_bits x hx2

/-- Every gap fed with a raw sub-bit keeps the invariant of the registers of bits. -/
theorem subBitStep_BitsInv (s : Decoder) (raw : Int) (hraw : raw = 0 ∨ raw = 1)
    (h : BitsInv s) : BitsInv (subBitStep s raw) := by
  have hd := debounce_bits s.sub_bit_buffer raw h.reg_length hraw h.reg_bits
  by_cases hs : s.state = STATE_BITRATE
  · rw [subBitStep_bitrate s raw hs]
    generalize debounce s.sub_bit_buffer raw = r at hd ⊢
    generalize effective r = e
    obtain ⟨hb, hp, he⟩ := bitrateDetection_bits s e
    apply BitsInv.of_tick _ _ hd.1 hd.2
    · rw [hb]; exact h.buffer_bits
    · rw [hp]; exact h.parity_on
    · rw [he]; exact h.parity_even
  · rw [subBitStep_frame s raw hs]
    have hbit : ∀ bit, detectedBit s raw = some bit → bit = 0 ∨ bit = 1 := by
      intro bit hbit
      rw [(detectedBit_eq s raw bit hbit).1]
      exact effective_bit _ hd.1 hd.2
    obtain ⟨h1, h2, h3⟩ := handled_bits s (detectedBit s raw) h hbit
    exact BitsInv.of_view _ _ _ _ hd.1 hd.2 h1 h2 h3

theorem reached_BitsInv (d : Int) (blocks : List (List Nat)) (buffer : List Nat) (k : Nat) :
    BitsInv (reached d blocks buffer k) :=
  reached_induction BitsInv d (init_BitsInv d) (fun s raw hraw h => subBitStep_BitsInv s raw hraw h)
    blocks buffer k

/-! ## The gap that decodes a byte -/

theorem decodedByte_some (s : Decoder) (raw b : Int) (h : decodedByte s raw = some b) :
    ∃ bit, detectedBit s raw = some bit ∧ s.state = STATE_FRAME ∧
      s.bit_buffer_n + 1 = BIT_BUFFER_LENGTH ∧
      filledBitBuffer s raw = store s.bit_buffer s.bit_buffer_n bit ∧
      b = decodeByte (store s.bit_buffer s.bit_buffer_n bit) := by
  unfold decodedByte at h
  unfold filledBitBuffer
  cases hbit : detectedBit s raw with
  | none => rw [hbit] at h; exact absurd h (by simp)
  | some bit =>
    rw [hbit] at h
    simp only at h ⊢
    by_cases hc : s.state = STATE_FRAME ∧ s.bit_buffer_n + 1 = BIT_BUFFER_LENGTH
    · rw [if_pos hc] at h
      exact ⟨bit, rfl, hc.1, hc.2, rfl, (Option.some.inj h).symm⟩
    · rw [if_neg hc] at h
      exact absurd h (by simp)

theorem decodedByte_none (s : Decoder) (raw : Int) (h : decodedByte s raw = none) :
    detectedBit s raw = none ∨
      ¬ (s.state = STATE_FRAME ∧ s.bit_buffer_n + 1 = BIT_BUFFER_LENGTH) := by
  unfold decodedByte at h
  cases hbit : detectedBit s raw with
  | none => exact Or.inl rfl
  | some bit =>
    rw [hbit] at h
    simp only at h
    by_cases hc : s.state = STATE_FRAME ∧ s.bit_buffer_n + 1 = BIT_BUFFER_LENGTH
    · rw [if_pos hc] at h
      exact absurd h (by simp)
    · exact Or.inr hc

/-- The gap that decodes the byte `b`: the byte is handled on the decoder whose bit buffer
is complete and whose count of bits is reset. -/
theorem subBitStep_decoded (s : Decoder) (raw b : Int) (h : decodedByte s raw = some b) :
    ∃ n o,
      subBitStep s raw =
        setReg
          (withTiming
            (onByte { s with bit_buffer := filledBitBuffer s raw, bit_buffer_n := 0 } b
              (decodeParity (filledBitBuffer s raw))) n o)
          (debounce s.sub_bit_buffer raw) := by
  obtain ⟨bit, hbit, hs, hn, hf, hb⟩ := decodedByte_some s raw b h
  have hne : s.state ≠ STATE_BITRATE := by rw [hs]; decide
  refine ⟨(bitDetection s (effective (debounce s.sub_bit_buffer raw))).1.n_same + 1,
    (bitDetection s (effective (debounce s.sub_bit_buffer raw))).1.sub_bit_old, ?_⟩
  rw [subBitStep_frame s raw hne, hbit, handled, onBit_decoding s bit hs hn, hf, ← hb]

/-- A gap that decodes no byte leaves the message variables alone. -/
theorem subBitStep_not_decoded (s : Decoder) (raw : Int) (h : decodedByte s raw = none) :
    (subBitStep s raw).printed = s.printed ∧ (subBitStep s raw).msg_buffer = s.msg_buffer ∧
      (subBitStep s raw).msg_buffer_n = s.msg_buffer_n ∧ (subBitStep s raw).msg_n = s.msg_n ∧
      (subBitStep s raw).first_interframe_detected = s.first_interframe_detected := by
  by_cases hs : s.state = STATE_BITRATE
  · rw [subBitStep_bitrate s raw hs]
    exact bitrateDetection_msg s _
  · rw [subBitStep_frame s raw hs, view_printed, view_msg_buffer, view_msg_buffer_n, view_msg_n,
      view_first]
    rcases decodedByte_none s raw h with hn | hn
    · rw [hn]; exact ⟨rfl, rfl, rfl, rfl, rfl⟩
    · cases detectedBit s raw with
      | none => exact ⟨rfl, rfl, rfl, rfl, rfl⟩
      | some bit => exact onBit_not_decoding s bit hn

/-! ## Byte reconstruction, gap detector, debounce filter -/

theorem decodeByte_eq (bit_buffer : List Int) :
    decodeByte bit_buffer = ∑ i in Finset.range 8, cell bit_buffer i * 2 ^ i := by
  simp only [decodeByte, range8, List.foldl_cons, List.foldl_nil, Finset.sum_range_succ,
    Finset.sum_range_zero]

theorem decode_congr (xs ys : List Int) (h : ∀ i, i < 8 → cell xs i = cell ys i) :
    decodeByte xs = decodeByte ys ∧ decodeParity xs = decodeParity ys := by
  simp only [decodeByte, decodeParity, range8, List.foldl_cons, List.foldl_nil]
  rw [h 0 (by decide), h 1 (by decide), h 2 (by decide), h 3 (by decide), h 4 (by decide),
    h 5 (by decide), h 6 (by decide), h 7 (by decide)]
  exact ⟨rfl, rfl⟩

theorem decode_bits (a0 a1 a2 a3 a4 a5 a6 a7 : Int)
    (h0 : a0 = 0 ∨ a0 = 1) (h1 : a1 = 0 ∨ a1 = 1) (h2 : a2 = 0 ∨ a2 = 1) (h3 : a3 = 0 ∨ a3 = 1)
    (h4 : a4 = 0 ∨ a4 = 1) (h5 : a5 = 0 ∨ a5 = 1) (h6 : a6 = 0 ∨ a6 = 1) (h7 : a7 = 0 ∨ a7 = 1) :
    0 ≤ decodeByte [a0, a1, a2, a3, a4, a5, a6, a7] ∧
      decodeByte [a0, a1, a2, a3, a4, a5, a6, a7] ≤ 255 ∧
      decodeParity [a0, a1, a2, a3, a4, a5, a6, a7] = xorBits [a0, a1, a2, a3, a4, a5, a6, a7] := by
  rcases h0 with rfl | rfl <;> rcases h1 with rfl | rfl <;> rcases h2 with rfl | rfl <;>
    rcases h3 with rfl | rfl <;> rcases h4 with rfl | rfl <;> rcases h5 with rfl | rfl <;>
    rcases h6 with rfl | rfl <;> rcases h7 with rfl | rfl <;> decide

/-- C8: for every 12-slot bit buffer of 0/1 values the decoded byte is the sum of
`bit_i * 2^i` over the slots 0..7, lies in [0,255] and depends on the slots 0..7 only, like
the computed parity, which is the XOR of the bits 0..7; in the gap that decodes a byte the
count of bits is reset to 0 (the byte is the one of the completed bit buffer); the buffer
[1,0,1,0,0,0,0,0,1,...] gives the byte 5 and the parity 0. -/
theorem decode_byte_and_parity (bit_buffer : List Int)
    (hlen : bit_buffer.length = BIT_BUFFER_LENGTH) (h01 : ∀ x ∈ bit_buffer, x = 0 ∨ x = 1) :
    decodeByte bit_buffer = ∑ i in Finset.range 8, cell bit_buffer i * 2 ^ i ∧
      0 ≤ decodeByte bit_buffer ∧ decodeByte bit_buffer ≤ 255 ∧
      (∀ other : List Int, (∀ i, i < 8 → cell other i = cell bit_buffer i) →
        decodeByte other = decodeByte bit_buffer ∧ decodeParity other = decodeParity bit_buffer) ∧
      decodeParity bit_buffer = xorBits (bit_buffer.take 8) ∧
      (∀ (s : Decoder) (raw b : Int), decodedByte s raw = some b →
        (subBitStep s raw).bit_buffer_n = 0 ∧ (subBitStep s raw).bit_buffer = filledBitBuffer s raw ∧
          b = decodeByte (subBitStep s raw).bit_buffer) ∧
      (∀ a9 a10 a11 : Int, decodeByte [1, 0, 1, 0, 0, 0, 0, 0, 1, a9, a10, a11] = 5 ∧
        decodeParity [1, 0, 1, 0, 0, 0, 0, 0, 1, a9, a10, a11] = 0) := by
  obtain ⟨a0, a1, a2, a3, a4, a5, a6, a7, a8, a9, a10, a11, rfl⟩ := length_eq_twelve hlen
  have hd := decode_bits a0 a1 a2 a3 a4 a5 a6 a7 (h01 _ (by simp))
    (h01 _ (by simp)) (h01 _ (by simp)) (h01 _ (by simp)) (h01 _ (by simp)) (h01 _ (by simp))
    (h01 _ (by simp)) (h01 _ (by simp))
  have hc := decode_congr [a0, a1, a2, a3, a4, a5, a6, a7, a8, a9, a10, a11]
    [a0, a1, a2, a3, a4, a5, a6, a7] (by
      intro i hi
      interval_cases i <;> rfl)
  rw [hc.1, hc.2]
  refine ⟨?_, hd.1, hd.2.1, ?_, hd.2.2, ?_, ?_⟩
  · rw [← hc.1]; exact decodeByte_eq _
  · intro other h
    rw [← hc.1, ← hc.2]
    exact decode_congr _ _ h
  · intro s raw b hb
    obtain ⟨n, o, hstep⟩ := subBitStep_decoded s raw b hb
    obtain ⟨bit, _, _, _, hf, hbyte⟩ := decodedByte_some s raw b hb
    have hbits := onByte_bits { s with bit_buffer := filledBitBuffer s raw, bit_buffer_n := 0 } b
      (decodeParity (filledBitBuffer s raw))
    rw [hstep, view_bit_buffer_n, view_bit_buffer, hbits.1, hbits.2.1]
    exact ⟨rfl, rfl, by rw [hbyte, ← hf]⟩
  · intro b9 b10 b11
    have hb := decode_congr [1, 0, 1, 0, 0, 0, 0, 0, 1, b9, b10, b11] [1, 0, 1, 0, 0, 0, 0, 0] (by
      intro i hi
      interval_cases i <;> rfl)
    rw [hb.1, hb.2]
    exact ⟨by decide, by decide⟩

/-- C8, at the buffer of the specification. -/
theorem decode_byte_and_parity_witness :
    ([1, 0, 1, 0, 0, 0, 0, 0, 1, 0, 0, 0] : List Int).length = BIT_BUFFER_LENGTH ∧
      decodeByte [1, 0, 1, 0, 0, 0, 0, 0, 1, 0, 0, 0] = 5 ∧
      decodeParity [1, 0, 1, 0, 0, 0, 0, 0, 1, 0, 0, 0] = 0 ∧
      decodeParity [1, 0, 1, 0, 0, 0, 0, 0, 1, 0, 0, 0] =
        xorBits (([1, 0, 1, 0, 0, 0, 0, 0, 1, 0, 0, 0] : List Int).take 8) :=
  ⟨by decide, by decide, by decide,
    (decode_byte_and_parity [1, 0, 1, 0, 0, 0, 0, 0, 1, 0, 0, 0] (by decide) (by decide)).2.2.2.2.1⟩

theorem gapSum_eq (averages : List Int) :
    gapSum averages = ∑ i in Finset.range 7, |cell averages (i + 1) - cell averages i| := by
  have h : n_averages_per_gap - 1 = 7 := rfl
  simp only [gapSum, h, range7, List.foldl_cons, List.foldl_nil, Finset.sum_range_succ,
    Finset.sum_range_zero, Int.natCast_natAbs]

/-- C9: the raw sub-bit of every gap is 1 if the sum `S` of `|avg[i+1] - avg[i]|` over
`i` in 0..6 is below the gap trigger threshold 1900 and 0 otherwise, and it is this value
that the gap feeds to the decoder; when the 8 averages are equal the raw sub-bit is 1. -/
theorem raw_sub_bit (averages : List Int) :
    computeGap averages =
        (if (∑ i in Finset.range 7, |cell averages (i + 1) - cell averages i|) < 1900 then 1
          else 0) ∧
      ((∀ i, i < 8 → cell averages i = cell averages 0) → computeGap averages = 1) ∧
      (∀ (s : Decoder) (buffer : List Nat) (gap : Nat),
        gapStep s buffer gap = subBitStep s (computeGap (computeAverages buffer gap))) := by
  have hT : bit_gap_trigger = 1900 := rfl
  refine ⟨?_, ?_, fun _ _ _ => rfl⟩
  · rw [computeGap, gapSum_eq, hT]
  · intro h
    rw [computeGap, gapSum_eq, hT, if_pos]
    simp only [Finset.sum_range_succ, Finset.sum_range_zero]
    rw [h 1 (by decide), h 2 (by decide), h 3 (by decide), h 4 (by decide), h 5 (by decide),
      h 6 (by decide), h 7 (by decide)]
    simp

/-- C9, on the third gap of a block whose 512 samples all equal 7. -/
theorem raw_sub_bit_witness :
    (∀ i, i < 8 → cell (computeAverages (List.replicate 512 7) 2) i =
        cell (computeAverages (List.replicate 512 7) 2) 0) ∧
      computeGap (computeAverages (List.replicate 512 7) 2) = 1 :=
  ⟨by decide, (raw_sub_bit (computeAverages (List.replicate 512 7) 2)).2.1 (by decide)⟩

/-- C10: from a debounce register whose 12 slots all hold `v`, one raw sub-bit `1 - v`
followed by `n >= 1` raw sub-bits `v` gives the effective sub-bit `v` on each of the
`n + 1` cycles, and the register is uniformly `v` again after the first of the `v`
inputs and at the end. -/
theorem debounce_erases_spike (v : Int) (n : Nat) (hn : 1 ≤ n) :
    effectives (List.replicate DEBOUNCING_FILTER_BUFFER_LENGTH v) ((1 - v) :: List.replicate n v) =
        List.replicate (n + 1) v ∧
      [1 - v, v].foldl debounce (List.replicate DEBOUNCING_FILTER_BUFFER_LENGTH v) =
        List.replicate DEBOUNCING_FILTER_BUFFER_LENGTH v ∧
      ((1 - v) :: List.replicate n v).foldl debounce
          (List.replicate DEBOUNCING_FILTER_BUFFER_LENGTH v) =
        List.replicate DEBOUNCING_FILTER_BUFFER_LENGTH v := by
  obtain ⟨m, rfl⟩ : ∃ m, n = m + 1 := ⟨n - 1, by omega⟩
  have hL : DEBOUNCING_FILTER_BUFFER_LENGTH = 12 := rfl
  have h1 : ¬ (1 - v = v) := by omega
  have h2 : ¬ (v = 1 - v) := by omega
  have hs1 : debounce (List.replicate 12 v) (1 - v) = [1 - v, v, v, v, v, v, v, v, v, v, v, v] := by
    simp only [List.replicate, debounce_eq, h1, false_and, if_false]
  have hs2 : debounce [1 - v, v, v, v, v, v, v, v, v, v, v, v] v = List.replicate 12 v := by
    rw [debounce_eq, if_pos]
    exact ⟨rfl, 1 - v, by simp, rfl⟩
  have hu := effectives_uniform v m
  have he1 : effective [1 - v, v, v, v, v, v, v, v, v, v, v, v] = v := rfl
  have he2 : effective (List.replicate 12 v) = v := rfl
  rw [hL, List.replicate_succ (n := m)]
  simp only [effectives, List.foldl_cons, List.foldl_nil, hs1, hs2, hu.1, hu.2, he1, he2]
  simp [List.replicate_succ]

/-- C10, for a spike of 1 in a register of zeros followed by three zeros. -/
theorem debounce_erases_spike_witness :
    1 ≤ 3 ∧
      effectives (List.replicate DEBOUNCING_FILTER_BUFFER_LENGTH 0) (1 :: List.replicate 3 0) =
        [0, 0, 0, 0] :=
  ⟨by decide, (debounce_erases_spike 0 3 (by decide)).1⟩

/-! ## Delimiters and payload bytes -/

theorem decodeParity_xor (xs : List Int) (hlen : 8 ≤ xs.length)
    (h01 : ∀ x ∈ xs, x = 0 ∨ x = 1) : decodeParity xs = xorBits (xs.take 8) := by
  match xs, hlen with
  | a0 :: a1 :: a2 :: a3 :: a4 :: a5 :: a6 :: a7 :: rest, _ =>
    have hd := decode_bits a0 a1 a2 a3 a4 a5 a6 a7 (h01 _ (by simp))
      (h01 _ (by simp)) (h01 _ (by simp)) (h01 _ (by simp)) (h01 _ (by simp)) (h01 _ (by simp))
      (h01 _ (by simp)) (h01 _ (by simp))
    have hc := decode_congr (a0 :: a1 :: a2 :: a3 :: a4 :: a5 :: a6 :: a7 :: rest)
      [a0, a1, a2, a3, a4, a5, a6, a7] (by
        intro i hi
        interval_cases i <;> rfl)
    rw [hc.2, hd.2.2]
    rfl

/-- The handling of a payload byte once the stream is opened. -/
theorem onByte_payload (s : Decoder) (byte parity : Int) (h255 : byte ≠ 255)
    (hopen : s.first_interframe_detected ≠ 0) :
    onByte s byte parity =
      { s with
        msg_buffer := store s.msg_buffer s.msg_buffer_n (checkedChar s byte parity)
        msg_buffer_n := s.msg_buffer_n + 1 } := by
  rw [onByte, if_neg h255, if_pos hopen]

/-- The handling of a delimiter once the stream is opened. -/
theorem onByte_delimiter (s : Decoder) (parity : Int) (hopen : s.first_interframe_detected ≠ 0) :
    onByte s 255 parity =
      { s with
        state := STATE_INTERFRAME
        msg_buffer := store s.msg_buffer s.msg_buffer_n 0
        printed := s.printed ++ [(s.msg_n, cString (store s.msg_buffer s.msg_buffer_n 0))]
        msg_n := s.msg_n + 1
        msg_buffer_n := 0 } := by
  rw [onByte, if_pos rfl, if_neg hopen]

/-- The handling of a byte before the stream is opened. -/
theorem onByte_unopened (s : Decoder) (byte parity : Int)
    (h : s.first_interframe_detected = 0) :
    (onByte s byte parity).printed = s.printed ∧ (onByte s byte parity).msg_buffer = s.msg_buffer ∧
      (onByte s byte parity).msg_buffer_n = s.msg_buffer_n ∧
      (onByte s byte parity).msg_n = s.msg_n := by
  unfold onByte
  split_ifs with h1 h2
  · exact ⟨rfl, rfl, rfl, rfl⟩
  · exact absurd h h2
  · exact ⟨rfl, rfl, rfl, rfl⟩

/-- The character stored for a payload byte, with the parity check enabled in the even
convention. -/
theorem checkedChar_even (s : Decoder) (byte parity : Int) (hp : s.parity_check = 1)
    (he : s.parity_check_even = 1) :
    checkedChar s byte parity =
      if parity ≠ cell s.bit_buffer 8 ∨ byte < 32 ∨ 126 < byte then 63 else byte := by
  dsimp only [checkedChar]
  rw [hp, he]
  by_cases h1 : parity ≠ cell s.bit_buffer 8
  · simp [h1]
  · simp only [h1, ne_eq, not_true_eq_false, false_or]
    simp

theorem idleBlock_gap : computeGap (computeAverages idleBlock 0) = 1 :=
  (computeGap_gapSamples 1 1 1 1 (Or.inr rfl) (Or.inr rfl) (Or.inr rfl) (Or.inr rfl)).1

/-- The gap that decodes a payload byte once the stream is opened, in a state where the
parity check is enabled in the even convention. -/
theorem subBitStep_payload (s : Decoder) (raw b : Int) (hp : s.parity_check = 1)
    (he : s.parity_check_even = 1) (hfits : s.msg_buffer_n ≤ s.msg_buffer.length)
    (hopen : s.first_interframe_detected ≠ 0) (hb : decodedByte s raw = some b)
    (h255 : b ≠ 255) :
    (subBitStep s raw).bit_buffer = filledBitBuffer s raw ∧
      b = decodeByte (filledBitBuffer s raw) ∧ 12 ≤ (filledBitBuffer s raw).length ∧
      (subBitStep s raw).msg_buffer_n = s.msg_buffer_n + 1 ∧
      pending (subBitStep s raw) =
        pending s ++
          [if decodeParity (filledBitBuffer s raw) ≠ cell (filledBitBuffer s raw) 8 ∨ b < 32 ∨
              126 < b then 63 else b] ∧
      (subBitStep s raw).msg_buffer =
        store s.msg_buffer s.msg_buffer_n
          (if decodeParity (filledBitBuffer s raw) ≠ cell (filledBitBuffer s raw) 8 ∨ b < 32 ∨
              126 < b then 63 else b) := by
  obtain ⟨n, o, hstep⟩ := subBitStep_decoded s raw b hb
  obtain ⟨bit, _, _, hn, hf, hbyte⟩ := decodedByte_some s raw b hb
  have hpay := onByte_payload { s with bit_buffer := filledBitBuffer s raw, bit_buffer_n := 0 } b
    (decodeParity (filledBitBuffer s raw)) h255 hopen
  have hchar := checkedChar_even { s with bit_buffer := filledBitBuffer s raw, bit_buffer_n := 0 } b
    (decodeParity (filledBitBuffer s raw)) hp he
  have hlen : 12 ≤ (filledBitBuffer s raw).length := by
    rw [hf, store_length]
    have : BIT_BUFFER_LENGTH = 12 := rfl
    omega
  rw [hstep, view_bit_buffer, view_msg_buffer_n, view_pending, view_msg_buffer, hpay]
  refine ⟨rfl, by rw [hbyte, hf], hlen, rfl, ?_, ?_⟩
  · show (store s.msg_buffer s.msg_buffer_n _).take (s.msg_buffer_n + 1) = _
    rw [take_store _ _ _ hfits, hchar]
    rfl
  · show store s.msg_buffer s.msg_buffer_n _ = _
    rw [hchar]

/-- Within the capacity of the message buffer, in every session (parity check enabled,
even convention): when the gap that follows a state decodes a byte `b` other than 255
after the stream has been opened, and the array still has its 100 cells (no earlier store
went past them) and fewer than 100 characters are held, so that the store of line 540 is
within the array, the character stored, in the cell `msg_buffer_n` of the array, is '?'
(63) if the XOR of the
data bits 0..7 differs from the parity bit received in slot 8 of the bit buffer or if `b`
is outside [32,126], and `b` itself otherwise; it is appended to the characters held, the
array keeps its 100 cells, and all the characters held are printable ASCII. -/
theorem parity_and_char_check (d : Int) (blocks : List (List Nat)) (buffer : List Nat) (k : Nat)
    (b : Int) (hopen : (reached d blocks buffer k).first_interframe_detected ≠ 0)
    (hb : decodedByte (reached d blocks buffer k) (computeGap (computeAverages buffer k)) = some b)
    (h255 : b ≠ 255)
    (hcap : (reached d blocks buffer k).msg_buffer.length = MAX_MESSAGE_LENGTH)
    (hroom : (reached d blocks buffer k).msg_buffer_n < MAX_MESSAGE_LENGTH) :
    (reached d blocks buffer k).parity_check = 1 ∧
      (reached d blocks buffer k).parity_check_even = 1 ∧
      b = decodeByte (reached d blocks buffer (k + 1)).bit_buffer ∧
      (reached d blocks buffer (k + 1)).msg_buffer_n =
        (reached d blocks buffer k).msg_buffer_n + 1 ∧
      pending (reached d blocks buffer (k + 1)) =
        pending (reached d blocks buffer k) ++
          [if xorBits ((reached d blocks buffer (k + 1)).bit_buffer.take 8) ≠
                cell (reached d blocks buffer (k + 1)).bit_buffer 8 ∨ b < 32 ∨ 126 < b
            then 63 else b] ∧
      (∀ c ∈ pending (reached d blocks buffer (k + 1)), 32 ≤ c ∧ c ≤ 126) ∧
      (reached d blocks buffer (k + 1)).msg_buffer.length = MAX_MESSAGE_LENGTH ∧
      (reached d blocks buffer (k + 1)).msg_buffer_n ≤ MAX_MESSAGE_LENGTH ∧
      cell (reached d blocks buffer (k + 1)).msg_buffer (reached d blocks buffer k).msg_buffer_n =
        (if xorBits ((reached d blocks buffer (k + 1)).bit_buffer.take 8) ≠
              cell (reached d blocks buffer (k + 1)).bit_buffer 8 ∨ b < 32 ∨ 126 < b
          then 63 else b) := by
  have hprint := (reached_MsgInv d blocks buffer (k + 1)).printable
  have hbits2 := (reached_BitsInv d blocks buffer (k + 1)).buffer_bits
  rw [reached_succ] at hprint hbits2 ⊢
  have hbits := reached_BitsInv d blocks buffer k
  have hmsg := reached_MsgInv d blocks buffer k
  generalize reached d blocks buffer k = s at hopen hb hbits hmsg hprint hbits2 hcap hroom ⊢
  generalize computeGap (computeAverages buffer k) = raw at hb hprint hbits2 ⊢
  obtain ⟨h1, h2, h3, h4, h5, h6⟩ := subBitStep_payload s raw b hbits.parity_on hbits.parity_even
    hmsg.fits hopen hb h255
  rw [h1] at hbits2 ⊢
  have hx := decodeParity_xor (filledBitBuffer s raw) (by omega) hbits2
  refine ⟨hbits.parity_on, hbits.parity_even, h2, h4, ?_, hprint, ?_, ?_, ?_⟩
  · rw [h5, hx]
  · rw [h6, store_length, hcap]
    omega
  · rw [h4]
    omega
  · rw [h6, cell_store _ _ _ hmsg.fits, hx]

/-- The state of the session on the first `n` gaps of the line of `hiPrefix`, in fixed
bitrate mode. -/
theorem session_hiPrefix (lead n : Nat)
    (hne : cutRuns n ((0, lead) :: signal hiBits 60) ≠ [])
    (h12 : ∀ r ∈ cutRuns n ((0, lead) :: signal hiBits 60), 12 ≤ r.2)
    (h01 : ∀ r ∈ cutRuns n ((0, lead) :: signal hiBits 60), r.1 = 0 ∨ r.1 = 1)
    (hlen : ((cutRuns n ((0, lead) :: signal hiBits 60)).map Prod.snd).sum % 4 = 0) :
    reached 0 (hiPrefix lead n) idleBlock 0 =
      setReg
        (withTiming
          ((detectBits 27 13 0 1 (delay 0 (cutRuns n ((0, lead) :: signal hiBits 60))).tail).1.foldl
            onBit (detectStep (init 0) 0))
          (detectBits 27 13 0 1 (delay 0 (cutRuns n ((0, lead) :: signal hiBits 60))).tail).2.2
          (detectBits 27 13 0 1 (delay 0 (cutRuns n ((0, lead) :: signal hiBits 60))).tail).2.1)
        (List.replicate 12 (lastValue 0 (cutRuns n ((0, lead) :: signal hiBits 60)))) := by
  rw [reached_zero, hiPrefix]
  exact session_signal _ hne h12 h01 hlen

set_option maxRecDepth 1000000 in
/-- At the gap that decodes the byte 'H' (72) of the line of `hiPrefix`: the stream is
opened, the byte is decoded, the store is within the array, and one character is
appended. -/
theorem parity_and_char_check_witness :
    (reached 0 (hiPrefix 14 688) idleBlock 0).first_interframe_detected ≠ 0 ∧
      decodedByte (reached 0 (hiPrefix 14 688) idleBlock 0)
        (computeGap (computeAverages idleBlock 0)) = some 72 ∧
      (reached 0 (hiPrefix 14 688) idleBlock 0).msg_buffer.length = MAX_MESSAGE_LENGTH ∧
      (reached 0 (hiPrefix 14 688) idleBlock 0).msg_buffer_n < MAX_MESSAGE_LENGTH ∧
      (reached 0 (hiPrefix 14 688) idleBlock (0 + 1)).msg_buffer_n =
        (reached 0 (hiPrefix 14 688) idleBlock 0).msg_buffer_n + 1 := by
  have hS := session_hiPrefix 14 688 (by decide!) (by decide!) (by decide!) (by decide!)
  have h1 : (reached 0 (hiPrefix 14 688) idleBlock 0).first_interframe_detected ≠ 0 := by
    rw [hS, view_first]; decide!
  have h2 : decodedByte (reached 0 (hiPrefix 14 688) idleBlock 0)
      (computeGap (computeAverages idleBlock 0)) = some 72 := by
    rw [hS, idleBlock_gap]; decide!
  have h3 : (reached 0 (hiPrefix 14 688) idleBlock 0).msg_buffer.length = MAX_MESSAGE_LENGTH := by
    rw [hS, view_msg_buffer]; decide!
  have h4 : (reached 0 (hiPrefix 14 688) idleBlock 0).msg_buffer_n < MAX_MESSAGE_LENGTH := by
    rw [hS, view_msg_buffer_n]; decide!
  exact ⟨h1, h2, h3, h4,
    (parity_and_char_check 0 (hiPrefix 14 688) idleBlock 0 72 h1 h2 (by decide) h3 h4).2.2.2.1⟩

/-- The effect of one gap on the messages printed and on the characters held, in a state
that satisfies the invariant of the message variables. -/
theorem subBitStep_messages (s : Decoder) (raw : Int) (h : MsgInv s) :
    (decodedByte s raw = some 255 ∧ s.first_interframe_detected ≠ 0 →
        (subBitStep s raw).printed = s.printed ++ [((s.printed.length : Int) + 1, pending s)] ∧
          pending (subBitStep s raw) = [] ∧ (subBitStep s raw).msg_buffer_n = 0 ∧
          (subBitStep s raw).state = STATE_INTERFRAME) ∧
      (¬ (decodedByte s raw = some 255 ∧ s.first_interframe_detected ≠ 0) →
        (subBitStep s raw).printed = s.printed) ∧
      (∀ b, decodedByte s raw = some b → b ≠ 255 → s.first_interframe_detected ≠ 0 →
        ∃ c, pending (subBitStep s raw) = pending s ++ [c]) ∧
      (decodedByte s raw = none ∨ s.first_interframe_detected = 0 →
        pending (subBitStep s raw) = pending s) := by
  refine ⟨?_, ?_, ?_, ?_⟩
  · rintro ⟨hb, hopen⟩
    obtain ⟨n, o, hstep⟩ := subBitStep_decoded s raw 255 hb
    rw [hstep, view_printed, view_pending, view_msg_buffer_n, view_state,
      onByte_delimiter { s with bit_buffer := filledBitBuffer s raw, bit_buffer_n := 0 } _ hopen]
    refine ⟨?_, rfl, rfl, rfl⟩
    show s.printed ++ [(s.msg_n, cString (store s.msg_buffer s.msg_buffer_n 0))] = _
    rw [cString_pending s h, h.next]
  · intro hnot
    cases hb : decodedByte s raw with
    | none => exact (subBitStep_not_decoded s raw hb).1
    | some b =>
      obtain ⟨n, o, hstep⟩ := subBitStep_decoded s raw b hb
      rw [hstep, view_printed]
      by_cases hopen : s.first_interframe_detected = 0
      · exact (onByte_unopened { s with bit_buffer := filledBitBuffer s raw, bit_buffer_n := 0 }
          b _ hopen).1
      · have h255 : b ≠ 255 := by
          intro hb255
          rw [hb255] at hb
          exact hnot ⟨hb, hopen⟩
        rw [onByte_payload { s with bit_buffer := filledBitBuffer s raw, bit_buffer_n := 0 } b _
          h255 hopen]
  · intro b hb h255 hopen
    obtain ⟨n, o, hstep⟩ := subBitStep_decoded s raw b hb
    rw [hstep, view_pending,
      onByte_payload { s with bit_buffer := filledBitBuffer s raw, bit_buffer_n := 0 } b _ h255
        hopen]
    refine ⟨checkedChar { s with bit_buffer := filledBitBuffer s raw, bit_buffer_n := 0 } b
      (decodeParity (filledBitBuffer s raw)), ?_⟩
    show (store s.msg_buffer s.msg_buffer_n _).take (s.msg_buffer_n + 1) = _
    rw [take_store _ _ _ h.fits]
    rfl
  · intro hcase
    cases hb : decodedByte s raw with
    | none =>
      obtain ⟨_, h2, h3, _, _⟩ := subBitStep_not_decoded s raw hb
      unfold pending
      rw [h2, h3]
    | some b =>
      have hopen : s.first_interframe_detected = 0 := by
        rcases hcase with hc | hc
        · rw [hb] at hc; exact absurd hc (by simp)
        · exact hc
      obtain ⟨n, o, hstep⟩ := subBitStep_decoded s raw b hb
      obtain ⟨_, h2, h3, _⟩ := onByte_unopened
        { s with bit_buffer := filledBitBuffer s raw, bit_buffer_n := 0 } b
        (decodeParity (filledBitBuffer s raw)) hopen
      rw [hstep, view_pending]
      unfold pending
      rw [h2, h3]

/-- Within the capacity of the message buffer, that is, in a state of a session where the
array still has its 100 cells (no earlier store went past them) and fewer than 100
characters are held, so that the stores of lines 495 and 540 are within the array: the
messages printed so far carry the sequence numbers 1, 2, 3, ... in order; the gap that
decodes a byte 0xFF after the first one prints exactly one more message, whose number is
the count of messages printed plus one and whose text is the characters held in the
message buffer, and leaves the message buffer empty and the state Interframe; every other
gap prints nothing; the characters held change only by the character that a payload byte
appends at their end (they are untouched by a gap that decodes no byte and before the
stream is opened); the array keeps its 100 cells. -/
theorem delimiter_emits_message (d : Int) (blocks : List (List Nat)) (buffer : List Nat)
    (k : Nat) (hcap : (reached d blocks buffer k).msg_buffer.length = MAX_MESSAGE_LENGTH)
    (hroom : (reached d blocks buffer k).msg_buffer_n < MAX_MESSAGE_LENGTH) :
    (reached d blocks buffer k).printed.map Prod.fst =
        (List.range (reached d blocks buffer k).printed.length).map (fun (i : Nat) => (i : Int) + 1) ∧
      (decodedByte (reached d blocks buffer k) (computeGap (computeAverages buffer k)) = some 255 ∧
          (reached d blocks buffer k).first_interframe_detected ≠ 0 →
        (reached d blocks buffer (k + 1)).printed =
            (reached d blocks buffer k).printed ++
              [(((reached d blocks buffer k).printed.length : Int) + 1,
                pending (reached d blocks buffer k))] ∧
          pending (reached d blocks buffer (k + 1)) = [] ∧
          (reached d blocks buffer (k + 1)).msg_buffer_n = 0 ∧
          (reached d blocks buffer (k + 1)).state = STATE_INTERFRAME) ∧
      (¬ (decodedByte (reached d blocks buffer k) (computeGap (computeAverages buffer k)) =
              some 255 ∧ (reached d blocks buffer k).first_interframe_detected ≠ 0) →
        (reached d blocks buffer (k + 1)).printed = (reached d blocks buffer k).printed) ∧
      (∀ b, decodedByte (reached d blocks buffer k) (computeGap (computeAverages buffer k)) =
            some b → b ≠ 255 → (reached d blocks buffer k).first_interframe_detected ≠ 0 →
        ∃ c, pending (reached d blocks buffer (k + 1)) =
          pending (reached d blocks buffer k) ++ [c]) ∧
      (decodedByte (reached d blocks buffer k) (computeGap (computeAverages buffer k)) = none ∨
          (reached d blocks buffer k).first_interframe_detected = 0 →
        pending (reached d blocks buffer (k + 1)) = pending (reached d blocks buffer k)) ∧
      (reached d blocks buffer (k + 1)).msg_buffer.length = MAX_MESSAGE_LENGTH := by
  have hmsg := reached_MsgInv d blocks buffer k
  rw [reached_succ]
  refine ⟨hmsg.numbered, (subBitStep_messages _ _ hmsg).1, (subBitStep_messages _ _ hmsg).2.1,
    (subBitStep_messages _ _ hmsg).2.2.1, (subBitStep_messages _ _ hmsg).2.2.2, ?_⟩
  generalize reached d blocks buffer k = s at hcap hroom hmsg ⊢
  generalize computeGap (computeAverages buffer k) = raw
  cases hb : decodedByte s raw with
  | none => rw [(subBitStep_not_decoded s raw hb).2.1]; exact hcap
  | some b =>
    obtain ⟨n, o, hstep⟩ := subBitStep_decoded s raw b hb
    rw [hstep, view_msg_buffer, onByte]
    have hlen : ∀ v : Int, (store s.msg_buffer s.msg_buffer_n v).length = MAX_MESSAGE_LENGTH := by
      intro v
      rw [store_length, hcap]
      omega
    split_ifs
    · exact hcap
    · exact hlen 0
    · exact hlen _
    · exact hcap

set_option maxRecDepth 1000000 in
/-- At the gap that decodes the second byte 0xFF of the line of `hiPrefix`: the message
number 1 with the text "HI" is printed. -/
theorem delimiter_emits_message_witness :
    (decodedByte (reached 0 (hiPrefix 14 1336) idleBlock 0)
          (computeGap (computeAverages idleBlock 0)) = some 255 ∧
        (reached 0 (hiPrefix 14 1336) idleBlock 0).first_interframe_detected ≠ 0) ∧
      (reached 0 (hiPrefix 14 1336) idleBlock 0).printed = [] ∧
      pending (reached 0 (hiPrefix 14 1336) idleBlock 0) = [72, 73] ∧
      (reached 0 (hiPrefix 14 1336) idleBlock (0 + 1)).printed = [(1, [72, 73])] := by
  have hS := session_hiPrefix 14 1336 (by decide!) (by decide!) (by decide!) (by decide!)
  have h1 : decodedByte (reached 0 (hiPrefix 14 1336) idleBlock 0)
        (computeGap (computeAverages idleBlock 0)) = some 255 ∧
      (reached 0 (hiPrefix 14 1336) idleBlock 0).first_interframe_detected ≠ 0 := by
    rw [hS, idleBlock_gap]; decide!
  have h2 : (reached 0 (hiPrefix 14 1336) idleBlock 0).printed = [] := by
    rw [hS, view_printed]; decide!
  have h3 : pending (reached 0 (hiPrefix 14 1336) idleBlock 0) = [72, 73] := by
    rw [hS, view_pending]; decide!
  have h5 : (reached 0 (hiPrefix 14 1336) idleBlock 0).msg_buffer.length = MAX_MESSAGE_LENGTH := by
    rw [hS, view_msg_buffer]; decide!
  have h6 : (reached 0 (hiPrefix 14 1336) idleBlock 0).msg_buffer_n < MAX_MESSAGE_LENGTH := by
    rw [hS, view_msg_buffer_n]; decide!
  have h4 := ((delimiter_emits_message 0 (hiPrefix 14 1336) idleBlock 0 h5 h6).2.1 h1).1
  rw [h2, h3] at h4
  exact ⟨h1, h2, h3, h4⟩

/-- C6: in the state Interframe, the gap that detects a bit leaves the state Interframe
when the bit is 1 (or any value other than 0) and sets the state Frame when the bit is
0; in both cases the bit is not added to the bit buffer, and the message buffer, the
sequence number, the messages printed and the flag of the opened stream are unchanged. -/
theorem interframe_bit (s : Decoder) (raw bit : Int) (hs : s.state = STATE_INTERFRAME)
    (hb : detectedBit s raw = some bit) :
    (bit = 1 → (subBitStep s raw).state = STATE_INTERFRAME) ∧
      (bit = 0 → (subBitStep s raw).state = STATE_FRAME) ∧
      (subBitStep s raw).state = (if bit = 0 then STATE_FRAME else STATE_INTERFRAME) ∧
      (subBitStep s raw).bit_buffer = s.bit_buffer ∧
      (subBitStep s raw).bit_buffer_n = s.bit_buffer_n ∧
      (subBitStep s raw).msg_buffer = s.msg_buffer ∧
      (subBitStep s raw).msg_buffer_n = s.msg_buffer_n ∧
      (subBitStep s raw).msg_n = s.msg_n ∧
      (subBitStep s raw).printed = s.printed ∧
      (subBitStep s raw).first_interframe_detected = s.first_interframe_detected := by
  have hne : s.state ≠ STATE_BITRATE := by rw [hs]; decide
  have hon : onBit s bit = if bit = 0 then { s with state := STATE_FRAME } else s := by
    rw [onBit, if_pos hs]
  rw [subBitStep_frame s raw hne, hb, handled, view_state, view_bit_buffer, view_bit_buffer_n,
    view_msg_buffer, view_msg_buffer_n, view_msg_n, view_printed, view_first, hon]
  by_cases h0 : bit = 0
  · rw [if_pos h0, if_pos h0]
    refine ⟨fun h1 => ?_, fun _ => rfl, rfl, rfl, rfl, rfl, rfl, rfl, rfl, rfl⟩
    rw [h0] at h1
    exact absurd h1 (by decide)
  · rw [if_neg h0, if_neg h0]
    exact ⟨fun _ => hs, fun h => absurd h h0, hs, rfl, rfl, rfl, rfl, rfl, rfl, rfl⟩

set_option maxRecDepth 1000000 in
/-- C6, at a gap of the line of `hiPrefix` that idles at 1 after the second byte 0xFF. -/
theorem interframe_bit_witness :
    (reached 0 (hiPrefix 14 1364) idleBlock 0).state = STATE_INTERFRAME ∧
      detectedBit (reached 0 (hiPrefix 14 1364) idleBlock 0) 1 = some 1 ∧
      (subBitStep (reached 0 (hiPrefix 14 1364) idleBlock 0) 1).state = STATE_INTERFRAME := by
  have hS := session_hiPrefix 14 1364 (by decide!) (by decide!) (by decide!) (by decide!)
  have h1 : (reached 0 (hiPrefix 14 1364) idleBlock 0).state = STATE_INTERFRAME := by
    rw [hS, view_state]; decide!
  have h2 : detectedBit (reached 0 (hiPrefix 14 1364) idleBlock 0) 1 = some 1 := by
    rw [hS]; decide!
  exact ⟨h1, h2, (interframe_bit _ 1 1 h1 h2).1 rfl⟩

set_option maxRecDepth 1000000 in
/-- C1 fails on the code: the session on the blocks of the byte 0xFF followed by 101
bytes 'A' (well-formed blocks of 512 samples, default options) ends with 101 characters
counted in the message buffer, more than `MAX_MESSAGE_LENGTH` = 100, the last one stored
past the 100 cells of the array; no byte is dropped. -/
theorem message_buffer_overflow :
    (∀ buffer ∈ overflowBlocks, buffer.length = out_block_size ∧ ∀ x ∈ buffer, x < 256) ∧
      (session BITRATE_DETECT overflowBlocks).msg_buffer_n = 101 ∧
      MAX_MESSAGE_LENGTH < (session BITRATE_DETECT overflowBlocks).msg_buffer_n ∧
      (session BITRATE_DETECT overflowBlocks).msg_buffer = List.replicate 101 65 ∧
      MAX_MESSAGE_LENGTH < (session BITRATE_DETECT overflowBlocks).msg_buffer.length ∧
      (session BITRATE_DETECT overflowBlocks).printed = [] := by
  have h := session_signal (signal (payloadBits 101) 13) (by decide!) (by decide!) (by decide!)
    (by decide!)
  refine ⟨blocksOf_wf _, ?_⟩
  simp only [BITRATE_DETECT, overflowBlocks]
  rw [h, view_msg_buffer_n, view_msg_buffer, view_printed]
  decide!

set_option maxRecDepth 1000000 in
/-- C7: the blocks `hiBlocks` (334 well-formed blocks of 512 samples) carry the bytes
0xFF, 'H', 'I', 0xFF at 27 gaps per bit, with even parity bits; the decoder started from
its initial state with the bitrate auto-detection disabled prints exactly one message on
them, with the sequence number 1 and the text "HI". -/
theorem hi_end_to_end :
    (∀ buffer ∈ hiBlocks, buffer.length = out_block_size ∧ ∀ x ∈ buffer, x < 256) ∧
      hiBlocks.length = 334 ∧
      hiBits = frameBits 255 ++ [0] ++ frameBits 72 ++ frameBits 73 ++ frameBits 255 ∧
      hiBlocks = blocksOf (hiBits.flatMap (fun b => List.replicate 27 b) ++ List.replicate 13 1) ∧
      "HI".toList.map (fun c => (c.toNat : Int)) = [72, 73] ∧
      (session BITRATE_DETECT hiBlocks).printed = [(1, [72, 73])] := by
  have h := session_signal (signal hiBits 13) (by decide!) (by decide!) (by decide!) (by decide!)
  refine ⟨blocksOf_wf _, by decide!, rfl, ?_, by decide, ?_⟩
  · have : expand (signal hiBits 13) =
        hiBits.flatMap (fun b => List.replicate 27 b) ++ List.replicate 13 1 := by decide!
    rw [hiBlocks, this]
  · simp only [BITRATE_DETECT, hiBlocks]
    rw [h, view_printed]
    decide!

theorem bounceDetected_eq (a0 a1 a2 a3 a4 a5 a6 a7 a8 a9 a10 a11 x : Int) :
    bounceDetected [a0,a1,a2,a3,a4,a5,a6,a7,a8,a9,a10,a11] x =
      decide (x = a10 ∧ ∃ a ∈ [a0,a1,a2,a3,a4,a5,a6,a7,a8,a9,a10], a = 1 - x) := by
  have h : DEBOUNCING_FILTER_BUFFER_LENGTH - 1 = 11 := rfl
  simp only [bounceDetected, shiftIn_eq, h, cell_cons_zero, cell_cons_succ, countInverted_pos,
    Bool.decide_and]

/-- A cycle without a detected bounce only shifts the register. -/
theorem debounce_of_not_bounce (reg : List Int) (x : Int) (h : bounceDetected reg x = false) :
    debounce reg x = shiftIn reg x := by
  unfold bounceDetected at h
  simp only [Bool.and_eq_false_iff, decide_eq_false_iff_not] at h
  simp only [debounce]
  rcases h with h | h
  · rw [if_neg h]
  · rw [if_neg h]
    simp

theorem twoRuns_cases (v : Int) :
    twoRuns 1 v = [v, 1-v, 1-v, 1-v, 1-v, 1-v, 1-v, 1-v, 1-v, 1-v, 1-v, 1-v] ∧
    twoRuns 2 v = [v, v, 1-v, 1-v, 1-v, 1-v, 1-v, 1-v, 1-v, 1-v, 1-v, 1-v] ∧
    twoRuns 3 v = [v, v, v, 1-v, 1-v, 1-v, 1-v, 1-v, 1-v, 1-v, 1-v, 1-v] ∧
    twoRuns 4 v = [v, v, v, v, 1-v, 1-v, 1-v, 1-v, 1-v, 1-v, 1-v, 1-v] ∧
    twoRuns 5 v = [v, v, v, v, v, 1-v, 1-v, 1-v, 1-v, 1-v, 1-v, 1-v] ∧
    twoRuns 6 v = [v, v, v, v, v, v, 1-v, 1-v, 1-v, 1-v, 1-v, 1-v] ∧
    twoRuns 7 v = [v, v, v, v, v, v, v, 1-v, 1-v, 1-v, 1-v, 1-v] ∧
    twoRuns 8 v = [v, v, v, v, v, v, v, v, 1-v, 1-v, 1-v, 1-v] ∧
    twoRuns 9 v = [v, v, v, v, v, v, v, v, v, 1-v, 1-v, 1-v] ∧
    twoRuns 10 v = [v, v, v, v, v, v, v, v, v, v, 1-v, 1-v] ∧
    twoRuns 11 v = [v, v, v, v, v, v, v, v, v, v, v, 1-v] ∧
    twoRuns 12 v = [v, v, v, v, v, v, v, v, v, v, v, v] :=
  ⟨rfl, rfl, rfl, rfl, rfl, rfl, rfl, rfl, rfl, rfl, rfl, rfl⟩

theorem twoRuns_twelve (v : Int) : twoRuns 12 v = List.replicate 12 v := rfl

/-- The oldest slot of a register of two runs. -/
theorem effective_twoRuns (a : Nat) (v : Int) (h1 : 1 ≤ a) (h2 : a ≤ 12) :
    effective (twoRuns a v) = if a = 12 then v else 1 - v := by
  interval_cases a <;> rfl

/-- A register of two runs fed with the value of its newest run. -/
theorem debounce_twoRuns_same (a : Nat) (v : Int) (h1 : 1 ≤ a) (h2 : a ≤ 12) :
    debounce (twoRuns a v) v = twoRuns (min (a + 1) 12) v ∧
      bounceDetected (twoRuns a v) v = false := by
  obtain ⟨t1, t2, t3, t4, t5, t6, t7, t8, t9, t10, t11, t12⟩ := twoRuns_cases v
  have hne : ¬ (v = 1 - v) := by omega
  interval_cases a <;>
    simp [t1, t2, t3, t4, t5, t6, t7, t8, t9, t10, t11, t12, debounce_eq, bounceDetected_eq, hne]

/-- A register of two runs fed with the inverse of the value of its newest run: the
newest run is erased when it has at most 10 slots, and it moves on when it has 11. -/
theorem debounce_twoRuns_other (a : Nat) (v : Int) (h1 : 1 ≤ a) (h2 : a ≤ 12) :
    debounce (twoRuns a v) (1 - v) = (if a ≤ 10 then twoRuns 12 (1 - v) else twoRuns 1 (1 - v)) ∧
      bounceDetected (twoRuns a v) (1 - v) = decide (a ≤ 10) := by
  obtain ⟨t1, t2, t3, t4, t5, t6, t7, t8, t9, t10, t11, t12⟩ := twoRuns_cases v
  obtain ⟨u1, -, -, -, -, -, -, -, -, -, -, u12⟩ := twoRuns_cases (1 - v)
  have hne : ¬ (v = 1 - v) := by omega
  have hne2 : ¬ (1 - v = v) := by omega
  have hvv : 1 - (1 - v) = v := by ring
  interval_cases a <;>
    simp [t1, t2, t3, t4, t5, t6, t7, t8, t9, t10, t11, t12, u1, u12, debounce_eq,
      bounceDetected_eq, hne, hne2, hvv, List.replicate]

/-! ## The changes of the debounced sub-bit are at least 11 cycles apart -/

theorem bit_cases (v x : Int) (hv : v = 0 ∨ v = 1) (hx : x = 0 ∨ x = 1) : x = v ∨ x = 1 - v := by
  rcases hv with rfl | rfl <;> rcases hx with rfl | rfl <;> simp

theorem inverse_bit (v : Int) (hv : v = 0 ∨ v = 1) : 1 - v = 0 ∨ 1 - v = 1 := by
  rcases hv with rfl | rfl <;> simp

/-- From a register of two runs whose newest run, when shorter than 12, is not longer
than the time elapsed since the last change of the effective sub-bit, all the later
intervals between changes are at least 11 cycles long. -/
theorem gaps_twoRuns (raws : List Int) (hraws : ∀ x ∈ raws, x = 0 ∨ x = 1) :
    ∀ (a : Nat) (v : Int) (i t0 : Nat), 1 ≤ a → a ≤ 12 → (v = 0 ∨ v = 1) → t0 ≤ i →
      (a ≤ 11 → a ≤ i - t0) →
      ∀ g ∈ gapsBetween t0
        (changeTimes (effective (twoRuns a v)) i (effectives (twoRuns a v) raws)), 11 ≤ g := by
  induction raws with
  | nil => intro a v i t0 _ _ _ _ _ g hg; simp [effectives, changeTimes, gapsBetween] at hg
  | cons x xs ih =>
    intro a v i t0 h1 h2 hv ht ha g hg
    have hxs : ∀ y ∈ xs, y = 0 ∨ y = 1 := fun y hy => hraws y (List.mem_cons_of_mem _ hy)
    have hv2 := inverse_bit v hv
    have hvv : 1 - (1 - v) = v := by ring
    have hne : ¬ (v = 1 - v) := by omega
    have hne2 : ¬ (1 - v = v) := by omega
    have e12 : ∀ w : Int, effective (twoRuns 12 w) = w := fun w => rfl
    have e1 : ∀ w : Int, effective (twoRuns 1 w) = 1 - w := fun w => rfl
    rw [effectives] at hg
    rcases bit_cases v x hv (hraws x (List.mem_cons_self _ _)) with rfl | rfl
    · -- the input continues the newest run
      rw [(debounce_twoRuns_same a x h1 h2).1] at hg
      by_cases h12 : a = 12
      · subst h12
        simp only [Nat.min_self, Nat.reduceAdd, Nat.reduceLeDiff, min_eq_right] at hg
        rw [changeTimes, if_neg (by simp)] at hg
        exact ih hxs 12 x (i + 1) t0 (by omega) (by omega) hv (by omega) (by omega) g hg
      · by_cases h11 : a = 11
        · subst h11
          simp only [Nat.reduceAdd, Nat.min_self] at hg
          rw [effective_twoRuns 11 x (by omega) (by omega), if_neg (by omega), e12, changeTimes,
            if_pos hne, gapsBetween, List.mem_cons] at hg
          rcases hg with hg | hg
          · have := ha (by omega); omega
          · have := ih hxs 12 x (i + 1) i (by omega) (by omega) hv (by omega) (by omega) g
            rw [e12] at this
            exact this hg
        · have ha10 : a ≤ 10 := by omega
          rw [Nat.min_eq_left (by omega), effective_twoRuns a x h1 h2, if_neg h12,
            effective_twoRuns (a + 1) x (by omega) (by omega), if_neg (by omega), changeTimes,
            if_neg (by simp)] at hg
          have := ih hxs (a + 1) x (i + 1) t0 (by omega) (by omega) hv (by omega)
            (fun _ => by have := ha (by omega); omega) g
          rw [effective_twoRuns (a + 1) x (by omega) (by omega), if_neg (by omega)] at this
          exact this hg
    · -- the input is the inverse of the newest run
      rw [(debounce_twoRuns_other a v h1 h2).1] at hg
      by_cases h10 : a ≤ 10
      · rw [if_pos h10, e12, effective_twoRuns a v h1 h2, if_neg (by omega), changeTimes,
          if_neg (by simp)] at hg
        have := ih hxs 12 (1 - v) (i + 1) t0 (by omega) (by omega) hv2 (by omega) (by omega) g
        rw [e12] at this
        exact this hg
      · rw [if_neg h10, e1, hvv] at hg
        by_cases h12 : a = 12
        · subst h12
          rw [e12, changeTimes, if_neg (by simp)] at hg
          have := ih hxs 1 (1 - v) (i + 1) t0 (by omega) (by omega) hv2 (by omega) (by omega) g
          rw [e1, hvv] at this
          exact this hg
        · have h11 : a = 11 := by omega
          subst h11
          rw [effective_twoRuns 11 v (by omega) (by omega), if_neg (by omega), changeTimes,
            if_pos hne, gapsBetween, List.mem_cons] at hg
          rcases hg with hg | hg
          · have := ha (by omega); omega
          · have := ih hxs 1 (1 - v) (i + 1) i (by omega) (by omega) hv2 (by omega) (by omega) g
            rw [e1, hvv] at this
            exact this hg

theorem changeTimes_ge (es : List Int) (o : Int) (i : Nat) : ∀ t ∈ changeTimes o i es, i ≤ t := by
  induction es generalizing o i with
  | nil => intro t ht; simp [changeTimes] at ht
  | cons e es ih =>
    intro t ht
    rw [changeTimes] at ht
    split at ht
    · rcases List.mem_cons.mp ht with h | h
      · omega
      · have := ih e (i + 1) t h; omega
    · have := ih o (i + 1) t ht; omega

theorem changeTimes_lt (es : List Int) (o : Int) (i : Nat) :
    ∀ t ∈ changeTimes o i es, t < i + es.length := by
  induction es generalizing o i with
  | nil => intro t ht; simp [changeTimes] at ht
  | cons e es ih =>
    intro t ht
    rw [changeTimes] at ht
    rw [List.length_cons]
    split at ht
    · rcases List.mem_cons.mp ht with h | h
      · omega
      · have := ih e (i + 1) t h; omega
    · have := ih o (i + 1) t ht; omega

/-! ## The latency of the debounce filter -/

theorem bounceFree_append (xs ys reg : List Int) :
    bounceFree reg (xs ++ ys) = (bounceFree reg xs && bounceFree (xs.foldl debounce reg) ys) := by
  induction xs generalizing reg with
  | nil => simp [bounceFree]
  | cons x xs ih => rw [List.cons_append, bounceFree, bounceFree, List.foldl_cons, ih, Bool.and_assoc]

/-- As long as no bounce is detected, the filter is a delay line: its outputs are the
slots 10, 9, ..., 0 of the register, then the raw sub-bits in the order they were fed. -/
theorem effectives_of_bounceFree (raws : List Int) :
    ∀ reg : List Int, reg.length = 12 → bounceFree reg raws = true →
      effectives reg raws = ((reg.take 11).reverse ++ raws).take raws.length := by
  induction raws with
  | nil => intro reg _ _; simp [effectives]
  | cons x xs ih =>
    intro reg hlen hfree
    obtain ⟨a0, a1, a2, a3, a4, a5, a6, a7, a8, a9, a10, a11, rfl⟩ := length_eq_twelve hlen
    rw [bounceFree, Bool.and_eq_true, Bool.not_eq_true'] at hfree
    have hd := debounce_of_not_bounce _ _ hfree.1
    rw [shiftIn_eq] at hd
    rw [effectives, hd, ih _ (by simp) (by rw [← hd]; exact hfree.2)]
    simp [effective, DEBOUNCING_FILTER_BUFFER_LENGTH, DEBOUNCING_FILTER, cell]

/-- A register of two runs fed with `n` more values of its newest run: no bounce is
detected, and the newest run grows by `n`, up to the 12 slots. -/
theorem bounceFree_same (n : Nat) (v : Int) :
    ∀ a : Nat, 1 ≤ a → a ≤ 12 →
      bounceFree (twoRuns a v) (List.replicate n v) = true ∧
        (List.replicate n v).foldl debounce (twoRuns a v) = twoRuns (min (a + n) 12) v := by
  induction n with
  | zero => intro a h1 h2; simp [bounceFree, Nat.min_eq_left h2]
  | succ n ih =>
    intro a h1 h2
    obtain ⟨hd, hb⟩ := debounce_twoRuns_same a v h1 h2
    obtain ⟨i1, i2⟩ := ih (min (a + 1) 12) (by omega) (by omega)
    have hmin : min (min (a + 1) 12 + n) 12 = min (a + (n + 1)) 12 := by omega
    rw [List.replicate_succ, bounceFree, List.foldl_cons, hd, hb, i1, i2, hmin]
    exact ⟨rfl, rfl⟩

/-- A pulse of `k + 1` values `1 - v`, with `k + 1 >= 11`, fed to the register uniformly
`v` and followed by `m + 1` values `v`: no bounce is detected. -/
theorem bounceFree_pulse (v : Int) (k m : Nat) (hk : 10 ≤ k) :
    bounceFree (twoRuns 12 v)
      (List.replicate (k + 1) (1 - v) ++ List.replicate (m + 1) v) = true := by
  have hvv : 1 - (1 - v) = v := by ring
  obtain ⟨d1, b1⟩ := debounce_twoRuns_other 12 v (by omega) (by omega)
  rw [if_neg (by omega)] at d1
  obtain ⟨f1, r1⟩ := bounceFree_same k (1 - v) 1 (by omega) (by omega)
  have ha : 11 ≤ min (1 + k) 12 ∧ min (1 + k) 12 ≤ 12 := by omega
  generalize min (1 + k) 12 = a at r1 ha
  obtain ⟨d2, b2⟩ := debounce_twoRuns_other a (1 - v) (by omega) (by omega)
  rw [hvv, if_neg (by omega)] at d2
  rw [hvv] at b2
  obtain ⟨f2, -⟩ := bounceFree_same m v 1 (by omega) (by omega)
  rw [bounceFree_append, List.replicate_succ, bounceFree, List.foldl_cons, d1, b1, f1, r1,
    List.replicate_succ, bounceFree, d2, b2, f2]
  simp
  omega

/-- C11: for every value v (0 and 1 included), every k >= 11 and every m >= 12, from the
debounce register uniformly v, fed with k raw sub-bits 1 - v and then m raw sub-bits v:
no cycle detects a bounce, so the correction of lines 397-399 overwrites no slot, and the
effective sub-bits are the eleven v still held in the register, one run of exactly k
values 1 - v, and m - 11 values v. -/
theorem long_pulse_passes (v : Int) (k m : Nat) (hk : 11 ≤ k) (hm : 12 ≤ m) :
    bounceFree (List.replicate DEBOUNCING_FILTER_BUFFER_LENGTH v)
        (List.replicate k (1 - v) ++ List.replicate m v) = true ∧
      effectives (List.replicate DEBOUNCING_FILTER_BUFFER_LENGTH v)
          (List.replicate k (1 - v) ++ List.replicate m v) =
        List.replicate 11 v ++ List.replicate k (1 - v) ++ List.replicate (m - 11) v := by
  obtain ⟨k, rfl⟩ : ∃ j, k = j + 1 := ⟨k - 1, by omega⟩
  obtain ⟨m, rfl⟩ : ∃ j, m = j + 1 := ⟨m - 1, by omega⟩
  have hfree := bounceFree_pulse v k m (by omega)
  have hreg : List.replicate DEBOUNCING_FILTER_BUFFER_LENGTH v = twoRuns 12 v := rfl
  rw [hreg]
  refine ⟨hfree, ?_⟩
  rw [effectives_of_bounceFree _ _ (by simp [twoRuns_twelve]) hfree, twoRuns_twelve]
  have h1 : (List.replicate 12 v).take 11 = List.replicate 11 v := rfl
  have h2 : List.replicate (m + 1) v =
      List.replicate (m + 1 - 11) v ++ List.replicate 11 v := by
    have hsum : m + 1 - 11 + 11 = m + 1 := by omega
    rw [List.append_replicate_replicate, hsum]
  rw [h1, List.reverse_replicate]
  conv_lhs => rw [h2]
  rw [← List.append_assoc, ← List.append_assoc, List.take_append_eq_append_take]
  simp only [List.length_append, List.length_replicate]
  rw [List.take_of_length_le (by simp)]
  simp
  omega

/-- C11 for a pulse of 11 ones followed by 12 zeros. -/
theorem long_pulse_passes_witness :
    (11 ≤ 11 ∧ 12 ≤ 12) ∧
      bounceFree (List.replicate DEBOUNCING_FILTER_BUFFER_LENGTH 0)
          (List.replicate 11 (1 - 0) ++ List.replicate 12 0) = true ∧
        effectives (List.replicate DEBOUNCING_FILTER_BUFFER_LENGTH 0)
            (List.replicate 11 (1 - 0) ++ List.replicate 12 0) =
          List.replicate 11 0 ++ List.replicate 11 (1 - 0) ++ List.replicate (12 - 11) 0 :=
  ⟨by decide, long_pulse_passes 0 11 12 (by decide) (by decide)⟩

/-- C16 as stated fails on twelve raw sub-bits 1 fed to the initial register: no cycle
detects a bounce, and the twelfth effective sub-bit is already the first raw sub-bit, so
the outputs are not the raw sub-bits delayed by 12 cycles. -/
theorem debounce_latency_counterexample :
    bounceFree (List.replicate DEBOUNCING_FILTER_BUFFER_LENGTH 0) (List.replicate 12 1) = true ∧
      effectives (List.replicate DEBOUNCING_FILTER_BUFFER_LENGTH 0) (List.replicate 12 1) =
        [0, 0, 0, 0, 0, 0, 0, 0, 0, 0, 0, 1] ∧
      effectives (List.replicate DEBOUNCING_FILTER_BUFFER_LENGTH 0) (List.replicate 12 1) ≠
        (List.replicate 12 0 ++ List.replicate 12 1).take 12 := by
  decide

/-- C16 as amended: the latency is D + 1 = 11 cycles.  For every sequence of raw sub-bits
on which no cycle detects a bounce, from the initial register, the effective sub-bits
are eleven 0 followed by the raw sub-bits: the effective sub-bit of cycle t (from 0) is
0 when t < 11 and the raw sub-bit of cycle t - 11 otherwise. -/
theorem debounce_latency (raws : List Int)
    (h : bounceFree (List.replicate DEBOUNCING_FILTER_BUFFER_LENGTH 0) raws = true) :
    effectives (List.replicate DEBOUNCING_FILTER_BUFFER_LENGTH 0) raws =
        (List.replicate (DEBOUNCING_FILTER + 1) 0 ++ raws).take raws.length ∧
      ∀ t, t < raws.length →
        (effectives (List.replicate DEBOUNCING_FILTER_BUFFER_LENGTH 0) raws).getD t 0 =
          if t < DEBOUNCING_FILTER + 1 then 0 else raws.getD (t - (DEBOUNCING_FILTER + 1)) 0 := by
  have hreg : List.replicate DEBOUNCING_FILTER_BUFFER_LENGTH (0 : Int) = List.replicate 12 0 := rfl
  have hD : DEBOUNCING_FILTER + 1 = 11 := rfl
  rw [hreg] at h ⊢
  have he := effectives_of_bounceFree raws _ (by simp) h
  have h1 : (List.replicate 12 (0 : Int)).take 11 = List.replicate 11 0 := rfl
  rw [h1, List.reverse_replicate] at he
  rw [hD]
  refine ⟨he, ?_⟩
  intro t ht
  rw [he, List.getD_eq_getElem?_getD, List.getElem?_take_of_lt ht]
  by_cases h11 : t < 11
  · rw [if_pos h11, List.getElem?_append_left (by simpa using h11), List.getElem?_replicate,
      if_pos h11]
    rfl
  · rw [if_neg h11, List.getElem?_append_right (by simp; omega)]
    simp [List.getD_eq_getElem?_getD]

/-- C16 as amended, on twelve raw sub-bits 1. -/
theorem debounce_latency_witness :
    bounceFree (List.replicate DEBOUNCING_FILTER_BUFFER_LENGTH 0) (List.replicate 12 1) = true ∧
      effectives (List.replicate DEBOUNCING_FILTER_BUFFER_LENGTH 0) (List.replicate 12 1) =
        (List.replicate (DEBOUNCING_FILTER + 1) 0 ++ List.replicate 12 1).take
          (List.replicate 12 (1 : Int)).length :=
  ⟨by decide, (debounce_latency (List.replicate 12 1) (by decide)).1⟩

/-! ## The runs of the debounced sub-bit -/

/-- Before the first change, the effective sub-bits are the previous one. -/
theorem take_before_first_change (es : List Int) (o : Int) :
    ∀ (i t0 n : Nat), (∀ g ∈ gapsBetween t0 (changeTimes o i es), n + (i - t0) ≤ g) →
      es.take n = List.replicate (min n es.length) o := by
  induction es with
  | nil => intro i t0 n _; simp
  | cons e es ih =>
    intro i t0 n h
    cases n with
    | zero => simp
    | succ n =>
      rw [changeTimes] at h
      by_cases he : e ≠ o
      · rw [if_pos he, gapsBetween] at h
        have := h (i - t0) (List.mem_cons_self _ _)
        omega
      · rw [if_neg he] at h
        simp only [ne_eq, not_not] at he
        have := ih (i + 1) t0 n (fun g hg => by have := h g hg; omega)
        rw [List.take_succ_cons, this, he, List.length_cons, Nat.succ_min_succ,
          List.replicate_succ]

theorem effectives_length (xs : List Int) : ∀ reg : List Int, (effectives reg xs).length = xs.length := by
  induction xs with
  | nil => intro reg; rfl
  | cons x xs ih => intro reg; rw [effectives, List.length_cons, List.length_cons, ih]

/-- The intervals between the changes of the sub-bits debounced from the initial
register are at least 11 cycles long. -/
theorem gaps_from_zero (raws : List Int) (hraws : ∀ x ∈ raws, x = 0 ∨ x = 1) :
    ∀ g ∈ gapsBetween 0
        (changeTimes 0 0 (effectives (List.replicate DEBOUNCING_FILTER_BUFFER_LENGTH 0) raws)),
      11 ≤ g := by
  have hg := gaps_twoRuns raws hraws 12 0 0 0 (by omega) (by omega) (Or.inl rfl) (by omega)
    (by omega)
  have hreg : twoRuns 12 0 = List.replicate DEBOUNCING_FILTER_BUFFER_LENGTH 0 := rfl
  have he : effective (List.replicate DEBOUNCING_FILTER_BUFFER_LENGTH 0) = 0 := rfl
  rw [hreg, he] at hg
  exact hg

/-- The first eleven sub-bits debounced from the initial register are 0. -/
theorem effectives_take_eleven (raws : List Int) (hraws : ∀ x ∈ raws, x = 0 ∨ x = 1) :
    (effectives (List.replicate DEBOUNCING_FILTER_BUFFER_LENGTH 0) raws).take 11 =
      List.replicate (min 11 raws.length) 0 := by
  have hg := gaps_from_zero raws hraws
  have := take_before_first_change _ 0 0 0 11 (fun g h => by have := hg g h; omega)
  rw [this, effectives_length]

/-- C20: for every sequence of raw sub-bits (values 0 or 1) fed to the debounce filter
from the initial all-zero register, the effective sub-bit is 0 on the first 11 cycles, and
every interval between two consecutive changes of the effective sub-bit (the first one
counted from the start) is at least D + 1 = 11 cycles long. -/
theorem debounced_runs_long (raws : List Int) (hraws : ∀ x ∈ raws, x = 0 ∨ x = 1) :
    (effectives (List.replicate DEBOUNCING_FILTER_BUFFER_LENGTH 0) raws).take 11 =
        List.replicate (min 11 raws.length) 0 ∧
      ∀ g ∈ gapsBetween 0
          (changeTimes 0 0 (effectives (List.replicate DEBOUNCING_FILTER_BUFFER_LENGTH 0) raws)),
        DEBOUNCING_FILTER + 1 ≤ g :=
  ⟨effectives_take_eleven raws hraws, gaps_from_zero raws hraws⟩

/-- C20 on the raw sub-bits 1, 0, 1 followed by twelve 1: the lone 0 is erased and the
only change comes at cycle 13. -/
theorem debounced_runs_long_witness :
    (∀ x ∈ ([1, 0, 1] ++ List.replicate 12 1 : List Int), x = 0 ∨ x = 1) ∧
      gapsBetween 0 (changeTimes 0 0
          (effectives (List.replicate DEBOUNCING_FILTER_BUFFER_LENGTH 0)
            ([1, 0, 1] ++ List.replicate 12 1))) = [13] ∧
      ∀ g ∈ gapsBetween 0 (changeTimes 0 0
          (effectives (List.replicate DEBOUNCING_FILTER_BUFFER_LENGTH 0)
            ([1, 0, 1] ++ List.replicate 12 1))), DEBOUNCING_FILTER + 1 ≤ g :=
  ⟨by decide, by decide, (debounced_runs_long _ (by decide)).2⟩

/-! ## The averaging windows -/

theorem cell_computeAverages (buffer : List Nat) (g a : Nat) (ha : a < n_averages_per_gap) :
    cell (computeAverages buffer g) a =
      sumSamples buffer ((g * n_averages_per_gap + a) * n_values_per_average)
        ((g * n_averages_per_gap + (a + 1)) * n_values_per_average) := by
  unfold computeAverages cell
  rw [List.getD_eq_getElem?_getD, List.getElem?_map, List.getElem?_range ha]
  rfl

theorem sum_map_range (f : Nat → Int) (n : Nat) :
    ((List.range n).map f).sum = ∑ j in Finset.range n, f j := by
  induction n with
  | zero => simp
  | succ n ih => simp [List.range_succ, Finset.sum_range_succ, ih]

/-- C18: for every block, every gap index g in 0..3 and every average index a in 0..7,
the cell a of `averages` is the sum, not divided, of the 16 samples at the block indices
(8g+a)*16 .. (8g+a)*16+15; these indices are below 512; and every index below 512 lies
in exactly one of the 32 windows, at exactly one place (so the windows are pairwise
disjoint and cover the block).  A sample read past the end of a shorter list counts as
0. -/
theorem averages_windows (buffer : List Nat) (g a : Nat) (hg : g < n_gaps_per_bit)
    (ha : a < n_averages_per_gap) :
    cell (computeAverages buffer g) a =
        ∑ j in Finset.range n_values_per_average,
          ((buffer.getD ((8 * g + a) * 16 + j) 0 : Nat) : Int) ∧
      (∀ j, j < n_values_per_average → (8 * g + a) * 16 + j < out_block_size) ∧
      ∀ i, i < out_block_size →
        ∃! p : Nat × Nat × Nat, p.1 < n_gaps_per_bit ∧ p.2.1 < n_averages_per_gap ∧
          p.2.2 < n_values_per_average ∧ (8 * p.1 + p.2.1) * 16 + p.2.2 = i := by
  have h4 : n_gaps_per_bit = 4 := rfl
  have h8 : n_averages_per_gap = 8 := rfl
  have h16 : n_values_per_average = 16 := rfl
  have h512 : out_block_size = 512 := rfl
  refine ⟨?_, ?_, ?_⟩
  · rw [cell_computeAverages buffer g a ha, sumSamples_eq, h8, h16]
    have hw : (g * 8 + (a + 1)) * 16 - (g * 8 + a) * 16 = 16 := by omega
    have hlo : (g * 8 + a) * 16 = (8 * g + a) * 16 := by ring
    rw [hw, hlo, sum_map_range (fun j => ((buffer.getD ((8 * g + a) * 16 + j) 0 : Nat) : Int))]
  · intro j hj
    rw [h4] at hg
    rw [h8] at ha
    rw [h16] at hj
    rw [h512]
    omega
  · intro i hi
    rw [h512] at hi
    rw [h4, h8, h16]
    refine ⟨(i / 128, i / 16 % 8, i % 16), ⟨?_, ?_, ?_, ?_⟩, ?_⟩
    · show i / 128 < 4
      omega
    · show i / 16 % 8 < 8
      omega
    · show i % 16 < 16
      omega
    · show (8 * (i / 128) + i / 16 % 8) * 16 + i % 16 = i
      omega
    · rintro ⟨p, q, r⟩ ⟨hp, hq, hr, hi2⟩
      simp only at hp hq hr hi2
      have e1 : p = i / 128 := by omega
      have e2 : q = i / 16 % 8 := by omega
      have e3 : r = i % 16 := by omega
      rw [e1, e2, e3]

/-- C18 on the third window of the second gap of the idle block. -/
theorem averages_windows_witness :
    (1 < n_gaps_per_bit ∧ 2 < n_averages_per_gap) ∧
      cell (computeAverages idleBlock 1) 2 =
        ∑ j in Finset.range n_values_per_average,
          ((idleBlock.getD ((8 * 1 + 2) * 16 + j) 0 : Nat) : Int) :=
  ⟨by decide, (averages_windows idleBlock 1 2 (by decide) (by decide)).1⟩

/-! ## The rule of the bit detection -/

theorem computeGap_bit (averages : List Int) :
    computeGap averages = 0 ∨ computeGap averages = 1 := by
  unfold computeGap
  split <;> simp

theorem view_n_same (s : Decoder) (n o : Int) (r : List Int) :
    (setReg (withTiming s n o) r).n_same = n := rfl

/-- The three cases of lines 441-450. -/
theorem bitDetection_cases (s : Decoder) (e : Int) :
    (e ≠ s.sub_bit_old → (bitDetection s e).2 = e ∧ (bitDetection s e).1.n_same = 0) ∧
      (e = s.sub_bit_old → s.n_same > s.bitrate + s.bitrate_tolerence →
        (bitDetection s e).2 = e ∧ (bitDetection s e).1.n_same = s.bitrate_tolerence) ∧
      (e = s.sub_bit_old → ¬ s.n_same > s.bitrate + s.bitrate_tolerence →
        (bitDetection s e).2 = -1 ∧ (bitDetection s e).1.n_same = s.n_same) := by
  unfold bitDetection
  refine ⟨fun h => ?_, fun h1 h2 => ?_, fun h1 h2 => ?_⟩
  · rw [if_pos h]; exact ⟨rfl, rfl⟩
  · rw [if_neg (not_not.mpr h1), if_pos h2]; exact ⟨rfl, rfl⟩
  · rw [if_neg (not_not.mpr h1), if_neg h2]; exact ⟨rfl, rfl⟩

/-- The bit detected in a gap outside the state BitrateDetect, from the value of `bit`. -/
theorem detectedBit_of_bit (s : Decoder) (raw : Int) (h : s.state ≠ STATE_BITRATE) :
    detectedBit s raw =
      if (bitDetection s (effective (debounce s.sub_bit_buffer raw))).2 ≥ 0 then
        some (bitDetection s (effective (debounce s.sub_bit_buffer raw))).2
      else none := by
  rw [detectedBit, if_neg h]

theorem frame_n_same (s : Decoder) (raw : Int) (h : s.state ≠ STATE_BITRATE) :
    (subBitStep s raw).n_same =
      (bitDetection s (effective (debounce s.sub_bit_buffer raw))).1.n_same + 1 := by
  rw [subBitStep_frame s raw h, view_n_same]

/-! ## The bit buffer -/

theorem init_BufInv (d : Int) : BufInv (init d) :=
  ⟨by simp [init], by simp [init, BIT_BUFFER_LENGTH], fun _ => rfl⟩

theorem BufInv_of_view (t : Decoder) (n o : Int) (r : List Int) (h : BufInv t) :
    BufInv (setReg (withTiming t n o) r) :=
  ⟨h.slots, h.count, h.interframe⟩

theorem bitrateDetection_buffer (s : Decoder) (e : Int) :
    (bitrateDetection s e).bit_buffer = s.bit_buffer ∧
      (bitrateDetection s e).bit_buffer_n = s.bit_buffer_n ∧
      ((bitrateDetection s e).state = s.state ∨ (bitrateDetection s e).state = STATE_FRAME) := by
  unfold bitrateDetection
  split_ifs
  · exact ⟨rfl, rfl, Or.inr rfl⟩
  · exact ⟨rfl, rfl, Or.inl rfl⟩
  · exact ⟨rfl, rfl, Or.inr rfl⟩
  · exact ⟨rfl, rfl, Or.inl rfl⟩

theorem BufInv_of_tick (t : Decoder) (r : List Int) (h : BufInv t) : BufInv (setReg (tick t) r) :=
  ⟨h.slots, h.count, h.interframe⟩

/-- The count of bits held after the handling of a detected bit: in the state Frame the
bit is appended, and the twelfth one empties the buffer; in the state Interframe the
buffer is left alone. -/
theorem onBit_BufInv (s : Decoder) (bit : Int) (h : BufInv s) :
    BufInv (onBit s bit) ∧
      (onBit s bit).bit_buffer_n =
        (if s.state = STATE_FRAME then
          (if s.bit_buffer_n + 1 = BIT_BUFFER_LENGTH then 0 else s.bit_buffer_n + 1)
        else s.bit_buffer_n) := by
  have hc := h.count
  have hl := h.slots
  have h12 : BIT_BUFFER_LENGTH = 12 := rfl
  rw [h12] at hc hl
  by_cases hi : s.state = STATE_INTERFRAME
  · have hf : ¬ s.state = STATE_FRAME := by rw [hi]; decide
    rw [onBit, if_pos hi, if_neg hf]
    by_cases hb : bit = 0
    · rw [if_pos hb]
      exact ⟨⟨h.slots, h.count, fun _ => h.interframe hi⟩, rfl⟩
    · rw [if_neg hb]
      exact ⟨h, rfl⟩
  · by_cases hf : s.state = STATE_FRAME
    · rw [if_pos hf]
      by_cases hn : s.bit_buffer_n + 1 = BIT_BUFFER_LENGTH
      · rw [if_pos hn, onBit_decoding s bit hf hn]
        obtain ⟨o1, o2, -, -⟩ := onByte_bits
          { s with bit_buffer := store s.bit_buffer s.bit_buffer_n bit, bit_buffer_n := 0 }
          (decodeByte (store s.bit_buffer s.bit_buffer_n bit))
          (decodeParity (store s.bit_buffer s.bit_buffer_n bit))
        refine ⟨⟨?_, ?_, ?_⟩, o2⟩
        · rw [o1]
          show (store s.bit_buffer s.bit_buffer_n bit).length = BIT_BUFFER_LENGTH
          rw [store_length, hl, h12]
          omega
        · rw [o2]
          exact Nat.zero_le _
        · intro _
          exact o2
      · rw [if_neg hn, onBit, if_neg hi, if_pos hf, addBit, if_neg hn]
        rw [h12] at hn
        refine ⟨⟨?_, ?_, ?_⟩, rfl⟩
        · show (store s.bit_buffer s.bit_buffer_n bit).length = BIT_BUFFER_LENGTH
          rw [store_length, hl, h12]
          omega
        · show s.bit_buffer_n + 1 ≤ BIT_BUFFER_LENGTH - 1
          rw [h12]
          omega
        · intro h2
          have h3 : s.state = STATE_INTERFRAME := h2
          exact absurd h3 hi
    · rw [onBit, if_neg hi, if_neg hf, if_neg hf]
      exact ⟨h, rfl⟩

/-- Every gap keeps the invariant of the bit buffer. -/
theorem subBitStep_BufInv (s : Decoder) (raw : Int) (h : BufInv s) : BufInv (subBitStep s raw) := by
  by_cases hs : s.state = STATE_BITRATE
  · rw [subBitStep_bitrate s raw hs]
    generalize debounce s.sub_bit_buffer raw = r
    generalize effective r = e
    obtain ⟨hb, hn, hst⟩ := bitrateDetection_buffer s e
    apply BufInv_of_tick
    refine ⟨by rw [hb]; exact h.slots, by rw [hn]; exact h.count, ?_⟩
    intro hi
    rcases hst with hst | hst
    · rw [hst, hs] at hi
      exact absurd hi (by decide)
    · rw [hst] at hi
      exact absurd hi (by decide)
  · rw [subBitStep_frame s raw hs]
    apply BufInv_of_view
    cases detectedBit s raw with
    | none => exact h
    | some bit => exact (onBit_BufInv s bit h).1

theorem reached_BufInv (d : Int) (blocks : List (List Nat)) (buffer : List Nat) (k : Nat) :
    BufInv (reached d blocks buffer k) :=
  reached_induction BufInv d (init_BufInv d) (fun s raw _ h => subBitStep_BufInv s raw h)
    blocks buffer k

/-- The count of bits held after a gap. -/
theorem subBitStep_bit_buffer_n (s : Decoder) (raw : Int) (h : BufInv s) :
    (subBitStep s raw).bit_buffer_n =
      (if (detectedBit s raw).isSome = true ∧ s.state = STATE_FRAME then
        (if s.bit_buffer_n + 1 = BIT_BUFFER_LENGTH then 0 else s.bit_buffer_n + 1)
      else s.bit_buffer_n) := by
  by_cases hs : s.state = STATE_BITRATE
  · have hf : ¬ s.state = STATE_FRAME := by rw [hs]; decide
    rw [subBitStep_bitrate s raw hs, if_neg (fun hc => hf hc.2)]
    exact (bitrateDetection_buffer s _).2.1
  · rw [subBitStep_frame s raw hs, view_bit_buffer_n]
    cases hd : detectedBit s raw with
    | none => simp [handled]
    | some bit =>
      rw [handled, (onBit_BufInv s bit h).2]
      simp

/-- A byte is decoded exactly in the gaps that detect a bit in the state Frame with eleven
bits held. -/
theorem decodedByte_isSome (s : Decoder) (raw : Int) :
    (decodedByte s raw).isSome = true ↔
      (detectedBit s raw).isSome = true ∧ s.state = STATE_FRAME ∧
        s.bit_buffer_n + 1 = BIT_BUFFER_LENGTH := by
  unfold decodedByte
  cases detectedBit s raw with
  | none => simp
  | some bit =>
    by_cases hc : s.state = STATE_FRAME ∧ s.bit_buffer_n + 1 = BIT_BUFFER_LENGTH
    · simp [hc]
    · simp only [if_neg hc, Option.isSome_none, Option.isSome_some, true_and]
      constructor
      · intro h; exact absurd h (by decide)
      · intro h; exact absurd h hc

/-- A gap that detects a bit in the state Frame appends it (lines 472-543, `addBit`). -/
theorem subBitStep_append (s : Decoder) (raw bit : Int) (hbit : detectedBit s raw = some bit)
    (hs : s.state = STATE_FRAME) :
    subBitStep s raw =
      setReg
        (withTiming (addBit s bit)
          ((bitDetection s (effective (debounce s.sub_bit_buffer raw))).1.n_same + 1)
          (bitDetection s (effective (debounce s.sub_bit_buffer raw))).1.sub_bit_old)
        (debounce s.sub_bit_buffer raw) := by
  have hne : s.state ≠ STATE_BITRATE := by rw [hs]; decide
  have hni : ¬ s.state = STATE_INTERFRAME := by rw [hs]; decide
  rw [subBitStep_frame s raw hne, hbit, handled, onBit, if_neg hni, if_pos hs]

/-- The bit that is not the twelfth is stored and counted, and nothing else is done. -/
theorem addBit_not_full (s : Decoder) (bit : Int) (h : s.bit_buffer_n + 1 ≠ BIT_BUFFER_LENGTH) :
    addBit s bit =
      { s with
        bit_buffer := store s.bit_buffer s.bit_buffer_n bit
        bit_buffer_n := s.bit_buffer_n + 1 } := by
  rw [addBit, if_neg h]

/-- The twelfth bit is stored, the count is reset, and the byte read from the buffer
(lines 477-486) is handled (lines 488-542, `onByte`). -/
theorem addBit_full (s : Decoder) (bit : Int) (h : s.bit_buffer_n + 1 = BIT_BUFFER_LENGTH) :
    addBit s bit =
      onByte { s with bit_buffer := store s.bit_buffer s.bit_buffer_n bit, bit_buffer_n := 0 }
        (decodeByte (store s.bit_buffer s.bit_buffer_n bit))
        (decodeParity (store s.bit_buffer s.bit_buffer_n bit)) := by
  rw [addBit, if_pos h]

/-- A gap that detects no bit, or detects one outside the state Frame, leaves the bit
buffer, its count and the message variables alone. -/
theorem subBitStep_no_append (s : Decoder) (raw : Int)
    (h : ¬ ((detectedBit s raw).isSome = true ∧ s.state = STATE_FRAME)) :
    (subBitStep s raw).bit_buffer = s.bit_buffer ∧
      (subBitStep s raw).bit_buffer_n = s.bit_buffer_n ∧
      (subBitStep s raw).printed = s.printed ∧ (subBitStep s raw).msg_buffer = s.msg_buffer ∧
      (subBitStep s raw).msg_buffer_n = s.msg_buffer_n ∧ (subBitStep s raw).msg_n = s.msg_n ∧
      (subBitStep s raw).first_interframe_detected = s.first_interframe_detected := by
  by_cases hs : s.state = STATE_BITRATE
  · rw [subBitStep_bitrate s raw hs]
    obtain ⟨b1, b2, -⟩ := bitrateDetection_buffer s (effective (debounce s.sub_bit_buffer raw))
    obtain ⟨m1, m2, m3, m4, m5⟩ :=
      bitrateDetection_msg s (effective (debounce s.sub_bit_buffer raw))
    exact ⟨b1, b2, m1, m2, m3, m4, m5⟩
  · rw [subBitStep_frame s raw hs, view_bit_buffer, view_bit_buffer_n, view_printed,
      view_msg_buffer, view_msg_buffer_n, view_msg_n, view_first]
    cases hb : detectedBit s raw with
    | none => exact ⟨rfl, rfl, rfl, rfl, rfl, rfl, rfl⟩
    | some bit =>
      have hf : ¬ s.state = STATE_FRAME := fun hf => h ⟨by rw [hb]; rfl, hf⟩
      rw [handled, onBit]
      by_cases hi : s.state = STATE_INTERFRAME
      · rw [if_pos hi]
        split_ifs <;> exact ⟨rfl, rfl, rfl, rfl, rfl, rfl, rfl⟩
      · rw [if_neg hi, if_neg hf]
        exact ⟨rfl, rfl, rfl, rfl, rfl, rfl, rfl⟩

/-! ## The history of a session: raw and debounced sub-bits -/

theorem processGaps_eq (s : Decoder) (buffer : List Nat) (k : Nat) :
    processGaps s buffer k = runSubBits s (blockRaws buffer k) := by
  unfold processGaps runSubBits blockRaws gapStep
  rw [List.foldl_map]

theorem runSubBits_append (s : Decoder) (xs ys : List Int) :
    runSubBits s (xs ++ ys) = runSubBits (runSubBits s xs) ys := by
  unfold runSubBits
  rw [List.foldl_append]

theorem foldl_processBlock_eq (blocks : List (List Nat)) (s : Decoder) :
    blocks.foldl processBlock s =
      runSubBits s (blocks.flatMap (fun b => blockRaws b n_gaps_per_bit)) := by
  induction blocks generalizing s with
  | nil => rfl
  | cons b rest ih =>
    rw [List.foldl_cons, ih, List.flatMap_cons, runSubBits_append, processBlock, processGaps_eq]

/-- A state of a session is the run of the decoder on the raw sub-bits of its gaps. -/
theorem reached_eq_runSubBits (d : Int) (blocks : List (List Nat)) (buffer : List Nat) (k : Nat) :
    reached d blocks buffer k = runSubBits (init d) (sessionRaws blocks buffer k) := by
  rw [reached, session, processGaps_eq, foldl_processBlock_eq, sessionRaws, runSubBits_append]

/-- A state of a session is the detection run on the debounced sub-bits of its gaps, up to
the debounce register. -/
theorem reached_eq_detection (d : Int) (blocks : List (List Nat)) (buffer : List Nat) (k : Nat) :
    reached d blocks buffer k =
      setReg ((sessionEffectives blocks buffer k).foldl detectStep (init d))
        ((sessionRaws blocks buffer k).foldl debounce
          (List.replicate DEBOUNCING_FILTER_BUFFER_LENGTH 0)) := by
  have hreg : (init d).sub_bit_buffer = List.replicate DEBOUNCING_FILTER_BUFFER_LENGTH 0 := rfl
  rw [reached_eq_runSubBits, runSubBits_eq, hreg, sessionEffectives]

theorem sessionRaws_bits (blocks : List (List Nat)) (buffer : List Nat) (k : Nat) :
    ∀ x ∈ sessionRaws blocks buffer k, x = 0 ∨ x = 1 := by
  intro x hx
  simp only [sessionRaws, blockRaws, List.mem_append, List.mem_flatMap, List.mem_map] at hx
  rcases hx with ⟨b, -, g, -, rfl⟩ | ⟨g, -, rfl⟩ <;> exact computeGap_bit _

theorem sessionRaws_succ (blocks : List (List Nat)) (buffer : List Nat) (k : Nat) :
    sessionRaws blocks buffer (k + 1) =
      sessionRaws blocks buffer k ++ [computeGap (computeAverages buffer k)] := by
  simp only [sessionRaws, blockRaws, List.range_succ, List.map_append, List.map_cons,
    List.map_nil, List.append_assoc]

/-- The debounced sub-bits of a session after one gap more. -/
theorem sessionEffectives_succ (blocks : List (List Nat)) (buffer : List Nat) (k : Nat) :
    sessionEffectives blocks buffer (k + 1) =
      sessionEffectives blocks buffer k ++
        [effective (debounce ((sessionRaws blocks buffer k).foldl debounce
          (List.replicate DEBOUNCING_FILTER_BUFFER_LENGTH 0))
          (computeGap (computeAverages buffer k)))] := by
  rw [sessionEffectives, sessionRaws_succ, effectives_append]
  rfl

/-! ## Changes and intervals, one gap more -/

theorem lastOr_snoc {α : Type} (o e : α) (xs : List α) : lastOr o (xs ++ [e]) = e := by
  induction xs generalizing o with
  | nil => rfl
  | cons x xs ih => exact ih x

theorem changeTimes_snoc (es : List Int) (e : Int) :
    ∀ (o : Int) (i : Nat), changeTimes o i (es ++ [e]) =
      changeTimes o i es ++ (if e ≠ lastOr o es then [i + es.length] else []) := by
  induction es with
  | nil =>
    intro o i
    simp only [List.nil_append, changeTimes, lastOr, List.length_nil, Nat.add_zero]
  | cons x xs ih =>
    intro o i
    have hl : i + 1 + xs.length = i + (x :: xs).length := by rw [List.length_cons]; omega
    rw [List.cons_append, changeTimes, changeTimes, ih, ih, hl]
    by_cases hx : x ≠ o
    · rw [if_pos hx, if_pos hx]
      rfl
    · rw [if_neg hx, if_neg hx]
      simp only [ne_eq, not_not] at hx
      rw [hx]
      rfl

theorem gapsBetween_snoc (ts : List Nat) (t : Nat) :
    ∀ t0 : Nat, gapsBetween t0 (ts ++ [t]) = gapsBetween t0 ts ++ [t - lastOr t0 ts] := by
  induction ts with
  | nil => intro t0; rfl
  | cons x xs ih => intro t0; rw [List.cons_append, gapsBetween, gapsBetween, ih]; rfl

theorem gapsBetween_length (ts : List Nat) : ∀ t0 : Nat, (gapsBetween t0 ts).length = ts.length := by
  induction ts with
  | nil => intro t0; rfl
  | cons x xs ih => intro t0; rw [gapsBetween, List.length_cons, List.length_cons, ih]

theorem lastOr_mem {α : Type} (xs : List α) : ∀ o : α, lastOr o xs = o ∨ lastOr o xs ∈ xs := by
  induction xs with
  | nil => intro o; exact Or.inl rfl
  | cons x xs ih =>
    intro o
    rcases ih x with h | h
    · exact Or.inr (by rw [lastOr, h]; exact List.mem_cons_self _ _)
    · exact Or.inr (List.mem_cons_of_mem _ h)

theorem lastOr_changeTimes_le (es : List Int) : lastOr 0 (changeTimes 0 0 es) ≤ es.length := by
  rcases lastOr_mem (changeTimes 0 0 es) 0 with h | h
  · rw [h]; exact Nat.zero_le _
  · have := changeTimes_lt es 0 0 _ h
    omega

theorem getD_append_left (xs ys : List Nat) (i : Nat) (h : i < xs.length) :
    (xs ++ ys).getD i 0 = xs.getD i 0 := by
  rw [List.getD_eq_getElem?_getD, List.getD_eq_getElem?_getD, List.getElem?_append_left h]

theorem trustedSum_append (g x : List Nat) (h : BITRATE_DETECT_STOP ≤ g.length) :
    trustedSum (g ++ x) = trustedSum g := by
  have h20 : BITRATE_DETECT_STOP = 20 := rfl
  have h5 : BITRATE_DETECT_START = 5 := rfl
  unfold trustedSum
  apply Finset.sum_congr rfl
  intro k hk
  have hk2 := Finset.mem_range.mp hk
  rw [h20, h5] at hk2
  rw [h20] at h
  rw [h5, getD_append_left _ _ _ (by omega)]

/-- The sum of lines 423-426 when the cells hold the intervals. -/
theorem sumVals_eq_trustedSum (vals : List Int) (g : List Nat)
    (h : ∀ i, i < BITRATE_DETECT_STOP → cell vals i = ((g.getD i 0 : Nat) : Int)) :
    sumVals vals = trustedSum g := by
  have h20 : BITRATE_DETECT_STOP = 20 := rfl
  have h5 : BITRATE_DETECT_START = 5 := rfl
  unfold sumVals trustedSum
  rw [foldl_add_eq_sum (fun k => cell vals (BITRATE_DETECT_START + k)), sum_map_range, zero_add]
  apply Finset.sum_congr rfl
  intro k hk
  have hk2 := Finset.mem_range.mp hk
  rw [h20, h5] at hk2
  rw [h20] at h
  rw [h5]
  exact h _ (by omega)

theorem cell_store_ne (xs : List Int) (i j : Nat) (v : Int) (hi : i < xs.length) (hj : j ≠ i) :
    cell (store xs i v) j = cell xs j := by
  unfold store cell
  rw [if_pos hi, List.getD_eq_getElem?_getD, List.getD_eq_getElem?_getD,
    List.getElem?_set_ne (Ne.symm hj)]

/-! ## The detection variables along a session -/

theorem onByte_detect (s : Decoder) (b p : Int) :
    (onByte s b p).bitrate_vals = s.bitrate_vals ∧
      (onByte s b p).detect_bitrate = s.detect_bitrate := by
  unfold onByte
  split_ifs <;> exact ⟨rfl, rfl⟩

theorem onBit_detect (s : Decoder) (b : Int) :
    (onBit s b).bitrate_vals = s.bitrate_vals ∧ (onBit s b).detect_bitrate = s.detect_bitrate := by
  simp only [onBit, addBit]
  split_ifs
  · exact ⟨rfl, rfl⟩
  · exact ⟨rfl, rfl⟩
  · exact onByte_detect
      { s with bit_buffer := store s.bit_buffer s.bit_buffer_n b, bit_buffer_n := 0 } _ _
  · exact ⟨rfl, rfl⟩
  · exact ⟨rfl, rfl⟩

/-- Outside the state BitrateDetect a gap leaves the variables of the bitrate detection
alone, and the state stays outside BitrateDetect. -/
theorem detectStep_keeps (s : Decoder) (e : Int) (h : s.state ≠ STATE_BITRATE) :
    (detectStep s e).state ≠ STATE_BITRATE ∧ (detectStep s e).bitrate = s.bitrate ∧
      (detectStep s e).bitrate_tolerence = s.bitrate_tolerence ∧
      (detectStep s e).bitrate_vals = s.bitrate_vals ∧
      (detectStep s e).detect_bitrate = s.detect_bitrate := by
  rw [detectStep, if_neg h, tick_frameStep]
  generalize (bitDetection s e).1.n_same + 1 = n
  generalize (bitDetection s e).1.sub_bit_old = o
  generalize (if (bitDetection s e).2 ≥ 0 then some (bitDetection s e).2 else none) = ob
  cases ob with
  | none => exact ⟨h, rfl, rfl, rfl, rfl⟩
  | some bit =>
    obtain ⟨f1, f2, f3⟩ := onBit_fixed s bit h
    obtain ⟨f4, f5⟩ := onBit_detect s bit
    exact ⟨f1, f2, f3, f4, f5⟩

theorem DetectInv.of_setReg (es : List Int) (s : Decoder) (r : List Int) (h : DetectInv es s) :
    DetectInv es (setReg s r) :=
  ⟨h.mode, h.capacity, h.recorded, h.detecting, h.detected⟩

theorem init_DetectInv (d : Int) (hd : d ≠ 0) : DetectInv [] (init d) := by
  refine ⟨hd, by simp [init], ?_, ?_, ?_⟩
  · intro i hi
    simp [changeTimes] at hi
  · intro _
    exact ⟨rfl, rfl, rfl, rfl⟩
  · intro h
    simp [changeTimes] at h

theorem bitrate_step_same (s : Decoder) (e : Int) (hs : s.state = STATE_BITRATE)
    (hm : s.detect_bitrate ≠ 0) (he : e = s.sub_bit_old) : detectStep s e = tick s := by
  rw [detectStep, if_pos hs, bitrateDetection, if_neg hm, if_neg (not_not.mpr he)]

theorem bitrate_step_record (s : Decoder) (e : Int) (hs : s.state = STATE_BITRATE)
    (hm : s.detect_bitrate ≠ 0) (he : e ≠ s.sub_bit_old) (hn : s.bitrate_n < BITRATE_DETECT_STOP) :
    detectStep s e =
      tick { s with
        bitrate_vals := store s.bitrate_vals s.bitrate_n s.n_same
        bitrate_n := s.bitrate_n + 1
        sub_bit_old := e
        n_same := 0 } := by
  rw [detectStep, if_pos hs, bitrateDetection, if_neg hm, if_pos he, if_pos hn]

theorem bitrate_step_done (s : Decoder) (e : Int) (hs : s.state = STATE_BITRATE)
    (hm : s.detect_bitrate ≠ 0) (he : e ≠ s.sub_bit_old)
    (hn : ¬ s.bitrate_n < BITRATE_DETECT_STOP) :
    detectStep s e =
      tick { s with
        bitrate := roundQuotient32 (sumVals s.bitrate_vals) (BITRATE_DETECT_STOP - BITRATE_DETECT_START)
        bitrate_tolerence := halfTrunc
          (roundQuotient32 (sumVals s.bitrate_vals) (BITRATE_DETECT_STOP - BITRATE_DETECT_START))
        state := STATE_FRAME
        sub_bit_old := e
        n_same := 0 } := by
  rw [detectStep, if_pos hs, bitrateDetection, if_neg hm, if_pos he, if_neg hn]

theorem getD_append_at (xs : List Nat) (y : Nat) : (xs ++ [y]).getD xs.length 0 = y := by
  rw [List.getD_eq_getElem?_getD, List.getElem?_append_right (Nat.le_refl _), Nat.sub_self]
  rfl

/-- The changes and the intervals after one gap more: the earlier ones, and at most one
more. -/
theorem intervals_snoc (es : List Int) (e : Int) :
    ∃ Y : List Nat,
      gapsBetween 0 (changeTimes 0 0 (es ++ [e])) = gapsBetween 0 (changeTimes 0 0 es) ++ Y ∧
      (changeTimes 0 0 (es ++ [e])).length = (changeTimes 0 0 es).length + Y.length := by
  have hcs := changeTimes_snoc es e 0 0
  by_cases he : e ≠ lastOr 0 es
  · rw [if_pos he] at hcs
    rw [hcs, gapsBetween_snoc]
    exact ⟨_, rfl, by simp⟩
  · rw [if_neg he, List.append_nil] at hcs
    rw [hcs]
    exact ⟨[], by simp, by simp⟩

/-- One gap more keeps the invariant of the bitrate detection. -/
theorem detectStep_DetectInv (es : List Int) (s : Decoder) (e : Int) (h : DetectInv es s) :
    DetectInv (es ++ [e]) (detectStep s e) := by
  have h20 : BITRATE_DETECT_STOP = 20 := rfl
  have hcs := changeTimes_snoc es e 0 0
  rw [Nat.zero_add] at hcs
  have hle := lastOr_changeTimes_le es
  have hglen := gapsBetween_length (changeTimes 0 0 es) 0
  obtain ⟨Y, hY1, hY2⟩ := intervals_snoc es e
  obtain ⟨hmode, hcap, hrec, hdet, hdone⟩ := h
  generalize changeTimes 0 0 es = cs at *
  rw [h20] at hcap hrec hdet hdone
  by_cases hc : cs.length ≤ 20
  · obtain ⟨hst, hn, hold, hns⟩ := hdet hc
    by_cases he : e = lastOr 0 es
    · have hcs2 : changeTimes 0 0 (es ++ [e]) = cs := by
        rw [hcs, if_neg (not_not.mpr he), List.append_nil]
      rw [bitrate_step_same s e hst hmode (he.trans hold.symm)]
      refine ⟨hmode, hcap, ?_, ?_, ?_⟩
      · rw [hcs2, h20]
        exact hrec
      · rw [hcs2]
        intro _
        refine ⟨hst, hn, ?_, ?_⟩
        · show s.sub_bit_old = lastOr 0 (es ++ [e])
          rw [lastOr_snoc, hold, he]
        · show s.n_same + 1 = ((es ++ [e]).length : Int) - (lastOr 0 cs : Nat)
          rw [hns, List.length_append, List.length_singleton]
          push_cast
          ring
      · rw [hcs2, h20]
        intro h
        omega
    · have hcs2 : changeTimes 0 0 (es ++ [e]) = cs ++ [es.length] := by rw [hcs, if_pos he]
      have hg2 : gapsBetween 0 (cs ++ [es.length]) =
          gapsBetween 0 cs ++ [es.length - lastOr 0 cs] := gapsBetween_snoc _ _ _
      have he2 : e ≠ s.sub_bit_old := by rw [hold]; exact he
      by_cases hfull : s.bitrate_n < BITRATE_DETECT_STOP
      · rw [bitrate_step_record s e hst hmode he2 hfull]
        rw [h20, hn] at hfull
        refine ⟨hmode, ?_, ?_, ?_, ?_⟩
        · show (store s.bitrate_vals s.bitrate_n s.n_same).length = BITRATE_DETECT_STOP
          rw [store_length, hcap, hn, h20]
          omega
        · rw [hcs2, hg2, h20]
          intro i hi hi2
          show cell (store s.bitrate_vals s.bitrate_n s.n_same) i = _
          rw [List.length_append, List.length_singleton] at hi
          by_cases hin : i = cs.length
          · rw [hin, ← hn, cell_store _ _ _ (by rw [hcap, hn]; omega), hn, ← hglen,
              getD_append_at, hns, Int.ofNat_sub hle]
          · rw [cell_store_ne _ _ _ _ (by rw [hcap, hn]; omega) (by rw [hn]; exact hin),
              getD_append_left _ _ _ (by rw [hglen]; omega)]
            exact hrec i (by omega) hi2
        · rw [hcs2]
          intro _
          refine ⟨hst, ?_, ?_, ?_⟩
          · show s.bitrate_n + 1 = (cs ++ [es.length]).length
            rw [hn, List.length_append, List.length_singleton]
          · show e = lastOr 0 (es ++ [e])
            rw [lastOr_snoc]
          · show (0 : Int) + 1 = ((es ++ [e]).length : Int) - (lastOr 0 (cs ++ [es.length]) : Nat)
            rw [lastOr_snoc, List.length_append, List.length_singleton]
            push_cast
            ring
        · rw [hcs2, h20, List.length_append, List.length_singleton]
          intro h
          omega
      · rw [bitrate_step_done s e hst hmode he2 hfull]
        rw [h20, hn] at hfull
        have hlen : cs.length = 20 := by omega
        have hsum : sumVals s.bitrate_vals = trustedSum (gapsBetween 0 (cs ++ [es.length])) := by
          rw [hg2, trustedSum_append _ _ (by rw [hglen, h20, hlen])]
          exact sumVals_eq_trustedSum _ _ (fun i hi => hrec i (by rw [h20] at hi; omega)
            (by rw [h20] at hi; exact hi))
        refine ⟨hmode, hcap, ?_, ?_, ?_⟩
        · rw [hcs2, hg2, h20]
          intro i _ hi2
          rw [getD_append_left _ _ _ (by rw [hglen]; omega)]
          exact hrec i (by omega) hi2
        · rw [hcs2, h20, List.length_append, List.length_singleton]
          intro h
          omega
        · rw [hcs2]
          intro _
          refine ⟨(show STATE_FRAME ≠ STATE_BITRATE by decide), ?_, rfl⟩
          show roundQuotient32 (sumVals s.bitrate_vals) (BITRATE_DETECT_STOP - BITRATE_DETECT_START) = _
          rw [hsum]
  · obtain ⟨hst, hb, ht⟩ := hdone (by omega)
    obtain ⟨k1, k2, k3, k4, k5⟩ := detectStep_keeps s e hst
    refine ⟨by rw [k5]; exact hmode, by rw [k4]; exact hcap, ?_, ?_, ?_⟩
    · rw [hY1, hY2, h20, k4]
      intro i _ hi2
      rw [getD_append_left _ _ _ (by rw [hglen]; omega)]
      exact hrec i (by omega) hi2
    · rw [hY2, h20]
      intro h
      omega
    · intro _
      refine ⟨k1, ?_, ?_⟩
      · rw [k2, hb, hY1, trustedSum_append _ _ (by rw [hglen, h20]; omega), h20]
      · rw [k3, k2]
        exact ht

/-- The invariant of the bitrate detection along the debounced sub-bits. -/
theorem foldl_DetectInv (d : Int) (hd : d ≠ 0) (es : List Int) :
    DetectInv es (es.foldl detectStep (init d)) := by
  induction es using List.reverseRecOn with
  | nil => exact init_DetectInv d hd
  | append_singleton es e ih =>
    rw [List.foldl_append, List.foldl_cons, List.foldl_nil]
    exact detectStep_DetectInv es _ e ih

/-- The invariant of the bitrate detection in every state of a session in auto-detect
mode. -/
theorem reached_DetectInv (d : Int) (hd : d ≠ 0) (blocks : List (List Nat)) (buffer : List Nat)
    (k : Nat) : DetectInv (sessionEffectives blocks buffer k) (reached d blocks buffer k) := by
  rw [reached_eq_detection]
  exact DetectInv.of_setReg _ _ _ (foldl_DetectInv d hd _)

/-! ## The single-precision quotient of line 427 -/

theorem log2Fuel_le (fuel : Nat) : ∀ n, 1 ≤ n → 2 ^ log2Fuel fuel n ≤ n := by
  induction fuel with
  | zero => intro n hn; simpa [log2Fuel] using hn
  | succ fuel ih =>
    intro n hn
    rw [log2Fuel]
    split
    · simpa using hn
    · have h2 : 1 ≤ n / 2 := by omega
      have := ih (n / 2) h2
      rw [pow_succ]
      omega

theorem log2Fuel_lt (fuel : Nat) : ∀ n k, n < 2 ^ (k + 1) → log2Fuel fuel n ≤ k := by
  induction fuel with
  | zero => intro n k _; simp [log2Fuel]
  | succ fuel ih =>
    intro n k hn
    rw [log2Fuel]
    split
    · exact Nat.zero_le _
    · cases k with
      | zero => simp at hn; omega
      | succ k =>
        have h2 : n / 2 < 2 ^ (k + 1) := by
          rw [pow_succ] at hn
          omega
        have := ih (n / 2) k h2
        omega

/-- The rounding to the nearest integer, ties to even, is within half a unit. -/
theorem roundNearestEven_near (p q : Nat) (hq : 0 < q) :
    2 * (roundNearestEven p q * q) ≤ 2 * p + q ∧ 2 * p ≤ 2 * (roundNearestEven p q * q) + q := by
  have hdm := Nat.div_add_mod p q
  have hlt := Nat.mod_lt p hq
  have hmul : (p / q + 1) * q = q * (p / q) + q := by ring
  have hmul2 : p / q * q = q * (p / q) := by ring
  unfold roundNearestEven
  split_ifs <;> simp only [hmul, hmul2] <;> omega

/-- An exact multiple is left alone by the rounding. -/
theorem roundNearestEven_exact (m q : Nat) (hq : 0 < q) : roundNearestEven (m * q) q * q = m * q := by
  unfold roundNearestEven
  rw [Nat.mul_mod_left, Nat.mul_div_cancel _ hq, if_pos (by omega)]

/-- The single-precision value is within half a unit in the last place of the exact one;
the unit `u` is at most `2 ^ m` when the quotient is below `2 ^ (m + 24)`, and at most the
quotient over `2 ^ 23`. -/
theorem float32Scaled_near (p q : Nat) (hq : 0 < q) :
    ∃ u : Nat, 0 < u ∧
      2 * (float32Scaled p q * q) ≤ 2 * (p * 2 ^ 32) + q * u ∧
      2 * (p * 2 ^ 32) ≤ 2 * (float32Scaled p q * q) + q * u ∧
      (1 ≤ p * 2 ^ 32 / q → 2 ^ 23 ≤ p * 2 ^ 32 / q → 2 ^ 23 * u ≤ p * 2 ^ 32 / q) ∧
      (∀ m, p * 2 ^ 32 / q < 2 ^ (m + 24) → u ≤ 2 ^ m) := by
  refine ⟨2 ^ (log2Fuel 128 (p * 2 ^ 32 / q) - 23), by positivity, ?_, ?_, ?_, ?_⟩
  · have h := (roundNearestEven_near (p * 2 ^ 32)
      (q * 2 ^ (log2Fuel 128 (p * 2 ^ 32 / q) - 23)) (by positivity)).1
    unfold float32Scaled
    calc 2 * (roundNearestEven (p * 2 ^ 32) (q * 2 ^ (log2Fuel 128 (p * 2 ^ 32 / q) - 23)) *
            2 ^ (log2Fuel 128 (p * 2 ^ 32 / q) - 23) * q)
        = 2 * (roundNearestEven (p * 2 ^ 32) (q * 2 ^ (log2Fuel 128 (p * 2 ^ 32 / q) - 23)) *
            (q * 2 ^ (log2Fuel 128 (p * 2 ^ 32 / q) - 23))) := by ring
      _ ≤ _ := h
  · have h := (roundNearestEven_near (p * 2 ^ 32)
      (q * 2 ^ (log2Fuel 128 (p * 2 ^ 32 / q) - 23)) (by positivity)).2
    unfold float32Scaled
    calc 2 * (p * 2 ^ 32) ≤ _ := h
      _ = _ := by ring
  · intro h1 h23
    have hle := log2Fuel_le 128 _ h1
    by_cases hL : 23 ≤ log2Fuel 128 (p * 2 ^ 32 / q)
    · have : 2 ^ 23 * 2 ^ (log2Fuel 128 (p * 2 ^ 32 / q) - 23) =
          2 ^ log2Fuel 128 (p * 2 ^ 32 / q) := by
        rw [← pow_add]
        congr 1
        omega
      rw [this]
      exact hle
    · have : log2Fuel 128 (p * 2 ^ 32 / q) - 23 = 0 := by omega
      rw [this, pow_zero, mul_one]
      exact h23
  · intro m hm
    have := log2Fuel_lt 128 _ (m + 23) hm
    exact Nat.pow_le_pow_right (by decide) (by omega)

/-- The conversion `(float)sum` is exact below 2^24. -/
theorem float32Scaled_exact (s : Nat) (hs : s < 2 ^ 24) : float32Scaled s 1 = s * 2 ^ 32 := by
  unfold float32Scaled
  rw [Nat.div_one, Nat.one_mul]
  have hL : log2Fuel 128 (s * 2 ^ 32) - 23 ≤ 32 := by
    have := log2Fuel_lt 128 (s * 2 ^ 32) 55 (by
      have : (2 : Nat) ^ (55 + 1) = 2 ^ 24 * 2 ^ 32 := by norm_num
      rw [this]
      exact Nat.mul_lt_mul_of_pos_right hs (by positivity))
    omega
  generalize log2Fuel 128 (s * 2 ^ 32) - 23 = m at hL
  have hsplit : s * 2 ^ 32 = s * 2 ^ (32 - m) * 2 ^ m := by
    rw [mul_assoc, ← pow_add]
    congr 2
    omega
  rw [hsplit]
  exact roundNearestEven_exact _ _ (by positivity)

/-- Below 15 * 2^20 the single-precision computation of line 427 gives the quotient by 15
rounded to the nearest integer. -/
theorem roundFloat32_exact (s : Nat) (hs : s < 15 * 2 ^ 20) :
    roundFloat32 s 15 = (2 * s + 15) / 30 := by
  unfold roundFloat32
  rw [float32Scaled_exact s (by omega)]
  obtain ⟨u, -, h1, h2, -, h4⟩ := float32Scaled_near (s * 2 ^ 32) (15 * 2 ^ 32) (by norm_num)
  have hu : u ≤ 2 ^ 28 := by
    apply h4 28
    rw [Nat.mul_div_mul_right _ _ (by positivity)]
    have : (2 : Nat) ^ (28 + 24) = 2 ^ 20 * 2 ^ 32 := by norm_num
    rw [this]
    have : s * 2 ^ 32 / 15 ≤ s * 2 ^ 32 / 15 := le_refl _
    have h15 : s * 2 ^ 32 < 15 * (2 ^ 20 * 2 ^ 32) := by
      have := Nat.mul_lt_mul_of_pos_right hs (show 0 < 2 ^ 32 by positivity)
      calc s * 2 ^ 32 < 15 * 2 ^ 20 * 2 ^ 32 := this
        _ = 15 * (2 ^ 20 * 2 ^ 32) := by ring
    exact Nat.div_lt_of_lt_mul h15
  generalize float32Scaled (s * 2 ^ 32) (15 * 2 ^ 32) = y at h1 h2 ⊢
  norm_num at h1 h2 hu ⊢
  omega

/-- From 165 on the single-precision computation of line 427 gives at least 11. -/
theorem roundFloat32_ge (s : Nat) (hs : 165 ≤ s) : 11 ≤ roundFloat32 s 15 := by
  unfold roundFloat32
  obtain ⟨u1, -, a1, a2, a3, -⟩ := float32Scaled_near s 1 (by norm_num)
  rw [Nat.div_one] at a3
  have a3' := a3 (by omega) (by omega)
  generalize float32Scaled s 1 = a at a1 a2 ⊢
  obtain ⟨u, -, h1, h2, h3, -⟩ := float32Scaled_near a (15 * 2 ^ 32) (by norm_num)
  rw [Nat.mul_div_mul_right _ _ (by positivity)] at h3
  have ha : 164 * 2 ^ 32 ≤ a := by norm_num at a1 a2 a3' ⊢; omega
  have h3' := h3 (by norm_num at ha ⊢; omega) (by norm_num at ha ⊢; omega)
  generalize float32Scaled a (15 * 2 ^ 32) = y at h1 h2 ⊢
  norm_num at a1 a2 a3' h1 h2 h3' ⊢
  omega

theorem roundQuotient32_exact (sum : Int) (h0 : 0 ≤ sum) (hs : sum < 15 * 2 ^ 20) :
    roundQuotient32 sum 15 = roundDiv sum 15 := by
  obtain ⟨s, rfl⟩ := Int.eq_ofNat_of_zero_le h0
  rw [roundQuotient32, roundDiv, if_pos h0, if_pos h0, Int.toNat_ofNat,
    roundFloat32_exact s (by norm_num at hs ⊢; omega)]
  push_cast
  norm_num

theorem roundQuotient32_ge (sum : Int) (hs : 165 ≤ sum) : 11 ≤ roundQuotient32 sum 15 := by
  obtain ⟨s, rfl⟩ := Int.eq_ofNat_of_zero_le (show 0 ≤ sum by omega)
  rw [roundQuotient32, if_pos (by omega), Int.toNat_ofNat]
  have := roundFloat32_ge s (by omega)
  exact_mod_cast this

/-! ## The bitrate and the tolerance in every state of a session -/

theorem setReg_fields (s : Decoder) (r : List Int) :
    (setReg s r).state = s.state ∧ (setReg s r).bitrate = s.bitrate ∧
      (setReg s r).bitrate_tolerence = s.bitrate_tolerence ∧
      (setReg s r).detect_bitrate = s.detect_bitrate ∧
      (setReg s r).bitrate_n = s.bitrate_n ∧ (setReg s r).bitrate_vals = s.bitrate_vals :=
  ⟨rfl, rfl, rfl, rfl, rfl, rfl⟩

/-- One gap keeps: the mode; in fixed mode, the bitrate 27; outside BitrateDetect, the
tolerance as the truncated half of the bitrate. -/
theorem detectStep_tuned (s : Decoder) (e : Int)
    (h : (s.state ≠ STATE_BITRATE → s.bitrate_tolerence = halfTrunc s.bitrate) ∧
      (s.detect_bitrate = 0 → s.bitrate = DEFAULT_BITRATE)) :
    ((detectStep s e).state ≠ STATE_BITRATE →
        (detectStep s e).bitrate_tolerence = halfTrunc (detectStep s e).bitrate) ∧
      ((detectStep s e).detect_bitrate = 0 → (detectStep s e).bitrate = DEFAULT_BITRATE) ∧
      (detectStep s e).detect_bitrate = s.detect_bitrate := by
  by_cases hs : s.state = STATE_BITRATE
  · rw [detectStep, if_pos hs, bitrateDetection]
    split_ifs with h1 h2 h3
    · exact ⟨fun _ => rfl, fun _ => rfl, rfl⟩
    · exact ⟨fun hc => absurd hs hc, fun hc => absurd hc h1, rfl⟩
    · exact ⟨fun _ => rfl, fun hc => absurd hc h1, rfl⟩
    · exact ⟨fun hc => absurd hs hc, fun hc => absurd hc h1, rfl⟩
  · obtain ⟨k1, k2, k3, -, k5⟩ := detectStep_keeps s e hs
    rw [k2, k3, k5]
    exact ⟨fun _ => h.1 hs, h.2, rfl⟩

/-- In every state of a session: the mode is the one chosen; in fixed mode the bitrate is
27; outside BitrateDetect the tolerance is the truncated half of the bitrate. -/
theorem reached_tuned (d : Int) (blocks : List (List Nat)) (buffer : List Nat) (k : Nat) :
    ((reached d blocks buffer k).state ≠ STATE_BITRATE →
        (reached d blocks buffer k).bitrate_tolerence =
          halfTrunc (reached d blocks buffer k).bitrate) ∧
      ((reached d blocks buffer k).detect_bitrate = 0 →
        (reached d blocks buffer k).bitrate = DEFAULT_BITRATE) ∧
      (reached d blocks buffer k).detect_bitrate = d := by
  apply reached_induction
    (fun s => (s.state ≠ STATE_BITRATE → s.bitrate_tolerence = halfTrunc s.bitrate) ∧
      (s.detect_bitrate = 0 → s.bitrate = DEFAULT_BITRATE) ∧ s.detect_bitrate = d) d
  · exact ⟨fun hc => absurd rfl hc, fun _ => rfl, rfl⟩
  · intro s raw _ h
    rw [subBitStep_eq_detectStep]
    obtain ⟨t1, t2, t3⟩ := detectStep_tuned s (effective (debounce s.sub_bit_buffer raw)) ⟨h.1, h.2.1⟩
    exact ⟨t1, t2, t3.trans h.2.2⟩

/-- The intervals between the changes of the debounced sub-bit of a session are at least
11 gaps long. -/
theorem sessionIntervals_ge (blocks : List (List Nat)) (buffer : List Nat) (k : Nat) :
    ∀ g ∈ sessionIntervals blocks buffer k, 11 ≤ g :=
  gaps_from_zero (sessionRaws blocks buffer k) (sessionRaws_bits blocks buffer k)

theorem trustedSum_nonneg (g : List Nat) : 0 ≤ trustedSum g := by
  unfold trustedSum
  exact Finset.sum_nonneg (fun k _ => Int.ofNat_nonneg _)

theorem trustedSum_ge (g : List Nat) (h : ∀ x ∈ g, 11 ≤ x) (hlen : BITRATE_DETECT_STOP ≤ g.length) :
    165 ≤ trustedSum g := by
  have h20 : BITRATE_DETECT_STOP = 20 := rfl
  have h5 : BITRATE_DETECT_START = 5 := rfl
  unfold trustedSum
  rw [h20] at hlen
  rw [h20, h5]
  have hterm : ∀ k ∈ Finset.range (20 - 5), (11 : Int) ≤ ((g.getD (5 + k) 0 : Nat) : Int) := by
    intro k hk
    have hk2 := Finset.mem_range.mp hk
    have hlt : 5 + k < g.length := by omega
    rw [List.getD_eq_getElem?_getD, List.getElem?_eq_getElem hlt, Option.getD_some]
    exact_mod_cast h _ (List.getElem_mem _)
  have := Finset.sum_le_sum hterm
  simpa using this

theorem trustedSum_const (g : List Nat) (V : Nat)
    (h : ∀ i, BITRATE_DETECT_START ≤ i → i < BITRATE_DETECT_STOP → g.getD i 0 = V) :
    trustedSum g = 15 * (V : Int) := by
  have h20 : BITRATE_DETECT_STOP = 20 := rfl
  have h5 : BITRATE_DETECT_START = 5 := rfl
  unfold trustedSum
  rw [h20, h5] at h
  rw [h20, h5]
  have hterm : ∀ k ∈ Finset.range (20 - 5), ((g.getD (5 + k) 0 : Nat) : Int) = (V : Int) := by
    intro k hk
    have hk2 := Finset.mem_range.mp hk
    rw [h (5 + k) (by omega) (by omega)]
  rw [Finset.sum_congr rfl hterm]
  simp

/-- In auto-detect mode, outside BitrateDetect: at least 21 changes have been seen, and the
bitrate is the one computed by line 427 from the sum of the intervals 5..19. -/
theorem reached_detected (d : Int) (hd : d ≠ 0) (blocks : List (List Nat)) (buffer : List Nat)
    (k : Nat) (hs : (reached d blocks buffer k).state ≠ STATE_BITRATE) :
    BITRATE_DETECT_STOP < (sessionIntervals blocks buffer k).length ∧
      (reached d blocks buffer k).bitrate =
        roundQuotient32 (trustedSum (sessionIntervals blocks buffer k)) 15 := by
  have hinv := reached_DetectInv d hd blocks buffer k
  have hlen : BITRATE_DETECT_STOP < (sessionIntervals blocks buffer k).length := by
    rw [sessionIntervals, gapsBetween_length]
    by_contra hc
    exact hs (hinv.detecting (by omega)).1
  refine ⟨hlen, ?_⟩
  rw [sessionIntervals, gapsBetween_length] at hlen
  rw [(hinv.detected hlen).2.1]
  rfl

/-- The bitrate is 27 in fixed mode and at least 11 in auto-detect mode, outside
BitrateDetect. -/
theorem reached_bitrate (d : Int) (blocks : List (List Nat)) (buffer : List Nat) (k : Nat)
    (hs : (reached d blocks buffer k).state ≠ STATE_BITRATE) :
    (d = 0 → (reached d blocks buffer k).bitrate = 27) ∧
      (d ≠ 0 → 11 ≤ (reached d blocks buffer k).bitrate) := by
  refine ⟨fun h0 => ?_, fun hd => ?_⟩
  · obtain ⟨-, t2, t3⟩ := reached_tuned d blocks buffer k
    exact t2 (t3.trans h0)
  · obtain ⟨hlen, hb⟩ := reached_detected d hd blocks buffer k hs
    rw [hb]
    exact roundQuotient32_ge _ (trustedSum_ge _ (sessionIntervals_ge blocks buffer k) (by omega))

/-! ## The previous debounced sub-bit -/

theorem detectStep_mode (s : Decoder) (e : Int) :
    (detectStep s e).detect_bitrate = s.detect_bitrate := by
  by_cases hs : s.state = STATE_BITRATE
  · rw [detectStep, if_pos hs, bitrateDetection]
    split_ifs <;> rfl
  · exact (detectStep_keeps s e hs).2.2.2.2

theorem detectStep_fixed_state (s : Decoder) (e : Int) (h0 : s.detect_bitrate = 0) :
    (detectStep s e).state ≠ STATE_BITRATE := by
  by_cases hs : s.state = STATE_BITRATE
  · rw [detectStep, if_pos hs, bitrateDetection, if_pos h0]
    exact (show STATE_FRAME ≠ STATE_BITRATE by decide)
  · exact (detectStep_keeps s e hs).1

/-- After a gap `sub_bit_old` is the debounced sub-bit of the gap, except after the gap
that leaves BitrateDetect in fixed mode, which leaves `sub_bit_old` alone. -/
theorem detectStep_sub_bit_old (s : Decoder) (e : Int)
    (h : s.state = STATE_BITRATE → s.detect_bitrate = 0 → s.sub_bit_old = e) :
    (detectStep s e).sub_bit_old = e := by
  by_cases hs : s.state = STATE_BITRATE
  · rw [detectStep, if_pos hs, bitrateDetection]
    split_ifs with h1 h2 h3
    · exact h hs h1
    · rfl
    · rfl
    · exact (not_not.mp h2).symm
  · rw [detectStep, if_neg hs, tick_frameStep, withTiming_sub_bit_old, bitDetection]
    split_ifs with h1 h2
    · rfl
    · rfl
    · exact (not_not.mp h1).symm

theorem head_snoc (es : List Int) (e : Int) (h : ∀ x ∈ (es ++ [e]).head?, x = 0) :
    (∀ x ∈ es.head?, x = 0) ∧ (es = [] → e = 0) := by
  cases es with
  | nil => exact ⟨fun x hx => by simp at hx, fun _ => h e rfl⟩
  | cons y ys => exact ⟨h, fun hc => by simp at hc⟩

/-- Along the debounced sub-bits of a session, which start with 0, `sub_bit_old` is the
debounced sub-bit of the last gap. -/
theorem foldl_sub_bit_old (d : Int) (es : List Int) (hhead : ∀ x ∈ es.head?, x = 0) :
    (es.foldl detectStep (init d)).sub_bit_old = lastOr 0 es ∧
      (es.foldl detectStep (init d)).detect_bitrate = d ∧
      (d = 0 → es ≠ [] → (es.foldl detectStep (init d)).state ≠ STATE_BITRATE) := by
  induction es using List.reverseRecOn with
  | nil => exact ⟨rfl, rfl, fun _ h => absurd rfl h⟩
  | append_singleton es e ih =>
    obtain ⟨hh, he⟩ := head_snoc es e hhead
    obtain ⟨i1, i2, i3⟩ := ih hh
    rw [List.foldl_append, List.foldl_cons, List.foldl_nil, lastOr_snoc]
    refine ⟨?_, (detectStep_mode _ e).trans i2, fun h0 _ => ?_⟩
    · apply detectStep_sub_bit_old
      intro hs hd
      have hd0 : d = 0 := i2.symm.trans hd
      have hnil : es = [] := by
        by_contra hne
        exact i3 hd0 hne hs
      rw [i1, hnil, he hnil]
      rfl
    · exact detectStep_fixed_state _ e (i2.trans h0)

theorem sessionEffectives_head (blocks : List (List Nat)) (buffer : List Nat) (k : Nat) :
    ∀ x ∈ (sessionEffectives blocks buffer k).head?, x = 0 := by
  have h := effectives_take_eleven (sessionRaws blocks buffer k) (sessionRaws_bits blocks buffer k)
  rw [← sessionEffectives] at h
  intro x hx
  cases hes : sessionEffectives blocks buffer k with
  | nil => rw [hes] at hx; simp at hx
  | cons y ys =>
    rw [hes] at hx h
    have hxy : x = y := by simpa using hx.symm
    have hlen : (sessionRaws blocks buffer k).length = (y :: ys).length := by
      rw [← hes, sessionEffectives, effectives_length]
    rw [hlen, List.length_cons, List.take_succ_cons] at h
    have h11 : min 11 (ys.length + 1) = min 10 ys.length + 1 := by omega
    rw [h11, List.replicate_succ] at h
    rw [hxy]
    exact (List.cons.inj h).1

/-- In every state of a session, `sub_bit_old` is the debounced sub-bit of the last gap
processed (0 before the first gap). -/
theorem reached_sub_bit_old (d : Int) (blocks : List (List Nat)) (buffer : List Nat) (k : Nat) :
    (reached d blocks buffer k).sub_bit_old = lastOr 0 (sessionEffectives blocks buffer k) := by
  rw [reached_eq_detection]
  exact (foldl_sub_bit_old d _ (sessionEffectives_head blocks buffer k)).1

/-! ## Sessions on synthetic lines, in either mode -/

theorem blockRaws_gapSamples (a b c d : Int) (ha : a = 0 ∨ a = 1) (hb : b = 0 ∨ b = 1)
    (hc : c = 0 ∨ c = 1) (hd : d = 0 ∨ d = 1) :
    blockRaws (gapSamples a ++ gapSamples b ++ gapSamples c ++ gapSamples d) n_gaps_per_bit =
      [a, b, c, d] := by
  obtain ⟨h0, h1, h2, h3⟩ := computeGap_gapSamples a b c d ha hb hc hd
  have hr : List.range n_gaps_per_bit = [0, 1, 2, 3] := by decide
  simp only [blockRaws, hr, List.map_cons, List.map_nil, h0, h1, h2, h3]

/-- The raw sub-bits read from the blocks of `blocksOf` are the ones they were made from. -/
theorem flatMap_blockRaws_blocksOf (raws : List Int) (h01 : ∀ x ∈ raws, x = 0 ∨ x = 1)
    (hlen : raws.length % 4 = 0) :
    (blocksOf raws).flatMap (fun b => blockRaws b n_gaps_per_bit) = raws := by
  induction raws using blocksOf.induct with
  | case1 a b c d rest ih =>
    have ha := h01 a (by simp)
    have hb := h01 b (by simp)
    have hc := h01 c (by simp)
    have hd := h01 d (by simp)
    have hrest : ∀ x ∈ rest, x = 0 ∨ x = 1 := fun x hx => h01 x (by simp [hx])
    have hl : rest.length % 4 = 0 := by
      simp only [List.length_cons] at hlen
      omega
    rw [blocksOf, List.flatMap_cons, blockRaws_gapSamples a b c d ha hb hc hd, ih hrest hl]
    rfl
  | case2 raws hne =>
    match raws, hne, hlen with
    | [], _, _ => rfl
    | [_], _, hlen => simp at hlen
    | [_, _], _, hlen => simp at hlen
    | [_, _, _], _, hlen => simp at hlen
    | a :: b :: c :: d :: rest, hne, _ => exact absurd rfl (hne a b c d rest)

/-- The debounced sub-bits of a session on the blocks of a signal whose runs all last at
least twelve gaps: the signal delayed by eleven gaps. -/
theorem sessionEffectives_signal (runs : List (Int × Nat)) (h12 : ∀ r ∈ runs, 12 ≤ r.2)
    (h01 : ∀ r ∈ runs, r.1 = 0 ∨ r.1 = 1) (hlen : (runs.map Prod.snd).sum % 4 = 0)
    (buffer : List Nat) :
    sessionEffectives (blocksOf (expand runs)) buffer 0 = delay 0 runs := by
  have hlen2 : (expand runs).length % 4 = 0 := by rw [length_expand]; exact hlen
  have hb : blockRaws buffer 0 = [] := rfl
  rw [sessionEffectives, sessionRaws, flatMap_blockRaws_blocksOf _ (expand_bits runs h01) hlen2,
    hb, List.append_nil]
  exact (effectives_expand runs 0 h12).1

/-- A session, in either mode, on the blocks of a signal whose runs all last at least
twelve gaps: the detection run on the signal delayed by eleven gaps. -/
theorem reached_signal (d : Int) (runs : List (Int × Nat)) (h12 : ∀ r ∈ runs, 12 ≤ r.2)
    (h01 : ∀ r ∈ runs, r.1 = 0 ∨ r.1 = 1) (hlen : (runs.map Prod.snd).sum % 4 = 0)
    (buffer : List Nat) :
    reached d (blocksOf (expand runs)) buffer 0 =
      setReg ((delay 0 runs).foldl detectStep (init d))
        ((sessionRaws (blocksOf (expand runs)) buffer 0).foldl debounce
          (List.replicate DEBOUNCING_FILTER_BUFFER_LENGTH 0)) := by
  rw [reached_eq_detection, sessionEffectives_signal runs h12 h01 hlen]

set_option maxRecDepth 1000000 in
/-- The line that alternates every 27 gaps, 24 runs, in auto-detect mode: the state is
Frame, the bitrate 27 and the tolerance 13. -/
theorem square_twenty_four :
    (reached 1 (squareBlocks 24) idleBlock 0).state = STATE_FRAME ∧
      (reached 1 (squareBlocks 24) idleBlock 0).bitrate = 27 ∧
      (reached 1 (squareBlocks 24) idleBlock 0).bitrate_tolerence = 13 := by
  have h12 : ∀ r ∈ squareWave 24 27, 12 ≤ r.2 := by decide!
  have h01 : ∀ r ∈ squareWave 24 27, r.1 = 0 ∨ r.1 = 1 := by decide!
  have hlen : ((squareWave 24 27).map Prod.snd).sum % 4 = 0 := by decide!
  have hS := reached_signal 1 (squareWave 24 27) h12 h01 hlen idleBlock
  rw [squareBlocks, hS, (setReg_fields _ _).1, (setReg_fields _ _).2.1, (setReg_fields _ _).2.2.1]
  decide!

/-! ## The intervals of a signal of alternating runs -/

theorem changeTimes_replicate_same (o : Int) (n : Nat) (xs : List Int) :
    ∀ i : Nat, changeTimes o i (List.replicate n o ++ xs) = changeTimes o (i + n) xs := by
  induction n with
  | zero => intro i; rfl
  | succ n ih =>
    intro i
    rw [List.replicate_succ, List.cons_append, changeTimes, if_neg (by simp), ih]
    congr 1
    omega

/-- The debounced signal of alternating runs of at least 12 gaps changes 11 gaps after
the start of each run, so the intervals are the lengths of the runs. -/
theorem intervals_delay (runs : List (Int × Nat)) :
    ∀ (o : Int) (i t0 : Nat), alternating o runs = true → (∀ r ∈ runs, 12 ≤ r.2) →
      gapsBetween t0 (changeTimes o i (delay o runs)) = runIntervals (i + 11 - t0) runs := by
  induction runs with
  | nil => intro o i t0 _ _; rfl
  | cons r rest ih =>
    intro o i t0 halt h12
    obtain ⟨v, d⟩ := r
    have hd : 12 ≤ d := h12 (v, d) (List.mem_cons_self _ _)
    rw [alternating, Bool.and_eq_true, decide_eq_true_eq] at halt
    have h11 : DEBOUNCING_FILTER + 1 = 11 := rfl
    have hsplit : List.replicate (d - 11) v = v :: List.replicate (d - 12) v := by
      have : d - 11 = (d - 12) + 1 := by omega
      rw [this, List.replicate_succ]
    have hi : i + 11 + 1 + (d - 12) = i + d := by omega
    have ht : i + d + 11 - (i + 11) = d := by omega
    rw [delay, h11, List.append_assoc, changeTimes_replicate_same, hsplit, List.cons_append,
      changeTimes, if_pos halt.1, changeTimes_replicate_same, hi, gapsBetween, runIntervals,
      ih v (i + d) (i + 11) halt.2 (fun r hr => h12 r (List.mem_cons_of_mem _ hr)), ht]

/-- The intervals of a session on the blocks of a signal of alternating runs. -/
theorem sessionIntervals_signal (runs : List (Int × Nat)) (halt : alternating 0 runs = true)
    (h12 : ∀ r ∈ runs, 12 ≤ r.2) (h01 : ∀ r ∈ runs, r.1 = 0 ∨ r.1 = 1)
    (hlen : (runs.map Prod.snd).sum % 4 = 0) (buffer : List Nat) :
    sessionIntervals (blocksOf (expand runs)) buffer 0 = runIntervals 11 runs := by
  rw [sessionIntervals, sessionEffectives_signal runs h12 h01 hlen,
    intervals_delay runs 0 0 0 halt h12]

theorem trustedSum_eq_sum (g : List Nat) :
    trustedSum g =
      ((List.range (BITRATE_DETECT_STOP - BITRATE_DETECT_START)).map
        (fun k => ((g.getD (BITRATE_DETECT_START + k) 0 : Nat) : Int))).sum := by
  rw [sum_map_range]
  rfl

/-- The session on the slow line, in auto-detect mode: the detection is complete, the
intervals are the lengths of the runs, and the bitrate is the one line 427 computes from
the sum of the intervals 5..19, fourteen times `d` plus `e`. -/
theorem reached_slow (d e last : Nat) (h12 : ∀ r ∈ slowWave d e last, 12 ≤ r.2)
    (hlen : ((slowWave d e last).map Prod.snd).sum % 4 = 0) :
    sessionIntervals (slowBlocks d e last) idleBlock 0 = runIntervals 11 (slowWave d e last) ∧
      (reached 1 (slowBlocks d e last) idleBlock 0).state ≠ STATE_BITRATE ∧
      (reached 1 (slowBlocks d e last) idleBlock 0).bitrate =
        roundQuotient32 (trustedSum (runIntervals 11 (slowWave d e last))) 15 := by
  have halt : alternating 0 (slowWave d e last) = true := by
    simp [slowWave, List.range, List.range.loop, alternating]
  have h01 : ∀ r ∈ slowWave d e last, r.1 = 0 ∨ r.1 = 1 := by
    intro r hr
    simp only [slowWave, List.mem_map] at hr
    obtain ⟨i, -, rfl⟩ := hr
    by_cases hi : i % 2 = 0
    · exact Or.inr (if_pos hi)
    · exact Or.inl (if_neg hi)
  have hI := sessionIntervals_signal (slowWave d e last) halt h12 h01 hlen idleBlock
  have hinv := reached_DetectInv 1 (by decide) (slowBlocks d e last) idleBlock 0
  have hcount : BITRATE_DETECT_STOP <
      (changeTimes 0 0 (sessionEffectives (slowBlocks d e last) idleBlock 0)).length := by
    rw [← gapsBetween_length _ 0, ← sessionIntervals, slowBlocks, hI]
    simp [slowWave, List.range, List.range.loop, runIntervals, BITRATE_DETECT_STOP]
  obtain ⟨hs, hb, -⟩ := hinv.detected hcount
  rw [← sessionIntervals] at hb
  rw [slowBlocks] at hb hs ⊢
  rw [hI] at hb
  exact ⟨hI, hs, hb⟩

/-! ## The claims on the bitrate detection -/

set_option maxRecDepth 1000000 in
/-- C12 as stated fails on two slow lines, in auto-detect mode.  On the first the 15
intervals at the indices 5..19 sum to 15728647: line 427 gives the bitrate 1048577, while
the mean 1048576.47 rounded to the nearest integer is 1048576.  On the second the 15
intervals all equal 4473940, and the bitrate is 4473941. -/
theorem rounded_mean_counterexample :
    ((reached 1 (slowBlocks 1048576 1048583 13) idleBlock 0).state ≠ STATE_BITRATE ∧
        trustedSum (sessionIntervals (slowBlocks 1048576 1048583 13) idleBlock 0) = 15728647 ∧
        (reached 1 (slowBlocks 1048576 1048583 13) idleBlock 0).bitrate = 1048577 ∧
        roundDiv 15728647 15 = 1048576) ∧
      ((reached 1 (slowBlocks 4473940 4473940 12) idleBlock 0).state ≠ STATE_BITRATE ∧
        (∀ i, BITRATE_DETECT_START ≤ i → i < BITRATE_DETECT_STOP →
          (sessionIntervals (slowBlocks 4473940 4473940 12) idleBlock 0).getD i 0 = 4473940) ∧
        (reached 1 (slowBlocks 4473940 4473940 12) idleBlock 0).bitrate = 4473941) := by
  obtain ⟨a1, a2, a3⟩ := reached_slow 1048576 1048583 13 (by decide!) (by decide!)
  obtain ⟨b1, b2, b3⟩ := reached_slow 4473940 4473940 12 (by decide!) (by decide!)
  have hsum : trustedSum (runIntervals 11 (slowWave 1048576 1048583 13)) = 15728647 := by
    rw [trustedSum_eq_sum]; decide!
  have hsum2 : trustedSum (runIntervals 11 (slowWave 4473940 4473940 12)) = 67109100 := by
    rw [trustedSum_eq_sum]; decide!
  refine ⟨⟨a2, ?_, ?_, by decide!⟩, b2, ?_, ?_⟩
  · rw [a1, hsum]
  · rw [a3, hsum]; decide!
  · rw [b1]
    intro i h5 h20
    have h5' : 5 ≤ i := h5
    have h20' : i < 20 := h20
    interval_cases i <;> decide!
  · rw [b3, hsum2]; decide!

/-- C12 as amended: in auto-detect mode, in every state of a session that has left
BitrateDetect, the 20 cells of the sample array hold the first 20 intervals of the session,
each the number of gaps between two consecutive changes of the debounced sub-bit (the
first one counted from the start), and the bitrate is what line 427 computes in single
precision from the sum of the intervals at the indices 5..19.  As long as this sum is
below 15 * 2^20 = 15728640, the bitrate is the sum divided by 15 and rounded to the
nearest integer, within 7/15 of the mean, and if these 15 intervals all equal V, the
bitrate is V. -/
theorem bitrate_is_rounded_mean (d : Int) (hd : d ≠ 0) (blocks : List (List Nat))
    (buffer : List Nat) (k : Nat) (hs : (reached d blocks buffer k).state ≠ STATE_BITRATE) :
    (∀ i, i < BITRATE_DETECT_STOP →
        cell (reached d blocks buffer k).bitrate_vals i =
          ((sessionIntervals blocks buffer k).getD i 0 : Nat)) ∧
      (reached d blocks buffer k).bitrate =
        roundQuotient32 (trustedSum (sessionIntervals blocks buffer k))
          (BITRATE_DETECT_STOP - BITRATE_DETECT_START) ∧
      (trustedSum (sessionIntervals blocks buffer k) < 15 * 2 ^ 20 →
        (reached d blocks buffer k).bitrate =
            roundDiv (trustedSum (sessionIntervals blocks buffer k))
              (BITRATE_DETECT_STOP - BITRATE_DETECT_START) ∧
          |15 * (reached d blocks buffer k).bitrate -
              trustedSum (sessionIntervals blocks buffer k)| ≤ 7 ∧
          ∀ V : Nat,
            (∀ i, BITRATE_DETECT_START ≤ i → i < BITRATE_DETECT_STOP →
              (sessionIntervals blocks buffer k).getD i 0 = V) →
            (reached d blocks buffer k).bitrate = V) := by
  have hinv := reached_DetectInv d hd blocks buffer k
  obtain ⟨hlen, hb⟩ := reached_detected d hd blocks buffer k hs
  have hlen2 := hlen
  rw [sessionIntervals, gapsBetween_length] at hlen2
  have hnn := trustedSum_nonneg (sessionIntervals blocks buffer k)
  have h15 : BITRATE_DETECT_STOP - BITRATE_DETECT_START = 15 := rfl
  refine ⟨fun i hi => hinv.recorded i (by omega) hi, (hinv.detected hlen2).2.1, fun hsmall => ?_⟩
  have hex := roundQuotient32_exact _ hnn hsmall
  have hval : (reached d blocks buffer k).bitrate =
      (2 * trustedSum (sessionIntervals blocks buffer k) + 15) / 30 := by
    rw [hb, hex, roundDiv, if_pos hnn]
    rfl
  refine ⟨by rw [h15, hb, hex], ?_, ?_⟩
  · rw [hval, abs_le]
    omega
  · intro V hV
    rw [hval, trustedSum_const _ V hV]
    omega

/-- C12 as amended, on the line that alternates every 27 gaps, in auto-detect mode: the
sum of the intervals 5..19 is 405 and the bitrate 27. -/
theorem bitrate_is_rounded_mean_witness :
    ((1 : Int) ≠ 0 ∧ (reached 1 (squareBlocks 24) idleBlock 0).state ≠ STATE_BITRATE) ∧
      (reached 1 (squareBlocks 24) idleBlock 0).bitrate =
        roundQuotient32 (trustedSum (sessionIntervals (squareBlocks 24) idleBlock 0))
          (BITRATE_DETECT_STOP - BITRATE_DETECT_START) ∧
      (reached 1 (squareBlocks 24) idleBlock 0).bitrate = 27 := by
  have h : (reached 1 (squareBlocks 24) idleBlock 0).state ≠ STATE_BITRATE := by
    rw [square_twenty_four.1]; decide
  exact ⟨⟨by decide, h⟩,
    (bitrate_is_rounded_mean 1 (by decide) (squareBlocks 24) idleBlock 0 h).2.1,
    square_twenty_four.2.1⟩

/-- C13 as stated fails on the line that alternates every 27 gaps, in auto-detect mode:
the bitrate detected is 27 and the tolerance is 13, while 27 x 0.5 = 13.5 rounded to the
nearest integer is 14. -/
theorem tolerance_rounding_counterexample :
    (reached 1 (squareBlocks 24) idleBlock 0).state ≠ STATE_BITRATE ∧
      (reached 1 (squareBlocks 24) idleBlock 0).bitrate = 27 ∧
      (reached 1 (squareBlocks 24) idleBlock 0).bitrate_tolerence = 13 ∧
      roundDiv 27 2 = 14 ∧
      (reached 1 (squareBlocks 24) idleBlock 0).bitrate_tolerence ≠
        roundDiv (reached 1 (squareBlocks 24) idleBlock 0).bitrate 2 := by
  obtain ⟨h1, h2, h3⟩ := square_twenty_four
  rw [h1, h2, h3]
  decide

/-- C13 as amended: in every state of a session that has left BitrateDetect, in either
mode, the tolerance is the half of the bitrate truncated to an integer (line 428 converts
the product to `int`), that is, the bitrate being positive, its half rounded down: it
equals the half rounded to the nearest integer exactly when the bitrate is even. -/
theorem tolerance_is_truncated_half (d : Int) (blocks : List (List Nat)) (buffer : List Nat)
    (k : Nat) (hs : (reached d blocks buffer k).state ≠ STATE_BITRATE) :
    (reached d blocks buffer k).bitrate_tolerence = halfTrunc (reached d blocks buffer k).bitrate ∧
      (reached d blocks buffer k).bitrate_tolerence = (reached d blocks buffer k).bitrate / 2 ∧
      ((reached d blocks buffer k).bitrate_tolerence =
          roundDiv (reached d blocks buffer k).bitrate 2 ↔
        (reached d blocks buffer k).bitrate % 2 = 0) := by
  have ht := (reached_tuned d blocks buffer k).1 hs
  obtain ⟨b0, b1⟩ := reached_bitrate d blocks buffer k hs
  have hpos : 0 < (reached d blocks buffer k).bitrate := by
    by_cases hd : d = 0
    · rw [b0 hd]; decide
    · have := b1 hd; omega
  generalize (reached d blocks buffer k).bitrate = b at *
  generalize (reached d blocks buffer k).bitrate_tolerence = t at *
  have hh : halfTrunc b = b / 2 := by
    unfold halfTrunc
    exact Int.tdiv_eq_ediv (by omega) (by decide)
  refine ⟨ht, by rw [ht, hh], ?_⟩
  rw [ht, hh, roundDiv, if_pos (by omega)]
  push_cast
  omega

/-- C13 as amended, on the line that alternates every 27 gaps, in auto-detect mode. -/
theorem tolerance_is_truncated_half_witness :
    (reached 1 (squareBlocks 24) idleBlock 0).state ≠ STATE_BITRATE ∧
      (reached 1 (squareBlocks 24) idleBlock 0).bitrate_tolerence =
        halfTrunc (reached 1 (squareBlocks 24) idleBlock 0).bitrate := by
  have h : (reached 1 (squareBlocks 24) idleBlock 0).state ≠ STATE_BITRATE := by
    rw [square_twenty_four.1]; decide
  exact ⟨h, (tolerance_is_truncated_half 1 (squareBlocks 24) idleBlock 0 h).1⟩

set_option maxRecDepth 1000000 in
/-- C15 as stated fails on the line that alternates every 27 gaps, 20 runs, in auto-detect
mode: after its 540 gaps the debounced sub-bit has changed 20 times and the sample array
is full (`bitrate_n` = 20), yet the state is still BitrateDetect. -/
theorem leaves_detection_counterexample :
    (changeTimes 0 0 (sessionEffectives (squareBlocks 20) idleBlock 0)).length = 20 ∧
      (reached 1 (squareBlocks 20) idleBlock 0).bitrate_n = BITRATE_DETECT_STOP ∧
      (reached 1 (squareBlocks 20) idleBlock 0).state = STATE_BITRATE := by
  have h12 : ∀ r ∈ squareWave 20 27, 12 ≤ r.2 := by decide!
  have h01 : ∀ r ∈ squareWave 20 27, r.1 = 0 ∨ r.1 = 1 := by decide!
  have hlen : ((squareWave 20 27).map Prod.snd).sum % 4 = 0 := by decide!
  have hS := reached_signal 1 (squareWave 20 27) h12 h01 hlen idleBlock
  have hE := sessionEffectives_signal (squareWave 20 27) h12 h01 hlen idleBlock
  rw [squareBlocks, hE, hS, (setReg_fields _ _).1, (setReg_fields _ _).2.2.2.2.1]
  decide!

/-- C15 as amended: in auto-detect mode, a state of a session is BitrateDetect exactly
when the debounced sub-bit has changed at most 20 times in the gaps processed so far, and
`bitrate_n` then counts these changes.  The gap after which the state is no longer
BitrateDetect is the gap of the 21st change, the first change after the sample array is
full: the state it enters is Frame, and the sample array and `bitrate_n` are left as they
were, so the interval that ends at this change is not recorded.  After every earlier gap
the state is still BitrateDetect. -/
theorem leaves_detection_at_next_change (d : Int) (hd : d ≠ 0) (blocks : List (List Nat))
    (buffer : List Nat) (k : Nat) :
    ((reached d blocks buffer k).state = STATE_BITRATE ↔
        (changeTimes 0 0 (sessionEffectives blocks buffer k)).length ≤ BITRATE_DETECT_STOP) ∧
      ((changeTimes 0 0 (sessionEffectives blocks buffer k)).length ≤ BITRATE_DETECT_STOP →
        (reached d blocks buffer k).bitrate_n =
          (changeTimes 0 0 (sessionEffectives blocks buffer k)).length) ∧
      ((reached d blocks buffer k).state = STATE_BITRATE →
        (reached d blocks buffer (k + 1)).state ≠ STATE_BITRATE →
        (changeTimes 0 0 (sessionEffectives blocks buffer k)).length = BITRATE_DETECT_STOP ∧
          (changeTimes 0 0 (sessionEffectives blocks buffer (k + 1))).length =
            BITRATE_DETECT_STOP + 1 ∧
          (reached d blocks buffer (k + 1)).state = STATE_FRAME ∧
          (reached d blocks buffer (k + 1)).bitrate_vals =
            (reached d blocks buffer k).bitrate_vals ∧
          (reached d blocks buffer (k + 1)).bitrate_n = BITRATE_DETECT_STOP) := by
  have hinv := reached_DetectInv d hd blocks buffer k
  have hinv2 := reached_DetectInv d hd blocks buffer (k + 1)
  have hiff : (reached d blocks buffer k).state = STATE_BITRATE ↔
      (changeTimes 0 0 (sessionEffectives blocks buffer k)).length ≤ BITRATE_DETECT_STOP := by
    refine ⟨fun h => ?_, fun h => (hinv.detecting h).1⟩
    by_contra hc
    exact (hinv.detected (by omega)).1 h
  refine ⟨hiff, fun h => (hinv.detecting h).2.1, fun hk hk1 => ?_⟩
  have hle := hiff.mp hk
  have hgt : BITRATE_DETECT_STOP <
      (changeTimes 0 0 (sessionEffectives blocks buffer (k + 1))).length := by
    by_contra hc
    exact hk1 (hinv2.detecting (by omega)).1
  have hn := (hinv.detecting hle).2.1
  have hstep := sessionEffectives_succ blocks buffer k
  rw [hstep] at hgt ⊢
  have hsnoc := changeTimes_snoc (sessionEffectives blocks buffer k)
    (effective (debounce ((sessionRaws blocks buffer k).foldl debounce
      (List.replicate DEBOUNCING_FILTER_BUFFER_LENGTH 0)) (computeGap (computeAverages buffer k))))
    0 0
  rw [hsnoc] at hgt ⊢
  have hboth : (changeTimes 0 0 (sessionEffectives blocks buffer k)).length = BITRATE_DETECT_STOP ∧
      (changeTimes 0 0 (sessionEffectives blocks buffer k) ++
        if effective (debounce ((sessionRaws blocks buffer k).foldl debounce
            (List.replicate DEBOUNCING_FILTER_BUFFER_LENGTH 0))
            (computeGap (computeAverages buffer k))) ≠
            lastOr 0 (sessionEffectives blocks buffer k)
          then [0 + (sessionEffectives blocks buffer k).length] else []).length =
        BITRATE_DETECT_STOP + 1 := by
    by_cases hc : effective (debounce ((sessionRaws blocks buffer k).foldl debounce
        (List.replicate DEBOUNCING_FILTER_BUFFER_LENGTH 0))
        (computeGap (computeAverages buffer k))) ≠ lastOr 0 (sessionEffectives blocks buffer k)
    · rw [if_pos hc, List.length_append, List.length_singleton] at hgt ⊢
      omega
    · rw [if_neg hc, List.append_nil] at hgt
      omega
  obtain ⟨hlen1, hlen2⟩ := hboth
  rw [hlen1] at hn
  refine ⟨hlen1, hlen2, ?_⟩
  rw [reached_succ] at hk1 ⊢
  generalize reached d blocks buffer k = s at hk hk1 hn ⊢
  generalize computeGap (computeAverages buffer k) = raw at hk1 ⊢
  rw [subBitStep_bitrate s raw hk] at hk1 ⊢
  generalize effective (debounce s.sub_bit_buffer raw) = e at hk1 ⊢
  generalize debounce s.sub_bit_buffer raw = r at hk1 ⊢
  have hst : (bitrateDetection s e).state ≠ STATE_BITRATE := hk1
  obtain ⟨-, -, hor⟩ := bitrateDetection_buffer s e
  have hvals : (bitrateDetection s e).bitrate_vals = s.bitrate_vals ∧
      (bitrateDetection s e).bitrate_n = s.bitrate_n := by
    unfold bitrateDetection
    split_ifs with h1 h2 h3
    · exact ⟨rfl, rfl⟩
    · rw [hn] at h3
      exact absurd h3 (lt_irrefl _)
    · exact ⟨rfl, rfl⟩
    · exact ⟨rfl, rfl⟩
  refine ⟨?_, hvals.1, hvals.2.trans hn⟩
  rcases hor with h | h
  · exact absurd (h.trans hk) hst
  · exact h

/-- C15 as amended, on the line that alternates every 27 gaps, 20 runs: after its 540
gaps the state is BitrateDetect and the debounced sub-bit has changed 20 times. -/
theorem leaves_detection_at_next_change_witness :
    (1 : Int) ≠ 0 ∧
      ((reached 1 (squareBlocks 20) idleBlock 0).state = STATE_BITRATE ↔
        (changeTimes 0 0 (sessionEffectives (squareBlocks 20) idleBlock 0)).length ≤
          BITRATE_DETECT_STOP) :=
  ⟨by decide, (leaves_detection_at_next_change 1 (by decide) (squareBlocks 20) idleBlock 0).1⟩

/-- C17: in every state of a session that has left BitrateDetect, the bitrate is a
positive integer: 27 in fixed mode, and at least D + 1 = 11 in auto-detect mode, whatever
the samples, the single-precision rounding of line 427 included. -/
theorem bitrate_positive (d : Int) (blocks : List (List Nat)) (buffer : List Nat) (k : Nat)
    (hs : (reached d blocks buffer k).state ≠ STATE_BITRATE) :
    0 < (reached d blocks buffer k).bitrate ∧
      (d = 0 → (reached d blocks buffer k).bitrate = DEFAULT_BITRATE) ∧
      (d ≠ 0 → (DEBOUNCING_FILTER : Int) + 1 ≤ (reached d blocks buffer k).bitrate) := by
  obtain ⟨b0, b1⟩ := reached_bitrate d blocks buffer k hs
  have hD : (DEBOUNCING_FILTER : Int) + 1 = 11 := rfl
  rw [hD]
  refine ⟨?_, b0, b1⟩
  by_cases hd : d = 0
  · rw [b0 hd]; decide
  · have := b1 hd; omega

/-- C17 on the line that alternates every 27 gaps, in auto-detect mode. -/
theorem bitrate_positive_witness :
    (reached 1 (squareBlocks 24) idleBlock 0).state ≠ STATE_BITRATE ∧
      0 < (reached 1 (squareBlocks 24) idleBlock 0).bitrate := by
  have h : (reached 1 (squareBlocks 24) idleBlock 0).state ≠ STATE_BITRATE := by
    rw [square_twenty_four.1]; decide
  exact ⟨h, (bitrate_positive 1 (squareBlocks 24) idleBlock 0 h).1⟩

/-- C14: in every state `s` of a session that is Frame or Interframe, at the next gap, with
`e` the debounced sub-bit of the gap: `sub_bit_old` is the debounced sub-bit of the gap
before; if `e` differs from it, a bit of value `e` is detected and `n_same` is 1 after the
gap; otherwise, if `n_same` exceeds bitrate + tolerance, a bit of value `e` is detected and
`n_same` is tolerance + 1 after the gap; otherwise no bit is detected and `n_same` is one
more after the gap. -/
theorem bit_detection_rule (d : Int) (blocks : List (List Nat)) (buffer : List Nat) (k : Nat)
    (s : Decoder) (raw e : Int) (hs : s = reached d blocks buffer k)
    (hraw : raw = computeGap (computeAverages buffer k))
    (he : e = effective (debounce s.sub_bit_buffer raw))
    (hstate : s.state = STATE_FRAME ∨ s.state = STATE_INTERFRAME) :
    s.sub_bit_old = lastOr 0 (sessionEffectives blocks buffer k) ∧
      (e ≠ s.sub_bit_old →
        detectedBit s raw = some e ∧ (reached d blocks buffer (k + 1)).n_same = 1) ∧
      (e = s.sub_bit_old → s.n_same > s.bitrate + s.bitrate_tolerence →
        detectedBit s raw = some e ∧
          (reached d blocks buffer (k + 1)).n_same = s.bitrate_tolerence + 1) ∧
      (e = s.sub_bit_old → ¬ s.n_same > s.bitrate + s.bitrate_tolerence →
        detectedBit s raw = none ∧
          (reached d blocks buffer (k + 1)).n_same = s.n_same + 1) := by
  have hnext : reached d blocks buffer (k + 1) = subBitStep s raw := by
    rw [reached_succ, ← hs, ← hraw]
  have hinv : BitsInv s := by rw [hs]; exact reached_BitsInv d blocks buffer k
  have hrawbit : raw = 0 ∨ raw = 1 := by rw [hraw]; exact computeGap_bit _
  have hne : s.state ≠ STATE_BITRATE := by
    rcases hstate with h | h <;> rw [h] <;> decide
  have hd := debounce_bits s.sub_bit_buffer raw hinv.reg_length hrawbit hinv.reg_bits
  have hebit : e = 0 ∨ e = 1 := by rw [he]; exact effective_bit _ hd.1 hd.2
  have he0 : e ≥ 0 := by omega
  obtain ⟨c1, c2, c3⟩ := bitDetection_cases s e
  have hold : s.sub_bit_old = lastOr 0 (sessionEffectives blocks buffer k) := by
    rw [hs]; exact reached_sub_bit_old d blocks buffer k
  rw [hnext, frame_n_same s raw hne, detectedBit_of_bit s raw hne, ← he]
  refine ⟨hold, fun h => ?_, fun h1 h2 => ?_, fun h1 h2 => ?_⟩
  · obtain ⟨b, n⟩ := c1 h
    rw [b, n, if_pos he0]
    exact ⟨rfl, rfl⟩
  · obtain ⟨b, n⟩ := c2 h1 h2
    rw [b, n, if_pos he0]
    exact ⟨rfl, rfl⟩
  · obtain ⟨b, n⟩ := c3 h1 h2
    rw [b, n, if_neg (by decide)]
    exact ⟨rfl, rfl⟩

set_option maxRecDepth 1000000 in
/-- C14, at a gap of the line of `hiPrefix` that idles at 1 in the state Interframe with
`n_same` = 41 > 27 + 13: a bit 1 is detected and `n_same` is 14 after the gap. -/
theorem bit_detection_rule_witness :
    ((reached 0 (hiPrefix 14 1364) idleBlock 0).state = STATE_FRAME ∨
        (reached 0 (hiPrefix 14 1364) idleBlock 0).state = STATE_INTERFRAME) ∧
      (reached 0 (hiPrefix 14 1364) idleBlock 0).n_same = 41 ∧
      (reached 0 (hiPrefix 14 1364) idleBlock 0).bitrate_tolerence = 13 ∧
      detectedBit (reached 0 (hiPrefix 14 1364) idleBlock 0)
          (computeGap (computeAverages idleBlock 0)) =
        some (effective (debounce (reached 0 (hiPrefix 14 1364) idleBlock 0).sub_bit_buffer
          (computeGap (computeAverages idleBlock 0)))) ∧
      (reached 0 (hiPrefix 14 1364) idleBlock (0 + 1)).n_same =
        (reached 0 (hiPrefix 14 1364) idleBlock 0).bitrate_tolerence + 1 := by
  have hS := session_hiPrefix 14 1364 (by decide!) (by decide!) (by decide!) (by decide!)
  have h1 : (reached 0 (hiPrefix 14 1364) idleBlock 0).state = STATE_INTERFRAME := by
    rw [hS, view_state]; decide!
  have h2 : (reached 0 (hiPrefix 14 1364) idleBlock 0).n_same = 41 := by
    rw [hS, view_n_same]; decide!
  have h3 : (reached 0 (hiPrefix 14 1364) idleBlock 0).bitrate_tolerence = 13 := by
    rw [hS]; decide!
  have h4 : effective (debounce (reached 0 (hiPrefix 14 1364) idleBlock 0).sub_bit_buffer
        (computeGap (computeAverages idleBlock 0))) =
      (reached 0 (hiPrefix 14 1364) idleBlock 0).sub_bit_old := by
    rw [hS, idleBlock_gap]; decide!
  have h5 : (reached 0 (hiPrefix 14 1364) idleBlock 0).n_same >
      (reached 0 (hiPrefix 14 1364) idleBlock 0).bitrate +
        (reached 0 (hiPrefix 14 1364) idleBlock 0).bitrate_tolerence := by
    rw [hS]; decide!
  exact ⟨Or.inr h1, h2, h3,
    (bit_detection_rule 0 (hiPrefix 14 1364) idleBlock 0 _ _ _ rfl rfl rfl (Or.inr h1)).2.2.1 h4 h5⟩

/-- C19: in every state `s` of a session (so after every gap), the bit buffer has its 12
slots, so no store went past them, and holds between 0 and 11 bits, so the next store is
within the slots; in the state Interframe it is empty.  The next gap, when it detects a
bit in the state Frame, is the run of lines 472-543 (`addBit`) on that bit: with 11 bits
held the bit is stored in slot 11, the count is reset, and the byte read from the full
buffer is decoded and handled (`onByte` on `decodeByte` of the buffer); with fewer bits
held the bit is stored and counted and no byte is decoded.  A gap that detects no bit, or
detects one outside the state Frame, leaves the bit buffer, its count and the message
variables alone.  So a byte is decoded exactly at the gaps where the twelfth bit is
appended, and after a gap the count of bits held is 0 if a byte was decoded, one more if
a bit was appended without completing a byte, and unchanged otherwise. -/
theorem bit_buffer_bounds (d : Int) (blocks : List (List Nat)) (buffer : List Nat) (k : Nat)
    (s : Decoder) (raw : Int) (hs : s = reached d blocks buffer k)
    (hraw : raw = computeGap (computeAverages buffer k)) :
    s.bit_buffer.length = BIT_BUFFER_LENGTH ∧ s.bit_buffer_n ≤ 11 ∧
      s.bit_buffer_n < s.bit_buffer.length ∧
      (s.state = STATE_INTERFRAME → s.bit_buffer_n = 0) ∧
      ((decodedByte s raw).isSome = true ↔
        (detectedBit s raw).isSome = true ∧ s.state = STATE_FRAME ∧ s.bit_buffer_n = 11) ∧
      (reached d blocks buffer (k + 1)).bit_buffer_n =
        (if (detectedBit s raw).isSome = true ∧ s.state = STATE_FRAME then
          (if s.bit_buffer_n = 11 then 0 else s.bit_buffer_n + 1)
        else s.bit_buffer_n) ∧
      (∀ bit, detectedBit s raw = some bit → s.state = STATE_FRAME →
        reached d blocks buffer (k + 1) =
            setReg
              (withTiming (addBit s bit)
                ((bitDetection s (effective (debounce s.sub_bit_buffer raw))).1.n_same + 1)
                (bitDetection s (effective (debounce s.sub_bit_buffer raw))).1.sub_bit_old)
              (debounce s.sub_bit_buffer raw) ∧
          (s.bit_buffer_n = 11 →
            addBit s bit =
              onByte { s with bit_buffer := store s.bit_buffer 11 bit, bit_buffer_n := 0 }
                (decodeByte (store s.bit_buffer 11 bit))
                (decodeParity (store s.bit_buffer 11 bit))) ∧
          (s.bit_buffer_n ≠ 11 →
            addBit s bit =
              { s with
                bit_buffer := store s.bit_buffer s.bit_buffer_n bit
                bit_buffer_n := s.bit_buffer_n + 1 })) ∧
      (¬ ((detectedBit s raw).isSome = true ∧ s.state = STATE_FRAME) →
        (reached d blocks buffer (k + 1)).bit_buffer = s.bit_buffer ∧
          (reached d blocks buffer (k + 1)).bit_buffer_n = s.bit_buffer_n ∧
          (reached d blocks buffer (k + 1)).printed = s.printed ∧
          (reached d blocks buffer (k + 1)).msg_buffer = s.msg_buffer ∧
          (reached d blocks buffer (k + 1)).msg_buffer_n = s.msg_buffer_n ∧
          (reached d blocks buffer (k + 1)).msg_n = s.msg_n ∧
          (reached d blocks buffer (k + 1)).first_interframe_detected =
            s.first_interframe_detected) := by
  have hnext : reached d blocks buffer (k + 1) = subBitStep s raw := by
    rw [reached_succ, ← hs, ← hraw]
  have hinv : BufInv s := by rw [hs]; exact reached_BufInv d blocks buffer k
  have h12 : BIT_BUFFER_LENGTH = 12 := rfl
  have hc := hinv.count
  have hl := hinv.slots
  have h11 : s.bit_buffer_n + 1 = BIT_BUFFER_LENGTH ↔ s.bit_buffer_n = 11 := by
    rw [h12]; omega
  rw [h12] at hc
  refine ⟨hl, by omega, by rw [hl, h12]; omega, hinv.interframe, ?_, ?_, ?_, ?_⟩
  · rw [decodedByte_isSome, h11]
  · rw [hnext, subBitStep_bit_buffer_n s raw hinv]
    simp only [h11]
  · intro bit hbit hf
    refine ⟨by rw [hnext]; exact subBitStep_append s raw bit hbit hf, fun hn => ?_, fun hn => ?_⟩
    · have := addBit_full s bit (h11.mpr hn)
      rw [hn] at this
      exact this
    · exact addBit_not_full s bit (fun hc => hn (h11.mp hc))
  · intro hno
    rw [hnext]
    exact subBitStep_no_append s raw hno

set_option maxRecDepth 1000000 in
/-- C19, at the gap of the line of `hiPrefix` that appends the twelfth bit of the second
byte 0xFF: 11 bits are held before the gap, a byte is decoded, none is held after. -/
theorem bit_buffer_bounds_witness :
    (reached 0 (hiPrefix 14 1336) idleBlock 0).bit_buffer_n = 11 ∧
      (decodedByte (reached 0 (hiPrefix 14 1336) idleBlock 0)
        (computeGap (computeAverages idleBlock 0))).isSome = true ∧
      (reached 0 (hiPrefix 14 1336) idleBlock (0 + 1)).bit_buffer_n = 0 := by
  have hS := session_hiPrefix 14 1336 (by decide!) (by decide!) (by decide!) (by decide!)
  have h1 : (reached 0 (hiPrefix 14 1336) idleBlock 0).bit_buffer_n = 11 := by
    rw [hS, view_bit_buffer_n]; decide!
  have h2 : (detectedBit (reached 0 (hiPrefix 14 1336) idleBlock 0)
        (computeGap (computeAverages idleBlock 0))).isSome = true ∧
      (reached 0 (hiPrefix 14 1336) idleBlock 0).state = STATE_FRAME := by
    rw [hS, idleBlock_gap]; decide!
  have h := bit_buffer_bounds 0 (hiPrefix 14 1336) idleBlock 0 _ _ rfl rfl
  refine ⟨h1, h.2.2.2.2.1.mpr ⟨h2.1, h2.2, h1⟩, ?_⟩
  rw [h.2.2.2.2.2.1, if_pos h2, if_pos h1]

/-! ## The bits inferred by timeout on a constant debounced sub-bit -/

theorem setReg_timing (s : Decoder) (r : List Int) :
    (setReg s r).n_same = s.n_same ∧ (setReg s r).sub_bit_old = s.sub_bit_old :=
  ⟨rfl, rfl⟩

/-- Outside BitrateDetect, a gap whose debounced sub-bit differs from the previous one. -/
theorem detectStep_change (u : Decoder) (e : Int) (hs : u.state ≠ STATE_BITRATE) (he : 0 ≤ e)
    (hch : e ≠ u.sub_bit_old) :
    (detectStep u e).sub_bit_old = e ∧ (detectStep u e).n_same = 1 := by
  rw [detectStep_frame u e hs he, if_pos hch]
  exact ⟨rfl, rfl⟩

/-- Outside BitrateDetect, a gap whose debounced sub-bit is the previous one. -/
theorem detectStep_same (u : Decoder) (e : Int) (hs : u.state ≠ STATE_BITRATE) (he : 0 ≤ e)
    (hold : u.sub_bit_old = e) :
    (detectStep u e).sub_bit_old = e ∧
      (detectStep u e).n_same =
        (if u.n_same > u.bitrate + u.bitrate_tolerence then u.bitrate_tolerence + 1
        else u.n_same + 1) := by
  rw [detectStep_frame u e hs he, if_neg (not_not.mpr hold.symm)]
  split_ifs
  · exact ⟨rfl, rfl⟩
  · exact ⟨hold, rfl⟩

/-- The counter `n_same` along a constant debounced sub-bit that starts with a change:
after the gap number `j` (the change being the gap 0) it is `j + 1` up to the first
timeout, and afterwards the tolerance plus the number of gaps since the last timeout. -/
theorem foldl_constant (s : Decoder) (e : Int) (hs : s.state ≠ STATE_BITRATE) (he : 0 ≤ e)
    (hch : e ≠ s.sub_bit_old) (hB : 0 ≤ s.bitrate) (hT : 0 ≤ s.bitrate_tolerence) (j : Nat) :
    ((List.replicate (j + 1) e).foldl detectStep s).state ≠ STATE_BITRATE ∧
      ((List.replicate (j + 1) e).foldl detectStep s).bitrate = s.bitrate ∧
      ((List.replicate (j + 1) e).foldl detectStep s).bitrate_tolerence = s.bitrate_tolerence ∧
      ((List.replicate (j + 1) e).foldl detectStep s).sub_bit_old = e ∧
      ((((j : Int) + 1 ≤ s.bitrate + s.bitrate_tolerence + 1 ∧
          ((List.replicate (j + 1) e).foldl detectStep s).n_same = (j : Int) + 1)) ∨
        ∃ (k : Nat) (i : Int), 1 ≤ i ∧ i ≤ s.bitrate + 1 ∧
          (j : Int) + 1 = s.bitrate + s.bitrate_tolerence + 1 + k * (s.bitrate + 1) + i ∧
          ((List.replicate (j + 1) e).foldl detectStep s).n_same = s.bitrate_tolerence + i) := by
  induction j with
  | zero =>
    have hr : List.replicate (0 + 1) e = [e] := rfl
    rw [hr, List.foldl_cons, List.foldl_nil]
    obtain ⟨k1, k2, k3, -, -⟩ := detectStep_keeps s e hs
    obtain ⟨c1, c2⟩ := detectStep_change s e hs he hch
    refine ⟨k1, k2, k3, c1, Or.inl ⟨?_, ?_⟩⟩
    · push_cast
      omega
    · rw [c2]
      rfl
  | succ j ih =>
    rw [List.replicate_succ', List.foldl_append, List.foldl_cons, List.foldl_nil]
    generalize (List.replicate (j + 1) e).foldl detectStep s = u at ih ⊢
    obtain ⟨i1, i2, i3, i4, i5⟩ := ih
    obtain ⟨k1, k2, k3, -, -⟩ := detectStep_keeps u e i1
    obtain ⟨c1, c2⟩ := detectStep_same u e i1 he i4
    rw [i2, i3] at c2
    refine ⟨k1, k2.trans i2, k3.trans i3, c1, ?_⟩
    rw [c2]
    push_cast
    rcases i5 with ⟨h1, h2⟩ | ⟨k, i, h1, h2, h3, h4⟩
    · rw [h2]
      by_cases hto : (j : Int) + 1 > s.bitrate + s.bitrate_tolerence
      · rw [if_pos hto]
        refine Or.inr ⟨0, 1, le_refl _, by omega, ?_, rfl⟩
        push_cast
        omega
      · rw [if_neg hto]
        exact Or.inl ⟨by omega, rfl⟩
    · rw [h4]
      by_cases hto : s.bitrate_tolerence + i > s.bitrate + s.bitrate_tolerence
      · rw [if_pos hto]
        have hi : i = s.bitrate + 1 := by omega
        refine Or.inr ⟨k + 1, 1, le_refl _, by omega, ?_, rfl⟩
        push_cast
        rw [h3, hi]
        ring
      · rw [if_neg hto]
        refine Or.inr ⟨k, i + 1, by omega, by omega, ?_, by ring⟩
        rw [h3]
        ring

/-- The test of the timeout, from the shape of the counter: it holds exactly at the gaps
`B + T + 1 + k (B + 1)` after the change. -/
theorem timeout_iff (B T j n : Int) (hB : 0 ≤ B)
    (h : (j ≤ B + T + 1 ∧ n = j) ∨
      ∃ (k : Nat) (i : Int), 1 ≤ i ∧ i ≤ B + 1 ∧ j = B + T + 1 + k * (B + 1) + i ∧ n = T + i) :
    n > B + T ↔ ∃ k : Nat, j = B + T + 1 + k * (B + 1) := by
  constructor
  · intro hn
    rcases h with ⟨h1, h2⟩ | ⟨k, i, h1, h2, h3, h4⟩
    · refine ⟨0, ?_⟩
      push_cast
      omega
    · have hi : i = B + 1 := by omega
      refine ⟨k + 1, ?_⟩
      push_cast
      rw [h3, hi]
      ring
  · rintro ⟨m, hm⟩
    have hm0 : (0 : Int) ≤ (m : Int) := Int.ofNat_nonneg m
    rcases h with ⟨h1, h2⟩ | ⟨k, i, h1, h2, h3, h4⟩
    · have hprod : 0 ≤ (m : Int) * (B + 1) := mul_nonneg hm0 (by omega)
      omega
    · have hk0 : (0 : Int) ≤ (k : Int) := Int.ofNat_nonneg k
      have heq : ((m : Int) - k) * (B + 1) = i := by
        have : (m : Int) * (B + 1) = k * (B + 1) + i := by omega
        rw [sub_mul, this]
        ring
      have hi : i = B + 1 := by
        have hpos : 0 < B + 1 := by omega
        have hm1 : 1 ≤ (m : Int) - k := by
          by_contra hc
          have hle : (m : Int) - k ≤ 0 := by omega
          have := mul_nonpos_of_nonpos_of_nonneg hle (le_of_lt hpos)
          omega
        have hm2 : (m : Int) - k ≤ 1 := by
          by_contra hc
          have hge : 2 ≤ (m : Int) - k := by omega
          have := mul_le_mul_of_nonneg_right hge (le_of_lt hpos)
          omega
        have h1' : (m : Int) - k = 1 := by omega
        rw [h1', one_mul] at heq
        exact heq.symm
      omega

/-! ## The debounced sub-bits of a part of a run -/

theorem effectives_take (xs : List Int) :
    ∀ (reg : List Int) (j : Nat), effectives reg (xs.take j) = (effectives reg xs).take j := by
  induction xs with
  | nil => intro reg j; simp [effectives]
  | cons x xs ih =>
    intro reg j
    cases j with
    | zero => rfl
    | succ j => rw [List.take_succ_cons, effectives, effectives, List.take_succ_cons, ih]

/-- The debounced sub-bit of the gap `j` of a run on raw sub-bits. -/
theorem effectives_getD (xs : List Int) :
    ∀ (reg : List Int) (j : Nat), j < xs.length →
      (effectives reg xs).getD j 0 =
        effective (debounce ((xs.take j).foldl debounce reg) (xs.getD j 0)) := by
  induction xs with
  | nil => intro reg j hj; simp at hj
  | cons x xs ih =>
    intro reg j hj
    cases j with
    | zero =>
      rw [effectives, List.take_zero, List.foldl_nil, List.getD_cons_zero, List.getD_cons_zero]
    | succ j =>
      rw [List.length_cons] at hj
      rw [effectives, List.take_succ_cons, List.foldl_cons, List.getD_cons_succ,
        List.getD_cons_succ]
      exact ih (debounce reg x) j (by omega)

theorem runSubBits_sub_bit_buffer (s : Decoder) (raws : List Int) :
    (runSubBits s raws).sub_bit_buffer = raws.foldl debounce s.sub_bit_buffer := by
  rw [runSubBits_eq, setReg_sub_bit_buffer]

/-- The state after the first eleven gaps of a line idle at 1, in fixed mode. -/
theorem idle_eleven :
    reached 0 [idleBlock, idleBlock] idleBlock 3 = runSubBits (init 0) (List.replicate 11 1) := by
  have h4 : blockRaws idleBlock n_gaps_per_bit = [1, 1, 1, 1] :=
    blockRaws_gapSamples 1 1 1 1 (Or.inr rfl) (Or.inr rfl) (Or.inr rfl) (Or.inr rfl)
  obtain ⟨g0, g1, g2, -⟩ :=
    computeGap_gapSamples 1 1 1 1 (Or.inr rfl) (Or.inr rfl) (Or.inr rfl) (Or.inr rfl)
  have h3 : blockRaws idleBlock 3 = [1, 1, 1] := by
    have hr : List.range 3 = [0, 1, 2] := by decide
    rw [blockRaws, hr, idleBlock]
    simp only [List.map_cons, List.map_nil, g0, g1, g2]
  rw [reached_eq_runSubBits, sessionRaws, List.flatMap_cons, List.flatMap_cons, List.flatMap_nil,
    h4, h3]
  rfl

/-- C21: from a state `s` of a session that is Frame or Interframe, on gaps whose debounced
sub-bit changes to `e` at the first gap (the gap t) and then stays `e`: the decoder stays
outside BitrateDetect with the same bitrate and tolerance, the gap t detects the bit `e`,
and a later gap t + j, j >= 1, detects a bit, of value `e`, exactly when
j = (bitrate + tolerance + 1) + m (bitrate + 1) for some m = 0, 1, 2, ...; every other gap
detects none.  The gaps are those of the session continued with the raw sub-bits `raws`,
one per gap. -/
theorem timeout_bits (d : Int) (blocks : List (List Nat)) (buffer : List Nat) (k : Nat)
    (s : Decoder) (raws : List Int) (e : Int) (j : Nat)
    (hs : s = reached d blocks buffer k)
    (hstate : s.state = STATE_FRAME ∨ s.state = STATE_INTERFRAME)
    (hraws : ∀ x ∈ raws, x = 0 ∨ x = 1)
    (hconst : effectives s.sub_bit_buffer raws = List.replicate raws.length e)
    (hchange : e ≠ s.sub_bit_old)
    (hj : j < raws.length) :
    (runSubBits s (raws.take j)).state ≠ STATE_BITRATE ∧
      (runSubBits s (raws.take j)).bitrate = s.bitrate ∧
      (runSubBits s (raws.take j)).bitrate_tolerence = s.bitrate_tolerence ∧
      (j = 0 → detectedBit (runSubBits s (raws.take j)) (raws.getD j 0) = some e) ∧
      (1 ≤ j →
        (∃ m : Nat, (j : Int) = s.bitrate + s.bitrate_tolerence + 1 + m * (s.bitrate + 1)) →
        detectedBit (runSubBits s (raws.take j)) (raws.getD j 0) = some e) ∧
      (1 ≤ j →
        (¬ ∃ m : Nat, (j : Int) = s.bitrate + s.bitrate_tolerence + 1 + m * (s.bitrate + 1)) →
        detectedBit (runSubBits s (raws.take j)) (raws.getD j 0) = none) := by
  have hinv : BitsInv s := by rw [hs]; exact reached_BitsInv d blocks buffer k
  have hne : s.state ≠ STATE_BITRATE := by
    rcases hstate with h | h <;> rw [h] <;> decide
  -- the bitrate and the tolerance are not negative
  have hB : 11 ≤ s.bitrate := by
    have hne2 : (reached d blocks buffer k).state ≠ STATE_BITRATE := by rw [← hs]; exact hne
    obtain ⟨b0, b1⟩ := reached_bitrate d blocks buffer k hne2
    rw [hs]
    by_cases hd : d = 0
    · rw [b0 hd]; decide
    · exact b1 hd
  have hT : 0 ≤ s.bitrate_tolerence := by
    have hne2 : (reached d blocks buffer k).state ≠ STATE_BITRATE := by rw [← hs]; exact hne
    have ht := (reached_tuned d blocks buffer k).1 hne2
    rw [← hs] at ht
    rw [ht, halfTrunc, Int.tdiv_eq_ediv (by omega) (by decide)]
    omega
  -- the debounced sub-bit of the gap t + j is e, a bit
  have hrep : ∀ i, i < raws.length → (List.replicate raws.length e).getD i 0 = e := by
    intro i hi
    rw [List.getD_eq_getElem?_getD, List.getElem?_replicate, if_pos hi]
    rfl
  have heff : effective (debounce (runSubBits s (raws.take j)).sub_bit_buffer (raws.getD j 0)) = e := by
    rw [runSubBits_sub_bit_buffer, ← effectives_getD raws _ j hj, hconst, hrep j hj]
  have he0 : 0 ≤ e := by
    have h0 : 0 < raws.length := by omega
    have heq := effectives_getD raws s.sub_bit_buffer 0 h0
    rw [hconst, hrep 0 h0, List.take_zero, List.foldl_nil] at heq
    have hmem : raws.getD 0 0 ∈ raws := by
      cases raws with
      | nil => simp at h0
      | cons x xs => simp
    have hd := debounce_bits s.sub_bit_buffer (raws.getD 0 0) hinv.reg_length (hraws _ hmem)
      hinv.reg_bits
    rcases effective_bit _ hd.1 hd.2 with h | h <;> omega
  -- the state before the gap t + j
  have hrun : runSubBits s (raws.take j) =
      setReg ((List.replicate j e).foldl detectStep s)
        ((raws.take j).foldl debounce s.sub_bit_buffer) := by
    rw [runSubBits_eq, effectives_take, hconst, List.take_replicate, Nat.min_eq_left (by omega)]
  have hf := setReg_fields ((List.replicate j e).foldl detectStep s)
    ((raws.take j).foldl debounce s.sub_bit_buffer)
  have ht := setReg_timing ((List.replicate j e).foldl detectStep s)
    ((raws.take j).foldl debounce s.sub_bit_buffer)
  rw [← hrun] at hf ht
  generalize runSubBits s (raws.take j) = u at hf ht heff ⊢
  obtain ⟨f1, f2, f3, -, -, -⟩ := hf
  obtain ⟨t1, t2⟩ := ht
  cases j with
  | zero =>
    have hz : (List.replicate 0 e).foldl detectStep s = s := rfl
    rw [hz] at f1 f2 f3 t1 t2
    have hu : u.state ≠ STATE_BITRATE := by rw [f1]; exact hne
    refine ⟨hu, f2, f3, fun _ => ?_, fun h => absurd h (by omega), fun h => absurd h (by omega)⟩
    rw [detectedBit_of_bit u _ hu, heff]
    obtain ⟨b, -⟩ := (bitDetection_cases u e).1 (by rw [t2]; exact hchange)
    rw [b, if_pos he0]
  | succ i =>
    obtain ⟨c1, c2, c3, c4, c5⟩ := foldl_constant s e hne he0 hchange (by omega) hT i
    generalize (List.replicate (i + 1) e).foldl detectStep s = x at f1 f2 f3 t1 t2 c1 c2 c3 c4 c5
    have hu : u.state ≠ STATE_BITRATE := by rw [f1]; exact c1
    have hcast : ((i + 1 : Nat) : Int) = (i : Int) + 1 := by push_cast; rfl
    have hiff := timeout_iff s.bitrate s.bitrate_tolerence ((i : Int) + 1) x.n_same (by omega) c5
    have hold : e = u.sub_bit_old := by rw [t2, c4]
    obtain ⟨-, d2, d3⟩ := bitDetection_cases u e
    rw [f2, f3, t1, c2, c3] at d2 d3
    rw [hcast]
    refine ⟨hu, f2.trans c2, f3.trans c3, fun h => absurd h (by omega), fun _ hm => ?_,
      fun _ hm => ?_⟩
    · obtain ⟨b, -⟩ := d2 hold (hiff.mpr hm)
      rw [detectedBit_of_bit u _ hu, heff, b, if_pos he0]
    · obtain ⟨b, -⟩ := d3 hold (fun hc => hm (hiff.mp hc))
      rw [detectedBit_of_bit u _ hu, heff, b, if_neg (by decide)]

set_option maxRecDepth 1000000 in
/-- C21 on a line idle at 1 from the start, in fixed mode: the debounced sub-bit changes to
1 at the gap 11; no bit is detected at the gap 11 + 40, and the first bit inferred by
timeout is detected at the gap 11 + 41. -/
theorem timeout_bits_witness :
    ((reached 0 [idleBlock, idleBlock] idleBlock 3).state = STATE_FRAME ∨
        (reached 0 [idleBlock, idleBlock] idleBlock 3).state = STATE_INTERFRAME) ∧
      effectives (reached 0 [idleBlock, idleBlock] idleBlock 3).sub_bit_buffer
          (List.replicate 50 1) = List.replicate (List.replicate 50 (1 : Int)).length 1 ∧
      (1 : Int) ≠ (reached 0 [idleBlock, idleBlock] idleBlock 3).sub_bit_old ∧
      detectedBit (runSubBits (reached 0 [idleBlock, idleBlock] idleBlock 3)
          ((List.replicate 50 1).take 40)) ((List.replicate 50 1).getD 40 0) = none ∧
      detectedBit (runSubBits (reached 0 [idleBlock, idleBlock] idleBlock 3)
          ((List.replicate 50 1).take 41)) ((List.replicate 50 1).getD 41 0) = some 1 := by
  have h1 : (reached 0 [idleBlock, idleBlock] idleBlock 3).state = STATE_FRAME := by
    rw [idle_eleven]; decide!
  have h2 : effectives (reached 0 [idleBlock, idleBlock] idleBlock 3).sub_bit_buffer
      (List.replicate 50 1) = List.replicate (List.replicate 50 (1 : Int)).length 1 := by
    rw [idle_eleven]; decide!
  have h3 : (1 : Int) ≠ (reached 0 [idleBlock, idleBlock] idleBlock 3).sub_bit_old := by
    rw [idle_eleven]; decide!
  have hb : (reached 0 [idleBlock, idleBlock] idleBlock 3).bitrate = 27 := by
    rw [idle_eleven]; decide!
  have ht : (reached 0 [idleBlock, idleBlock] idleBlock 3).bitrate_tolerence = 13 := by
    rw [idle_eleven]; decide!
  have hbits : ∀ x ∈ List.replicate 50 (1 : Int), x = 0 ∨ x = 1 := by
    intro x hx
    exact Or.inr (List.eq_of_mem_replicate hx)
  refine ⟨Or.inl h1, h2, h3, ?_, ?_⟩
  · refine (timeout_bits 0 [idleBlock, idleBlock] idleBlock 3 _ (List.replicate 50 1) 1 40 rfl
      (Or.inl h1) hbits h2 h3 (by decide)).2.2.2.2.2 (by decide) ?_
    rw [hb, ht]
    rintro ⟨m, hm⟩
    push_cast at hm
    omega
  · refine (timeout_bits 0 [idleBlock, idleBlock] idleBlock 3 _ (List.replicate 50 1) 1 41 rfl
      (Or.inl h1) hbits h2 h3 (by decide)).2.2.2.2.1 (by decide) ⟨0, ?_⟩
    rw [hb, ht]
    decide

end SdrFusex
